import Mathlib

/-!
# Carmy InfoBoard: extraction / prompt / injection core

A shallow embedding of `src/index.js`.  JavaScript strings are modelled as lists of
characters (`Str`), plain objects as association lists in own-property order, and the
module-level variables `prefs`, `layoutConfig` and `customPrompt` are passed explicitly to
every function that reads them.  A function that can raise a `TypeError` returns `Except`.
-/

namespace InfoBoard

/-- A JavaScript string, as the sequence of its characters. -/
abbrev Str := List Char

/-! ## String primitives of the host language -/

/-- The characters removed by `String.prototype.trim` and matched by the regular expression
class `\s`: the ECMAScript WhiteSpace and LineTerminator code points. -/
def isWhiteSpace (c : Char) : Bool :=
  let n := c.toNat
  n == 0x09 || n == 0x0A || n == 0x0B || n == 0x0C || n == 0x0D || n == 0x20 || n == 0xA0 ||
  n == 0x1680 || (0x2000 ≤ n && n ≤ 0x200A) || n == 0x2028 || n == 0x2029 || n == 0x202F ||
  n == 0x205F || n == 0x3000 || n == 0xFEFF

/-- `s.trimStart()`. -/
def trimStart (s : Str) : Str := s.dropWhile isWhiteSpace

/-- `s.trimEnd()`. -/
def trimEnd (s : Str) : Str := (s.reverse.dropWhile isWhiteSpace).reverse

/-- `s.trim()`. -/
def trim (s : Str) : Str := trimEnd (trimStart s)

/-- `s.startsWith(pat)`. -/
def startsWith (s pat : Str) : Bool := pat.isPrefixOf s

/-- `s.endsWith(pat)`. -/
def endsWith (s pat : Str) : Bool := pat.reverse.isPrefixOf s.reverse

/-- `s.includes(pat)`: substring containment. -/
def includes : Str → Str → Bool
  | [], pat => pat.isEmpty
  | c :: cs, pat => startsWith (c :: cs) pat || includes cs pat

/-- `s.split(sep)` for a one-character separator. -/
def split (sep : Char) : Str → List Str
  | [] => [[]]
  | c :: cs =>
    if c = sep then [] :: split sep cs
    else
      match split sep cs with
      | [] => [[c]]
      | l :: ls => (c :: l) :: ls

/-- `s.indexOf(c)` for a one-character needle; `none` stands for `-1`. -/
def indexOf (c : Char) : Str → Option Nat
  | [] => none
  | d :: ds => if d = c then some 0 else (indexOf c ds).map (· + 1)

/-- `lines.join(sep)`. -/
def join (sep : Str) : List Str → Str
  | [] => []
  | [l] => l
  | l :: ls => l ++ sep ++ join sep ls

/-- Number of positions of `s` at which `pat` occurs. -/
def countOccurrences (pat : Str) : Str → Nat
  | [] => if pat.isEmpty then 1 else 0
  | c :: cs => (if startsWith (c :: cs) pat then 1 else 0) + countOccurrences pat cs

/-- The first line of a text: everything before the first line feed. -/
def firstLine (s : Str) : Str := s.takeWhile (· ≠ '\n')

/-! ## Constants and state -/

/-- Marker to prevent duplicate injection. -/
def IBS_MARKER : Str := "<!-- IBS_PROMPT -->".toList

/-- The preferences object `prefs`. -/
structure Prefs where
  «open» : Bool
  hideInChat : Bool
  stripOuterBrackets : Bool
  autoInjectPrompt : Bool
  injectRole : Str
  promptMode : Str
  showAdvanced : Bool

/-- The built-in preferences. -/
def DEFAULT_PREFS : Prefs where
  «open» := true
  hideInChat := true
  stripOuterBrackets := false
  autoInjectPrompt := true
  injectRole := "system".toList
  promptMode := "schema".toList
  showAdvanced := false

/-- A field definition of the layout.  A missing `key`, `label` or `display` is the empty
string (both are falsy in the source), a missing `subtle` is `false`. -/
structure FieldDef where
  key : Str
  label : Str
  display : Str
  subtle : Bool

/-- A section of the layout: a title and its field definitions in order. -/
structure Section where
  title : Str
  fields : List FieldDef

/-- The layout object `layoutConfig`. -/
structure Layout where
  extrasSectionTitle : Str
  sections : List Section

/-- The built-in layout. -/
def DEFAULT_LAYOUT : Layout where
  extrasSectionTitle := "Extra".toList
  sections := [
    { title := "Presence".toList,
      fields := [
        { key := "Posture".toList, label := "Posture".toList, display := "text".toList, subtle := false },
        { key := "Clothes".toList, label := "Clothes".toList, display := "text".toList, subtle := true },
        { key := "Emoji".toList, label := "Emoji".toList, display := "text".toList, subtle := true } ] },
    { title := "Mind".toList,
      fields := [
        { key := "Mood".toList, label := "Mood".toList, display := "chips".toList, subtle := false },
        { key := "Thought".toList, label := "Thought".toList, display := "mono".toList, subtle := true } ] },
    { title := "Connection".toList,
      fields := [
        { key := "Affinity".toList, label := "Affinity".toList, display := "text".toList, subtle := false },
        { key := "Arousal".toList, label := "Arousal".toList, display := "bar_text".toList, subtle := false } ] },
    { title := "World".toList,
      fields := [
        { key := "Location".toList, label := "Location".toList, display := "text".toList, subtle := false },
        { key := "Timezone".toList, label := "Time".toList, display := "text".toList, subtle := true },
        { key := "Objective".toList, label := "Objective".toList, display := "text".toList, subtle := true } ] } ]

/-! ## Prompt generation from schema -/

/-- The instruction line that `buildPromptFromSchema` emits for key `k` whose field
definition has display `display` (a missing display counts as `text`). -/
def instructionLine (k : Str) (display : Str) : Str :=
  let disp := if display = [] then "text".toList else display
  if disp = "bar_only".toList then k ++ ": [%]".toList
  else if disp = "bar_text".toList then k ++ ": [%] - [...]".toList
  else k ++ ": [...]".toList

/-- One step of the double loop of `buildPromptFromSchema` over a field `f`: the state is
the pair `(keysInOrder, keyToField)`; `keyToField.set(k, f)` puts the binding in front, so
that `List.lookup` is `keyToField.get`. -/
def schemaStep (acc : List Str × List (Str × FieldDef)) (f : FieldDef) :
    List Str × List (Str × FieldDef) :=
  if f.key = [] then acc
  else
    let k := trim f.key
    if k = [] then acc
    else
      ((if acc.1.contains k then acc.1 else acc.1 ++ [k]), (k, f) :: acc.2)

/-- The double loop of `buildPromptFromSchema`: `(keysInOrder, keyToField)` after walking
all sections and fields in order. -/
def schemaWalk (layoutConfig : Layout) : List Str × List (Str × FieldDef) :=
  layoutConfig.sections.foldl (fun acc sec => sec.fields.foldl schemaStep acc) ([], [])

/-- The fixed ten-line template used when the layout yields no key. -/
def FALLBACK_LINES : List Str := [
  "Posture: [...]".toList,
  "Clothes: [...]".toList,
  "Affinity: [...]".toList,
  "Mood: [...]".toList,
  "Emoji: [...]".toList,
  "Thought: [...]".toList,
  "Arousal: [%] - [...]".toList,
  "Location: [...]".toList,
  "Timezone: [...]".toList,
  "Objective: [...]".toList ]

/-- The array of instruction lines of `buildPromptFromSchema`, before `.join("\n")`. -/
def schemaLineList (layoutConfig : Layout) : List Str :=
  let (keysInOrder, keyToField) := schemaWalk layoutConfig
  if keysInOrder.length ≠ 0 then
    keysInOrder.map fun k =>
      match keyToField.lookup k with
      | some f => instructionLine k f.display
      | none => instructionLine k []
  else FALLBACK_LINES

/-- The constant `lines` of `buildPromptFromSchema`: the body of the code block. -/
def schemaLines (layoutConfig : Layout) : Str :=
  join "\n".toList (schemaLineList layoutConfig)

/-- The text of the template literal of `buildPromptFromSchema` between the marker and
the body. -/
def PROMPT_HEAD : Str :=
  "\nAt the beginning of your next reply, write an informational board inside of <info_board>, based on the current setting and what just happened. Keep it concise and consistent. Ensure ALL contents are inside a codeblock.\n\n<info_board>\n```\n".toList

/-- The text of the template literal of `buildPromptFromSchema` after the body. -/
def PROMPT_TAIL : Str := "\n```\n</info_board>".toList

/-- `buildPromptFromSchema()`. -/
def buildPromptFromSchema (layoutConfig : Layout) : Str :=
  IBS_MARKER ++ PROMPT_HEAD ++ schemaLines layoutConfig ++ PROMPT_TAIL

/-- `getEffectiveInjectionPrompt()`. -/
def getEffectiveInjectionPrompt (prefs : Prefs) (layoutConfig : Layout) (customPrompt : Str) :
    Str :=
  if prefs.promptMode = "custom".toList then
    let p := customPrompt
    if includes p IBS_MARKER then p else IBS_MARKER ++ "\n".toList ++ p
  else buildPromptFromSchema layoutConfig

/-! ## Injection into request payloads -/

/-- A value produced by `JSON.parse`.  An object is the list of its own properties in
order; a number is kept as an integer, since the injector and the layout loader only ask
whether it is zero. -/
inductive Json where
  | null
  | bool (b : Bool)
  | num (n : Int)
  | str (s : Str)
  | arr (elems : List Json)
  | obj (props : List (Str × Json))

/-- The `TypeError`s that the code can raise: a value that is not a function is called, a
property of `null` is read, a value that is not iterable is iterated, or an object cannot
be converted to a primitive value. -/
inductive TypeError where
  | notAFunction
  | nullProperty
  | notIterable
  | notPrimitive
  deriving DecidableEq, Repr

/-- Truthiness of a parsed value. -/
def Json.truthy : Json → Bool
  | .null => false
  | .bool b => b
  | .num n => n != 0
  | .str s => !s.isEmpty
  | .arr _ => true
  | .obj _ => true

/-- The test `typeof v === "object"`. -/
def Json.typeofObject : Json → Bool
  | .null => true
  | .arr _ => true
  | .obj _ => true
  | _ => false

/-- Property read `v.name` (or `v?.name`) for the names the injector reads (`messages`,
`prompt`, `system_prompt`, `content`) and the names read from the layout (`sections`,
`extrasSectionTitle`, `fields`, `key`), none of which is defined on a prototype: the own
property of a plain object, and `none` (`undefined`) on every other value. -/
def Json.getProp : Json → Str → Option Json
  | .obj props, name => props.lookup name
  | _, _ => none

/-- Assignment `o.name = v` to the own properties `props` of a plain object: an existing
property keeps its position, a new one is added last. -/
def setProp (name : Str) (v : Json) : List (Str × Json) → List (Str × Json)
  | [] => [(name, v)]
  | (k, w) :: rest => if k == name then (k, v) :: rest else (k, w) :: setProp name v rest

/-- Assignment `o.name = v` on a parsed value (only used on plain objects). -/
def Json.setProp : Json → Str → Json → Json
  | .obj props, name, v => .obj (InfoBoard.setProp name v props)
  | o, _, _ => o

/-- The test `x === IBS_MARKER` on a parsed value. -/
def Json.isMarker : Json → Bool
  | .str s => s == IBS_MARKER
  | _ => false

/-- The callback of `obj.messages.some`: `(m?.content || "").includes(IBS_MARKER)`.
A falsy or missing content gives `"".includes(..)`, a string its substring test, an array
`Array.prototype.includes`; a number, `true` or a plain object has no callable `includes`
and the call raises. -/
def contentHasMarker (m : Json) : Except TypeError Bool :=
  match m.getProp "content".toList with
  | none => .ok (includes [] IBS_MARKER)
  | some c =>
    if !c.truthy then .ok (includes [] IBS_MARKER)
    else
      match c with
      | .str s => .ok (includes s IBS_MARKER)
      | .arr elems => .ok (elems.any Json.isMarker)
      | _ => .error .notAFunction

/-- `Array.prototype.some` with a callback that may raise: elements are visited in order
up to the first one for which the callback returns `true` or raises. -/
def arraySome (p : Json → Except TypeError Bool) : List Json → Except TypeError Bool
  | [] => .ok false
  | m :: ms =>
    match p m with
    | .error e => .error e
    | .ok true => .ok true
    | .ok false => arraySome p ms

/-- The object `{ obj, injected }` returned by `injectIntoPayload`; `obj` is the payload
after the call. -/
structure InjectResult where
  obj : Json
  injected : Bool

/-- The message `{ role, content: promptText }` pushed by `injectIntoPayload`. -/
def injectedMessage (role promptText : Str) : Json :=
  .obj [("role".toList, .str role), ("content".toList, .str promptText)]

/-- The statements of `injectIntoPayload(obj)` from `const role = ...` on, where
`promptText` is the value that `getEffectiveInjectionPrompt()` returned.  The only
statement of these that can raise is the `some` test, which runs before any mutation of
the payload. -/
def injectPromptText (prefs : Prefs) (promptText : Str) (obj : Json) :
    Except TypeError InjectResult :=
  let role := if prefs.injectRole = "user".toList then "user".toList else "system".toList
  match obj.getProp "messages".toList with
  | some (.arr messages) =>
    match arraySome contentHasMarker messages with
    | .error e => .error e
    | .ok true => .ok { obj := obj, injected := false }
    | .ok false =>
      .ok { obj := obj.setProp "messages".toList
              (.arr (messages ++ [injectedMessage role promptText])),
            injected := true }
  | _ =>
    match obj.getProp "prompt".toList with
    | some (.str prompt) =>
      if !includes prompt IBS_MARKER then
        .ok { obj := obj.setProp "prompt".toList
                (.str (prompt ++ "\n\n".toList ++ promptText)),
              injected := true }
      else .ok { obj := obj, injected := false }
    | _ =>
      match obj.getProp "system_prompt".toList with
      | some (.str systemPrompt) =>
        if !includes systemPrompt IBS_MARKER then
          .ok { obj := obj.setProp "system_prompt".toList
                  (.str (systemPrompt ++ "\n\n".toList ++ promptText)),
                injected := true }
        else .ok { obj := obj, injected := false }
      | _ => .ok { obj := obj, injected := false }

/-! ## Words of the specification used to state the injection claims -/

/-- The string that the injector examines in message `m`: its `content` when that is a
string, the empty string when it is missing. -/
def messageContent (m : Json) : Str :=
  match m.getProp "content".toList with
  | some (.str s) => s
  | _ => []

/-- The message has a string content or none. -/
def HasStringContent (m : Json) : Prop :=
  m.getProp "content".toList = none ∨ ∃ s, m.getProp "content".toList = some (.str s)

/-- The property `name` of the payload is an array. -/
def IsArrayProp (obj : Json) (name : Str) : Prop := ∃ elems, obj.getProp name = some (.arr elems)

/-- The property `name` of the payload is a string. -/
def IsStringProp (obj : Json) (name : Str) : Prop := ∃ s, obj.getProp name = some (.str s)

/-- The field that the injector examines already contains the marker: a message of the
`messages` array, else the `prompt` string, else the `system_prompt` string. -/
def ExaminedFieldHasMarker (obj : Json) : Prop :=
  (∃ ms, obj.getProp "messages".toList = some (.arr ms) ∧
      ∃ m ∈ ms, includes (messageContent m) IBS_MARKER = true) ∨
  (¬ IsArrayProp obj "messages".toList ∧
      ∃ p, obj.getProp "prompt".toList = some (.str p) ∧ includes p IBS_MARKER = true) ∨
  (¬ IsArrayProp obj "messages".toList ∧ ¬ IsStringProp obj "prompt".toList ∧
      ∃ p, obj.getProp "system_prompt".toList = some (.str p) ∧ includes p IBS_MARKER = true)

/-- Decidable form of `HasStringContent`. -/
def hasStringContent (m : Json) : Bool :=
  match m.getProp "content".toList with
  | none => true
  | some (.str _) => true
  | _ => false

/-- If the payload has a `messages` array, each of its messages has a string content or
none.  This holds of every payload without a `messages` array. -/
def messagesHaveStringContent (obj : Json) : Bool :=
  match obj.getProp "messages".toList with
  | some (.arr ms) => ms.all hasStringContent
  | _ => true

/-! ## Words of the specification used to state the prompt-generation claims -/

/-- All field definitions of the layout, walking sections and fields in order. -/
def allFields (layoutConfig : Layout) : List FieldDef :=
  layoutConfig.sections.flatMap fun sec => sec.fields

/-- The non-blank trimmed field keys of the layout, in walking order, with repetitions. -/
def nonBlankKeys (layoutConfig : Layout) : List Str :=
  ((allFields layoutConfig).map fun f => trim f.key).filter fun k => k ≠ []

/-- The distinct elements of a list in the order of their first occurrence. -/
def firstOccurrences : List Str → List Str
  | [] => []
  | k :: ks => k :: (firstOccurrences ks).filter fun x => x ≠ k

/-- The distinct non-blank trimmed keys of the layout in the order in which they first
occur. -/
def distinctKeys (layoutConfig : Layout) : List Str :=
  firstOccurrences (nonBlankKeys layoutConfig)

/-- The last field definition of a list whose trimmed key is `k`. -/
def lastFieldWithKey (k : Str) : List FieldDef → Option FieldDef
  | [] => none
  | f :: fs =>
    match lastFieldWithKey k fs with
    | some g => some g
    | none => if trim f.key = k then some f else none

/-- The display type that decides the line of key `k`: that of the last field definition
of the layout whose trimmed key is `k`. -/
def displayFor (layoutConfig : Layout) (k : Str) : Str :=
  match lastFieldWithKey k (allFields layoutConfig) with
  | some f => f.display
  | none => []

/-- The instruction line of the specification for a key and a display type. -/
def specLine (k : Str) (display : Str) : Str :=
  if display = "bar_only".toList then k ++ ": [%]".toList
  else if display = "bar_text".toList then k ++ ": [%] - [...]".toList
  else k ++ ": [...]".toList

/-! ## Parsing -/

/-- What the functions below take from the JavaScript engine they run on.
`canonicalize` is the case folding that a regular expression with the `i` flag applies to
both sides of a character comparison; it leaves the colon, the line feed and the white
space characters alone and maps no other character to them, so these are compared as they
are.  `protoText name` is the text `String(v)` of the member `v` that `Object.prototype`
has under `name`, if it has one: a property read `data[name]` on a plain object without an
own property `name` yields that member. -/
structure Host where
  canonicalize : Char → Char
  protoText : Str → Option Str

/-- The fixed default set of ten expected keys. -/
def DEFAULT_EXPECTED_KEYS : List Str := [
  "Posture".toList, "Clothes".toList, "Affinity".toList, "Mood".toList, "Emoji".toList,
  "Thought".toList, "Arousal".toList, "Location".toList, "Timezone".toList,
  "Objective".toList ]

/-- `keys.add(k)` on a `Set` kept as the list of its elements in insertion order. -/
def setAdd (keys : List Str) (k : Str) : List Str :=
  if keys.contains k then keys else keys ++ [k]

/-- `getAllExpectedKeysFromLayout()`. -/
def getAllExpectedKeysFromLayout (layoutConfig : Layout) : List Str :=
  let keys := layoutConfig.sections.foldl
    (fun keys sec => sec.fields.foldl
      (fun keys f => if f.key ≠ [] then setAdd keys f.key else keys) keys) []
  if keys.length ≠ 0 then keys else DEFAULT_EXPECTED_KEYS

/-- The tail `\s*:` of the detection pattern, matched at the start of `r`. -/
def matchColon (r : Str) : Bool :=
  match r.dropWhile isWhiteSpace with
  | ':' :: _ => true
  | _ => false

/-- The escaped key of the detection pattern, a literal compared character by character
under the `i` flag, matched at the start of the text; the result is the rest of the text. -/
def matchLiteral (canonicalize : Char → Char) : Str → Str → Option Str
  | [], r => some r
  | _ :: _, [] => none
  | k :: ks, c :: r =>
    if canonicalize k = canonicalize c then matchLiteral canonicalize ks r else none

/-- The part `KEY\s*:` of the detection pattern, matched at the start of `r`. -/
def matchKeyColon (canonicalize : Char → Char) (key r : Str) : Bool :=
  match matchLiteral canonicalize key r with
  | some rest => matchColon rest
  | none => false

/-- The part `\s*KEY\s*:` of the detection pattern, matched at the start of `r`: the
leading `\s*` may take any number of the white-space characters that `r` starts with. -/
def matchSpaceKeyColon (canonicalize : Char → Char) (key : Str) : Str → Bool
  | [] => matchKeyColon canonicalize key []
  | c :: r =>
    matchKeyColon canonicalize key (c :: r) ||
      (isWhiteSpace c && matchSpaceKeyColon canonicalize key r)

/-- The alternative `\n` of the group `(^|\n)`: the rest of the pattern is tried after
every line feed of the text. -/
def matchAfterLineFeed (canonicalize : Char → Char) (key : Str) : Str → Bool
  | [] => false
  | c :: r =>
    (c == '\n' && matchSpaceKeyColon canonicalize key r) ||
      matchAfterLineFeed canonicalize key r

/-- `new RegExp("(^|\\n)\\s*" + escapeRegExp(k) + "\\s*:", "i").test(text)`. -/
def keyPatternTest (host : Host) (k text : Str) : Bool :=
  matchSpaceKeyColon host.canonicalize k text || matchAfterLineFeed host.canonicalize k text

/-- The detection threshold `Math.min(4, Math.max(2, n))`. -/
def threshold (n : Nat) : Nat := min 4 (max 2 n)

/-- `looksLikeInfoBoard(text)`. -/
def looksLikeInfoBoard (host : Host) (layoutConfig : Layout) (text : Str) : Bool :=
  let expected := getAllExpectedKeysFromLayout layoutConfig
  let hits := expected.foldl
    (fun hits k => if keyPatternTest host k text then hits + 1 else hits) 0
  decide (hits ≥ threshold expected.length)

/-- `maybeStripBrackets(value)`; `v.slice(1, -1)` drops the first and the last character. -/
def maybeStripBrackets (prefs : Prefs) (value : Str) : Str :=
  let v := trim value
  if !prefs.stripOuterBrackets then v
  else if startsWith v "[".toList && endsWith v "]".toList then trim (v.drop 1).dropLast
  else v

/-- Board data: the own properties of the object `data` as `Object.entries` lists them. -/
abbrev BoardData := List (Str × Str)

/-- The number denoted by a property name that is an array index: a canonical decimal
numeral below `2^32 - 1`. -/
def arrayIndex (k : Str) : Option Nat :=
  if k = [] then none
  else if !k.all Char.isDigit then none
  else if k.head? = some '0' && k.length ≠ 1 then none
  else
    let n := k.foldl (fun n c => 10 * n + (c.toNat - 48)) 0
    if n < 4294967295 then some n else none

/-- Creation of the own property `e` whose name is the array index `n`: array indices are
enumerated first, in ascending numeric order. -/
def insertIndexed (n : Nat) (e : Str × Str) : BoardData → BoardData
  | [] => [e]
  | x :: xs =>
    match arrayIndex x.1 with
    | some m => if m < n then x :: insertIndexed n e xs else e :: x :: xs
    | none => e :: x :: xs

/-- The assignment `data[key] = val` on a plain object.  The name `__proto__` reaches the
setter inherited from `Object.prototype`, which ignores a string and creates no property;
an existing property keeps its place; a new array index goes among the array indices and
any other new name goes last. -/
def objSet (data : BoardData) (key val : Str) : BoardData :=
  if key = "__proto__".toList then data
  else if data.any (fun e => e.1 == key) then
    data.map fun e => if e.1 == key then (key, val) else e
  else
    match arrayIndex key with
    | some n => insertIndexed n (key, val) data
    | none => data ++ [(key, val)]

/-- The body of the loop of `parseKeyValueLines` for one raw line. -/
def parseLine (prefs : Prefs) (data : BoardData) (raw : Str) : BoardData :=
  let line := trim raw
  if line = [] then data
  else
    match indexOf ':' line with
    | none => data
    | some idx =>
      let key := trim (line.take idx)
      let val := trim (line.drop (idx + 1))
      if key = [] then data
      else objSet data key (maybeStripBrackets prefs val)

/-- `parseKeyValueLines(text)`. -/
def parseKeyValueLines (prefs : Prefs) (text : Str) : BoardData :=
  (split '\n' text).foldl (parseLine prefs) []

/-! ## Value interpretation -/

/-- `clamp(n, a, b)`, that is `Math.max(a, Math.min(b, n))`. -/
def clamp (n a b : Nat) : Nat := max a (min b n)

/-- The tail `\s*%` of the percent pattern, matched at the start of `r`. -/
def matchPercentSign (r : Str) : Bool :=
  match r.dropWhile isWhiteSpace with
  | '%' :: _ => true
  | _ => false

/-- The pattern `(\d{1,3})\s*%` matched at the start of `s` with exactly `n` digits; the
result is the captured group. -/
def matchPercentWith (n : Nat) (s : Str) : Option Str :=
  if n ≤ s.length && (s.take n).all Char.isDigit && matchPercentSign (s.drop n) then
    some (s.take n)
  else none

/-- The pattern `(\d{1,3})\s*%` matched at the start of `s`: the greedy quantifier tries
three digits, then two, then one. -/
def matchPercentHere (s : Str) : Option Str :=
  match matchPercentWith 3 s with
  | some m => some m
  | none =>
    match matchPercentWith 2 s with
    | some m => some m
    | none => matchPercentWith 1 s

/-- The captured group of the first match of `/(\d{1,3})\s*%/` in `s`. -/
def matchPercent : Str → Option Str
  | [] => none
  | c :: r =>
    match matchPercentHere (c :: r) with
    | some m => some m
    | none => matchPercent r

/-- `parseInt(m, 10)` on a string of decimal digits. -/
def parseDigits (m : Str) : Nat := m.foldl (fun n c => 10 * n + (c.toNat - 48)) 0

/-- `getPercent(value)`; `none` is `null`.  A value `none` is `undefined`. -/
def getPercent (value : Option Str) : Option Nat :=
  match value with
  | none => none
  | some v =>
    if v = [] then none
    else
      match matchPercent v with
      | none => none
      | some m => some (clamp (parseDigits m) 0 100)

/-- The replacement `.replace(/^\[|\]$/g, "")`: an opening bracket at the start and a
closing bracket at the end are removed. -/
def stripEnclosing (s : Str) : Str :=
  let s1 := if s.head? = some '[' then s.drop 1 else s
  if s1.getLast? = some ']' then s1.dropLast else s1

/-- `splitToChips(value)`. -/
def splitToChips (value : Option Str) : List Str :=
  match value with
  | none => []
  | some v =>
    if v = [] then []
    else (((split ',' (stripEnclosing v)).map trim).filter fun s => s ≠ []).take 12

/-! ## Rendering -/

/-- A rendered field: the element tree that the rendering helpers build, reduced to what
it shows. -/
inductive Node where
  | field (label value : Str) (subtle mono : Bool)
  | chips (label : Str) (items : List Str)
  | bar (label : Str) (pct : Nat)
  | barText (label : Str) (pct : Nat) (text : Str)
  deriving DecidableEq

/-- A rendered section: its title and the fields of its body. -/
structure SectionNode where
  title : Str
  body : List Node
  deriving DecidableEq

/-- The content of the panel after `renderBoard`: the empty state or a list of sections. -/
inductive Rendered where
  | empty
  | board (sections : List SectionNode)
  deriving DecidableEq

/-- The label that a rendered field shows. -/
def Node.label : Node → Str
  | .field label _ _ _ => label
  | .chips label _ => label
  | .bar label _ => label
  | .barText label _ _ => label

/-- The property read `data[key]`: the own property if there is one, else the member that
`Object.prototype` has under that name.  Every use of the result goes through
`String(value)` or a truthiness test that agrees with it, so an inherited member is
represented by its text. -/
def getValue (host : Host) (data : BoardData) (key : Str) : Option Str :=
  match data.lookup key with
  | some v => some v
  | none => host.protoText key

/-- `section(title, bodyNodes)`: null nodes are left out of the body. -/
def sectionNode (title : Str) (bodyNodes : List (Option Node)) : SectionNode :=
  { title := title, body := bodyNodes.filterMap id }

/-- `field(label, value, { subtle, mono })`. -/
def field (label : Str) (value : Option Str) (subtle mono : Bool) : Option Node :=
  match value with
  | none => none
  | some v => if trim v = [] then none else some (.field label v subtle mono)

/-- `chips(label, items)`. -/
def chips (label : Str) (items : List Str) : Option Node :=
  if items.length = 0 then none else some (.chips label items)

/-- `barOnly(label, textValue)`. -/
def barOnly (label : Str) (textValue : Option Str) : Option Node :=
  match textValue with
  | none => none
  | some v =>
    if v = [] || trim v = [] then none
    else
      match getPercent (some v) with
      | none => none
      | some pct => some (.bar label pct)

/-- `barWithText(label, textValue)`. -/
def barWithText (label : Str) (textValue : Option Str) : Option Node :=
  match textValue with
  | none => none
  | some v =>
    if v = [] || trim v = [] then none
    else some (.barText label ((getPercent (some v)).getD 0) v)

/-- The body of the inner loop of `renderBoard` up to the test of `node`: the node that
field definition `f` (with a key) yields for the board data. -/
def renderField (host : Host) (data : BoardData) (f : FieldDef) : Option Node :=
  let key := f.key
  let label := if f.label ≠ [] then f.label else key
  let value := getValue host data key
  if f.display = "chips".toList then chips label (splitToChips value)
  else if f.display = "mono".toList then field label value f.subtle true
  else if f.display = "bar_only".toList then barOnly label value
  else if f.display = "bar_text".toList then barWithText label value
  else field label value f.subtle false

/-- The inner loop of `renderBoard` for one field; the state is `(usedKeys, bodyNodes)`. -/
def renderFieldStep (host : Host) (data : BoardData) (acc : List Str × List Node)
    (f : FieldDef) : List Str × List Node :=
  if f.key = [] then acc
  else
    match renderField host data f with
    | some node => (setAdd acc.1 f.key, acc.2 ++ [node])
    | none => acc

/-- The outer loop of `renderBoard` for one section; the state is `(usedKeys, nodes)`. -/
def renderSectionStep (host : Host) (data : BoardData) (acc : List Str × List SectionNode)
    (sec : Section) : List Str × List SectionNode :=
  let inner := sec.fields.foldl (renderFieldStep host data) (acc.1, [])
  if inner.2.length ≠ 0 then
    (inner.1, acc.2 ++
      [sectionNode (if sec.title ≠ [] then sec.title else "Section".toList)
        (inner.2.map some)])
  else (inner.1, acc.2)

/-- `renderBoard(data)`; `none` is `null`. -/
def renderBoard (host : Host) (layoutConfig : Layout) (data : Option BoardData) : Rendered :=
  match data with
  | none => .empty
  | some data =>
    if data.length = 0 then .empty
    else
      let walked := layoutConfig.sections.foldl (renderSectionStep host data) ([], [])
      let extras := data.filter fun e => !walked.1.contains e.1
      if extras.length ≠ 0 then
        .board (walked.2 ++
          [sectionNode
            (if layoutConfig.extrasSectionTitle ≠ [] then layoutConfig.extrasSectionTitle
              else "Extra".toList)
            (extras.map fun e => field e.1 (some e.2) true false)])
      else .board walked.2

/-! ## Per-character cache -/

/-- The result of `getActiveCharacterKey()`: the character identity, the displayed
character name, the chat title, or the fixed key `global`. -/
inductive ConversationKey where
  | chid (idLike : Str)
  | name (displayed : Str)
  | chat (title : Str)
  | global
  deriving DecidableEq

/-- The string that `getActiveCharacterKey()` returns. -/
def ConversationKey.toStr : ConversationKey → Str
  | .chid idLike => "chid:".toList ++ idLike
  | .name displayed => "name:".toList ++ displayed
  | .chat title => "chat:".toList ++ title
  | .global => "global".toList

/-- A cache entry `{ data, savedAt }`. -/
structure CacheEntry where
  data : BoardData
  savedAt : Nat
  deriving DecidableEq

/-- The object `boardCache`: its own properties, in creation order. -/
abbrev BoardCache := List (Str × CacheEntry)

/-- The module state that `refreshFromChat` reads and writes: the cache, the active
conversation key and the content of the panel. -/
structure PanelState where
  boardCache : BoardCache
  activeKey : ConversationKey
  content : Rendered

/-- The assignment `boardCache[key] = entry`: an existing own property is overwritten, a
new one is created; under the name `__proto__` the assignment creates no own property. -/
def cacheSet (boardCache : BoardCache) (key : Str) (entry : CacheEntry) : BoardCache :=
  if key = "__proto__".toList then boardCache
  else if boardCache.any (fun e => e.1 == key) then
    boardCache.map fun e => if e.1 == key then (key, entry) else e
  else boardCache ++ [(key, entry)]

/-- `setCacheForActive(dataObj)`; `now` is `Date.now()`. -/
def setCacheForActive (st : PanelState) (dataObj : BoardData) (now : Nat) : PanelState :=
  let key := if st.activeKey.toStr = [] then "global".toList else st.activeKey.toStr
  { st with boardCache := cacheSet st.boardCache key { data := dataObj, savedAt := now } }

/-- `getCacheForKey(key)`; `none` is `null`.  The data of an entry is an object and so
truthy; a name that `boardCache` only inherits has no `data` and gives `null` as well. -/
def getCacheForKey (boardCache : BoardCache) (key : Str) : Option BoardData :=
  match boardCache.lookup key with
  | some entry => some entry.data
  | none => none

/-! ## Chat parsing and refresh -/

/-- The loop of `getLatestInfoBoardCodeBlock` from index `i - 1` down to `0`; `codes` holds
the text content of the candidate code blocks in document order. -/
def latestBelow (host : Host) (layoutConfig : Layout) (codes : List Str) : Nat → Option Nat
  | 0 => none
  | i + 1 =>
    if looksLikeInfoBoard host layoutConfig (trim (codes.getD i [])) then some i
    else latestBelow host layoutConfig codes i

/-- `getLatestInfoBoardCodeBlock()`: the index of the returned element among the candidate
code blocks; `none` is `null`. -/
def getLatestInfoBoardCodeBlock (host : Host) (layoutConfig : Layout) (codes : List Str) :
    Option Nat :=
  latestBelow host layoutConfig codes codes.length

/-- `refreshFromChat()` as a step on the module state.  `key` is what
`getActiveCharacterKey()` returns at the call and `codes` are the candidate code blocks
that are visible then.  The sorted list `lastDetectedKeys` and the hiding of the block in
the chat are left out: neither is read by parsing, rendering or caching. -/
def refreshFromChat (host : Host) (prefs : Prefs) (layoutConfig : Layout) (st : PanelState)
    (key : ConversationKey) (codes : List Str) (now : Nat) : PanelState :=
  let st1 : PanelState := { st with activeKey := key }
  match getLatestInfoBoardCodeBlock host layoutConfig codes with
  | none =>
    match getCacheForKey st1.boardCache st1.activeKey.toStr with
    | some cached => { st1 with content := renderBoard host layoutConfig (some cached) }
    | none => { st1 with content := renderBoard host layoutConfig none }
  | some i =>
    let boardText := trim (codes.getD i [])
    let data := parseKeyValueLines prefs boardText
    let st2 : PanelState := { st1 with content := renderBoard host layoutConfig (some data) }
    setCacheForActive st2 data now

/-! ## Words of the specification used to state the parsing claims -/

/-- The pattern of the detection test, read declaratively: somewhere in the text, at its
start or right after a line feed, come white space, the key up to letter case, white
space, and a colon. -/
def HasKeyColon (canonicalize : Char → Char) (k text : Str) : Prop :=
  ∃ before ws1 lit ws2 after,
    text = before ++ ws1 ++ lit ++ ws2 ++ ':' :: after ∧
    (before = [] ∨ before.getLast? = some '\n') ∧
    ws1.all isWhiteSpace = true ∧ ws2.all isWhiteSpace = true ∧
    lit.map canonicalize = k.map canonicalize

/-- The number of expected keys that the detection test finds in the text. -/
def hitCount (host : Host) (layoutConfig : Layout) (text : Str) : Nat :=
  (getAllExpectedKeysFromLayout layoutConfig).countP fun k => keyPatternTest host k text

/-- The reading of the claim: some line of the text (the text split on line feeds), after
optional leading white space, starts with the key up to letter case, followed by optional
white space and a colon. -/
def hasKeyLine (host : Host) (k text : Str) : Bool :=
  (split '\n' text).any fun line => matchSpaceKeyColon host.canonicalize k line

/-- The number of expected keys that have such a line. -/
def lineHitCount (host : Host) (layoutConfig : Layout) (text : Str) : Nat :=
  (getAllExpectedKeysFromLayout layoutConfig).countP fun k => hasKeyLine host k text

/-- The entry that a raw line contributes to the extracted map, if any: the line is
trimmed and must contain a colon; the key is the trimmed text before the first colon and
must not be empty; the value is the trimmed text after the first colon. -/
def lineEntry (raw : Str) : Option (Str × Str) :=
  let line := trim raw
  if line.contains ':' then
    let key := trim (line.takeWhile fun c => c ≠ ':')
    let val := trim ((line.dropWhile fun c => c ≠ ':').drop 1)
    if key = [] then none else some (key, val)
  else none

/-- The value of the last of the given lines whose key is `k`. -/
def lastValue (k : Str) : List Str → Option Str
  | [] => none
  | raw :: rest =>
    match lastValue k rest with
    | some v => some v
    | none =>
      match lineEntry raw with
      | some (key, val) => if key = k then some val else none
      | none => none

/-- A host whose case folding is the upper-casing of ASCII letters and whose
`Object.prototype` has the standard members, printed the way V8 prints them. -/
def sampleHost : Host where
  canonicalize := Char.toUpper
  protoText := fun name =>
    if name = "__proto__".toList then some "[object Object]".toList
    else if name ∈ ["constructor".toList, "hasOwnProperty".toList, "isPrototypeOf".toList,
        "propertyIsEnumerable".toList, "toLocaleString".toList, "toString".toList,
        "valueOf".toList, "__defineGetter__".toList, "__defineSetter__".toList,
        "__lookupGetter__".toList, "__lookupSetter__".toList] then
      some ("function ".toList ++ (if name = "constructor".toList then "Object".toList
        else name) ++ "() \x7b [native code] \x7d".toList)
    else none

/-! ## Words of the specification used to state the rendering claims -/

/-- The title shown for a schema section. -/
def sectionTitle (sec : Section) : Str :=
  if sec.title ≠ [] then sec.title else "Section".toList

/-- The title shown for the extras section. -/
def extrasTitle (layoutConfig : Layout) : Str :=
  if layoutConfig.extrasSectionTitle ≠ [] then layoutConfig.extrasSectionTitle
  else "Extra".toList

/-- The nodes that the field definitions of a section yield for the board data, in order;
a field definition without key yields none. -/
def sectionBody (host : Host) (data : BoardData) (sec : Section) : List Node :=
  sec.fields.filterMap fun f => if f.key = [] then none else renderField host data f

/-- The schema sections of the rendered board: one per layout section with a non-empty
body, in layout order. -/
def schemaSections (host : Host) (layoutConfig : Layout) (data : BoardData) :
    List SectionNode :=
  layoutConfig.sections.filterMap fun sec =>
    if sectionBody host data sec = [] then none
    else some { title := sectionTitle sec, body := sectionBody host data sec }

/-! ## Words of the specification used to state the selection and cache claims -/

/-- The candidate block of index `i` passes detection: its trimmed text looks like an
info board. -/
def blockPasses (host : Host) (layoutConfig : Layout) (codes : List Str) (i : Nat) : Bool :=
  looksLikeInfoBoard host layoutConfig (trim (codes.getD i []))

/-! ## Words of the specification used to state the value interpretation claims -/

/-- An occurrence of the percent pattern at the start of `s` whose digits are `ds`: one to
three decimal digits, optional white space, and a percent sign. -/
def PercentHere (ds s : Str) : Prop :=
  ∃ ws post, s = ds ++ ws ++ '%' :: post ∧ 1 ≤ ds.length ∧ ds.length ≤ 3 ∧
    ds.all Char.isDigit = true ∧ ws.all isWhiteSpace = true

/-- The value has an occurrence of the percent pattern. -/
def HasPercent (v : Str) : Prop :=
  ∃ pre rest ds, v = pre ++ rest ∧ PercentHere ds rest

/-- The digits `ds` are those of the first occurrence of the percent pattern in `v`: no
occurrence starts earlier. -/
def FirstPercent (v ds : Str) : Prop :=
  ∃ pre rest, v = pre ++ rest ∧ PercentHere ds rest ∧
    ∀ pre2 rest2 ds2, v = pre2 ++ rest2 → PercentHere ds2 rest2 → pre.length ≤ pre2.length

/-! ## Words of the specification used to state the claims on detection and extraction -/

/-- The case folding of the host compares the colon and the white space characters as they
are: a character that folds like a colon is a colon, and a character that folds like a
white space character is one. -/
def Host.KeepsSeparators (host : Host) : Prop :=
  ∀ c d, host.canonicalize c = host.canonicalize d →
    (c = ':' ↔ d = ':') ∧ isWhiteSpace c = isWhiteSpace d

/-- The keys of the extracted map, as `Object.keys` lists them. -/
def objectKeys (data : BoardData) : List Str := data.map Prod.fst

/-! ## Loading the layout from storage -/

/-- What `localStorage.getItem(LAYOUT_KEY)` holds when `loadLayout` runs: nothing (`null`,
or the empty string, which is falsy as well), a text that `JSON.parse` rejects, or a text
that `JSON.parse` reads as the value `v`. -/
inductive StoredDocument where
  | missing
  | invalid
  | parsed (v : Json)

/-- A field definition of the built-in layout as a parsed value; `subtle` is only written
where it is `true`. -/
def FieldDef.toJson (f : FieldDef) : Json :=
  .obj ([("key".toList, .str f.key), ("label".toList, .str f.label),
      ("display".toList, .str f.display)] ++
    if f.subtle then [("subtle".toList, .bool true)] else [])

/-- A section as a parsed value. -/
def Section.toJson (sec : Section) : Json :=
  .obj [("title".toList, .str sec.title), ("fields".toList, .arr (sec.fields.map FieldDef.toJson))]

/-- A layout as a parsed value, with the properties in the order of `DEFAULT_LAYOUT`. -/
def Layout.toJson (layoutConfig : Layout) : Json :=
  .obj [("extrasSectionTitle".toList, .str layoutConfig.extrasSectionTitle),
    ("sections".toList, .arr (layoutConfig.sections.map Section.toJson))]

/-- Assignment `o.name = v` where `o` is a parsed object or array.  An array is kept as the
object of its named own properties: the code that reads the layout asks for no index and
no `length` of a value that received a property. -/
def Json.assign (o : Json) (name : Str) (v : Json) : Json :=
  match o with
  | .obj props => .obj (InfoBoard.setProp name v props)
  | .arr _ => .obj [(name, v)]
  | o => o

/-- The body of the loop of `loadLayout` for one element `s` of `sections`: an element
that is falsy or not an object is skipped and stays in the array, any other element
without an array `fields` gets the empty one. -/
def sanitizeSection (s : Json) : Json :=
  if !s.truthy || !s.typeofObject then s
  else
    match s.getProp "fields".toList with
    | some (.arr _) => s
    | _ => s.assign "fields".toList (.arr [])

/-- The statements of `loadLayout` that follow the assignment of `layoutConfig`; none of
them can raise. -/
def sanitizeLayout (layoutConfig : Json) : Json :=
  let layoutConfig :=
    if !layoutConfig.truthy || !layoutConfig.typeofObject then DEFAULT_LAYOUT.toJson
    else layoutConfig
  let layoutConfig :=
    match layoutConfig.getProp "sections".toList with
    | some (.arr _) => layoutConfig
    | _ => layoutConfig.assign "sections".toList
        (.arr (DEFAULT_LAYOUT.sections.map Section.toJson))
  let layoutConfig :=
    match layoutConfig.getProp "extrasSectionTitle".toList with
    | some (.str _) => layoutConfig
    | _ => layoutConfig.assign "extrasSectionTitle".toList (.str "Extra".toList)
  match layoutConfig.getProp "sections".toList with
  | some (.arr sections) =>
    layoutConfig.assign "sections".toList (.arr (sections.map sanitizeSection))
  | _ => layoutConfig

/-- `loadLayout()`: the value of `layoutConfig` after the call.  A text that `JSON.parse`
rejects reaches the `catch` block. -/
def loadLayout : StoredDocument → Json
  | .missing => sanitizeLayout DEFAULT_LAYOUT.toJson
  | .invalid => DEFAULT_LAYOUT.toJson
  | .parsed v => sanitizeLayout v

/-- Property read `v.name` without optional chaining: it raises on `null`. -/
def Json.read (v : Json) (name : Str) : Except TypeError (Option Json) :=
  match v with
  | .null => .error .nullProperty
  | v => .ok (v.getProp name)

/-- The values that `for (const x of v || [])` visits, where `v` is the result of a
property read: none for a missing or falsy `v`, the elements of an array, the characters
of a string; any other value is not iterable. -/
def iterateOrEmpty : Option Json → Except TypeError (List Json)
  | none => .ok []
  | some v =>
    if !v.truthy then .ok []
    else
      match v with
      | .arr elems => .ok elems
      | .str s => .ok (s.map fun c => .str [c])
      | _ => .error .notIterable

/-- The inner loop of `getAllExpectedKeysFromLayout` over the values `f` of one section.
`stringOf` is the conversion `String(v)` of the engine, which can raise (on an object
whose own `toString` is not callable). -/
def collectFieldKeys (stringOf : Json → Except TypeError Str) :
    List Json → List Str → Except TypeError (List Str)
  | [], keys => .ok keys
  | f :: fs, keys =>
    match f.getProp "key".toList with
    | none => collectFieldKeys stringOf fs keys
    | some key =>
      if !key.truthy then collectFieldKeys stringOf fs keys
      else
        match stringOf key with
        | .error e => .error e
        | .ok k => collectFieldKeys stringOf fs (setAdd keys k)

/-- The outer loop of `getAllExpectedKeysFromLayout` over the values `sec`. -/
def collectSectionKeys (stringOf : Json → Except TypeError Str) :
    List Json → List Str → Except TypeError (List Str)
  | [], keys => .ok keys
  | sec :: rest, keys =>
    match sec.read "fields".toList with
    | .error e => .error e
    | .ok fields =>
      match iterateOrEmpty fields with
      | .error e => .error e
      | .ok fs =>
        match collectFieldKeys stringOf fs keys with
        | .error e => .error e
        | .ok keys => collectSectionKeys stringOf rest keys

/-- `getAllExpectedKeysFromLayout()` where `layoutConfig` is the parsed value that
`loadLayout` left. -/
def Json.getAllExpectedKeysFromLayout (stringOf : Json → Except TypeError Str)
    (layoutConfig : Json) : Except TypeError (List Str) :=
  match layoutConfig.read "sections".toList with
  | .error e => .error e
  | .ok sections =>
    match iterateOrEmpty sections with
    | .error e => .error e
    | .ok secs =>
      match collectSectionKeys stringOf secs [] with
      | .error e => .error e
      | .ok keys => .ok (if keys.length ≠ 0 then keys else DEFAULT_EXPECTED_KEYS)

/-- The layout of the claim is well-formed: `sections` is a list in which every element is
an object with a `fields` list, and `extrasSectionTitle` is a string. -/
def WellFormedLayout (layoutConfig : Json) : Prop :=
  (∃ sections, layoutConfig.getProp "sections".toList = some (.arr sections) ∧
    ∀ s ∈ sections, (∃ props, s = .obj props) ∧
      ∃ fields, s.getProp "fields".toList = some (.arr fields)) ∧
  ∃ title, layoutConfig.getProp "extrasSectionTitle".toList = some (.str title)

/-! ## The effective prompt and the injector on the loaded layout -/

/-- One step of the double loop of `buildPromptFromSchema` over a value `f` of a section,
where `layoutConfig` is a parsed value: the state is the pair `(keysInOrder, keyToField)`;
`stringOf` is the conversion `String(v)` of the engine. -/
def Json.schemaStep (stringOf : Json → Except TypeError Str)
    (acc : List Str × List (Str × Json)) (f : Json) :
    Except TypeError (List Str × List (Str × Json)) :=
  match f.getProp "key".toList with
  | none => .ok acc
  | some key =>
    if !key.truthy then .ok acc
    else
      match stringOf key with
      | .error e => .error e
      | .ok s =>
        let k := trim s
        if k = [] then .ok acc
        else .ok ((if acc.1.contains k then acc.1 else acc.1 ++ [k]), (k, f) :: acc.2)

/-- The inner loop of `buildPromptFromSchema` over the values `f` of one section. -/
def walkFields (stringOf : Json → Except TypeError Str) :
    List Json → List Str × List (Str × Json) →
      Except TypeError (List Str × List (Str × Json))
  | [], acc => .ok acc
  | f :: fs, acc =>
    match Json.schemaStep stringOf acc f with
    | .error e => .error e
    | .ok acc => walkFields stringOf fs acc

/-- The outer loop of `buildPromptFromSchema` over the values `sec`; the read `sec.fields`
raises on `null`. -/
def walkSections (stringOf : Json → Except TypeError Str) :
    List Json → List Str × List (Str × Json) →
      Except TypeError (List Str × List (Str × Json))
  | [], acc => .ok acc
  | sec :: rest, acc =>
    match sec.read "fields".toList with
    | .error e => .error e
    | .ok fields =>
      match iterateOrEmpty fields with
      | .error e => .error e
      | .ok fs =>
        match walkFields stringOf fs acc with
        | .error e => .error e
        | .ok acc => walkSections stringOf rest acc

/-- The instruction line of key `k` where `f` is `keyToField.get(k)`: `f.display || "text"`
is compared with `===`, so only a string selects a bar. -/
def Json.instructionLine (k : Str) (f : Option Json) : Str :=
  match f with
  | some f =>
    match f.getProp "display".toList with
    | some (.str display) => InfoBoard.instructionLine k display
    | _ => k ++ ": [...]".toList
  | none => k ++ ": [...]".toList

/-- `buildPromptFromSchema()` where `layoutConfig` is the parsed value that `loadLayout`
left. -/
def Json.buildPromptFromSchema (stringOf : Json → Except TypeError Str)
    (layoutConfig : Json) : Except TypeError Str :=
  match layoutConfig.read "sections".toList with
  | .error e => .error e
  | .ok sections =>
    match iterateOrEmpty sections with
    | .error e => .error e
    | .ok secs =>
      match walkSections stringOf secs ([], []) with
      | .error e => .error e
      | .ok (keysInOrder, keyToField) =>
        let lines :=
          if keysInOrder.length ≠ 0 then
            keysInOrder.map fun k => Json.instructionLine k (keyToField.lookup k)
          else FALLBACK_LINES
        .ok (IBS_MARKER ++ PROMPT_HEAD ++ join "\n".toList lines ++ PROMPT_TAIL)

/-- `getEffectiveInjectionPrompt()` where `layoutConfig` is the parsed value that
`loadLayout` left: in schema mode it raises when `buildPromptFromSchema` does. -/
def Json.getEffectiveInjectionPrompt (stringOf : Json → Except TypeError Str)
    (prefs : Prefs) (layoutConfig : Json) (customPrompt : Str) : Except TypeError Str :=
  if prefs.promptMode = "custom".toList then
    let p := customPrompt
    .ok (if includes p IBS_MARKER then p else IBS_MARKER ++ "\n".toList ++ p)
  else Json.buildPromptFromSchema stringOf layoutConfig

/-- `injectIntoPayload(obj)`.  The state is the preferences, the layout as `loadLayout`
left it and the custom prompt.  The call raises when `getEffectiveInjectionPrompt()` does,
which is after the two guards and before the payload is read, or when the `some` test
does, which is before any mutation of the payload. -/
def injectIntoPayload (stringOf : Json → Except TypeError Str) (prefs : Prefs)
    (layoutConfig : Json) (customPrompt : Str) (obj : Json) :
    Except TypeError InjectResult :=
  if !prefs.autoInjectPrompt then .ok { obj := obj, injected := false }
  else if !obj.truthy || !obj.typeofObject then .ok { obj := obj, injected := false }
  else
    match Json.getEffectiveInjectionPrompt stringOf prefs layoutConfig customPrompt with
    | .error e => .error e
    | .ok promptText => injectPromptText prefs promptText obj

mutual
/-- The conversion `String(v)` of a parsed value as the engines do it, numbers being
integers of magnitude below `10^21`: an array prints its elements separated by commas, an
object prints as `[object Object]` unless it has an own property `toString`, which cannot
be called, so that the conversion raises. -/
def sampleStringOf : Json → Except TypeError Str
  | .null => .ok "null".toList
  | .bool b => .ok (if b then "true".toList else "false".toList)
  | .num n => .ok (toString n).toList
  | .str s => .ok s
  | .arr elems => sampleJoin elems
  | .obj props =>
    if props.any (fun p => p.1 == "toString".toList) then .error .notPrimitive
    else .ok "[object Object]".toList
/-- The method `Array.prototype.join` with the separator `,`: `null` prints as the empty
string. -/
def sampleJoin : List Json → Except TypeError Str
  | [] => .ok []
  | x :: xs =>
    match (match x with
      | .null => (Except.ok [] : Except TypeError Str)
      | x => sampleStringOf x) with
    | .error e => .error e
    | .ok s =>
      match xs with
      | [] => .ok s
      | _ :: _ =>
        match sampleJoin xs with
        | .error e => .error e
        | .ok t => .ok (s ++ ',' :: t)
end

/-! ## Words of the specification used to state the chip-splitting claim -/

/-- One layer of enclosing `[...]` stripped, in the words of the claim: a value that starts
with `[` and ends with `]` loses both, any other value is left as it is. -/
def stripOneLayer (v : Str) : Str :=
  if v.head? = some '[' ∧ v.getLast? = some ']' ∧ 2 ≤ v.length then (v.drop 1).dropLast
  else v

/-- The steps of the claim: strip one layer of enclosing `[...]`, split on commas, trim
each item, drop the empty items, keep the first 12. -/
def chipsOfClaim (v : Str) : List Str :=
  (((split ',' (stripOneLayer v)).map trim).filter fun s => s ≠ []).take 12

/-! ## Sample inputs -/

/-- The message `{ role: "user", content: "Hello" }`. -/
def helloMessage : Json :=
  .obj [("role".toList, .str "user".toList), ("content".toList, .str "Hello".toList)]

/-- The chat payload `{ messages: [{ role: "user", content: "Hello" }] }`. -/
def chatPayload : Json := .obj [("messages".toList, .arr [helloMessage])]

/-- The preferences with `promptMode = "custom"`. -/
def customPrefs : Prefs := { DEFAULT_PREFS with promptMode := "custom".toList }

/-- The preferences with `injectRole = "user"`. -/
def userRolePrefs : Prefs := { DEFAULT_PREFS with injectRole := "user".toList }

/-- The payload `{ messages: [], prompt: "Hi" }`, which has two of the recognised shapes. -/
def mixedPayload : Json :=
  .obj [("messages".toList, .arr []), ("prompt".toList, .str "Hi".toList)]

/-- A text in which four keys of the built-in layout are each followed by a line break
before the colon. -/
def brokenLinesText : Str := "Posture\n: a\nClothes\n: b\nAffinity\n: c\nMood\n: d".toList

/-- The preferences with `stripOuterBrackets` enabled. -/
def stripPrefs : Prefs := { DEFAULT_PREFS with stripOuterBrackets := true }

/-- The layout of the scenario: one section `Mind` with the field `Mood` shown as chips. -/
def mindLayout : Layout where
  extrasSectionTitle := "Extra".toList
  sections := [
    { title := "Mind".toList,
      fields := [
        { key := "Mood".toList, label := [], display := "chips".toList, subtle := false } ] } ]

/-- The text of the scenario. -/
def mindText : Str := "Mood: [happy, curious]\nExtra: foo".toList

/-- A layout with a single field key. -/
def singleKeyLayout : Layout where
  extrasSectionTitle := "Extra".toList
  sections := [
    { title := "Mind".toList,
      fields := [
        { key := "Mood".toList, label := [], display := "text".toList, subtle := false } ] } ]

/-- A board that names every key of the built-in layout. -/
def fullBoardText : Str :=
  "Posture: sitting\nClothes: coat\nEmoji: :)\nMood: [calm]\nThought: hm\nAffinity: 3\nArousal: 10% - low\nLocation: home\nTimezone: noon\nObjective: rest".toList

/-- A layout in which the key `Mood` is defined twice, first as a bar and then as text. -/
def duplicateKeyLayout : Layout where
  extrasSectionTitle := "Extra".toList
  sections := [
    { title := "Bars".toList,
      fields := [
        { key := "Mood".toList, label := [], display := "bar_only".toList, subtle := false } ] },
    { title := "Texts".toList,
      fields := [
        { key := "Mood".toList, label := [], display := "text".toList, subtle := false } ] } ]

/-- A layout with the single field `Energy`, shown as a bar only. -/
def barOnlyLayout : Layout where
  extrasSectionTitle := "Extra".toList
  sections := [
    { title := "Stats".toList,
      fields := [
        { key := "Energy".toList, label := [], display := "bar_only".toList,
          subtle := false } ] } ]

/-- The state at start-up: an empty cache, the key `global` and the empty panel. -/
def initialState : PanelState :=
  { boardCache := [], activeKey := .global, content := .empty }

/-- Two candidate blocks: some code, then a board. -/
def sampleCodes : List Str := ["let x = 1".toList, fullBoardText]

/-- A text in which four keys of the built-in layout stand alone on their line and the
colon opens the next line. -/
def colonBelowText : Str :=
  "Mood\n: calm\nThought\n: none\nLocation\n: home\nObjective\n: rest".toList

/-- A layout with two field keys that no extracted key can equal: one starts with a space
and one contains a colon. -/
def oddKeysLayout : Layout where
  extrasSectionTitle := "Extra".toList
  sections := [
    { title := "Odd".toList,
      fields := [
        { key := " Mood".toList, label := [], display := "text".toList, subtle := false },
        { key := "a:b".toList, label := [], display := "text".toList, subtle := false } ] } ]

/-- The stored layout document `{"sections":[null]}`. -/
def nullSectionDocument : StoredDocument :=
  .parsed (.obj [("sections".toList, .arr [.null])])

/-- The layout that `loadLayout` leaves for the stored document `{"sections":[null]}`. -/
def nullSectionLayout : Json := loadLayout nullSectionDocument

/-- The payload `{ prompt: "<!-- IBS_PROMPT --> Hi" }`, whose examined field contains the
marker. -/
def markedPayload : Json := .obj [("prompt".toList, .str "<!-- IBS_PROMPT --> Hi".toList)]

/-- The payload `{ prompt: "Hi" }`. -/
def promptPayload : Json := .obj [("prompt".toList, .str "Hi".toList)]

/-- The payload `{}`, which has none of the three shapes. -/
def emptyPayload : Json := .obj []

/-! # Theorems -/

/-! ## String lemmas -/

theorem includes_iff_segment (s pat : Str) : includes s pat = true ↔ pat <:+: s := by
  induction s with
  | nil => simp [includes, List.infix_nil]
  | cons c cs ih =>
    simp only [includes, startsWith, Bool.or_eq_true, ih, List.infix_cons_iff,
      List.isPrefixOf_iff_prefix]

theorem includes_append_right {s pat : Str} (t : Str) (h : includes s pat = true) :
    includes (t ++ s) pat = true := by
  rw [includes_iff_segment] at h ⊢
  exact h.trans (List.suffix_append t s).isInfix

theorem includes_self_append (pat t : Str) : includes (pat ++ t) pat = true := by
  rw [includes_iff_segment]
  exact (List.prefix_append pat t).isInfix

theorem countOccurrences_eq_zero {pat : Str} (hp : pat ≠ []) :
    ∀ s : Str, includes s pat = false → countOccurrences pat s = 0
  | [], _ => by
    cases pat with
    | nil => exact absurd rfl hp
    | cons a as => simp [countOccurrences]
  | c :: cs, h => by
    simp only [includes, Bool.or_eq_false_iff] at h
    simp [countOccurrences, h.1, countOccurrences_eq_zero hp cs h.2]

theorem firstLine_marker_newline (rest : Str) :
    firstLine (IBS_MARKER ++ '\n' :: rest) = IBS_MARKER := by
  simp [firstLine, IBS_MARKER, List.takeWhile]

theorem IBS_MARKER_chars :
    IBS_MARKER = ['<', '!', '-', '-', ' ', 'I', 'B', 'S', '_', 'P', 'R', 'O', 'M', 'P', 'T',
      ' ', '-', '-', '>'] := rfl

theorem countOccurrences_marker_prepend (p : Str) (h : includes p IBS_MARKER = false) :
    countOccurrences IBS_MARKER (IBS_MARKER ++ '\n' :: p) = 1 := by
  have h0 : countOccurrences IBS_MARKER p = 0 :=
    countOccurrences_eq_zero (by decide) p h
  rw [IBS_MARKER_chars] at h0 ⊢
  simp [countOccurrences, startsWith, h0]

theorem promptHead_eq : ∃ rest, PROMPT_HEAD = '\n' :: rest := ⟨_, rfl⟩

/-! ## C5, C6: the effective prompt -/

/-- C5 as stated fails: in custom mode a custom text that holds the marker anywhere but on
its first line is used verbatim, so the first line of the effective prompt is not the
marker. -/
theorem effectivePrompt_firstLine_counterexample :
    firstLine (getEffectiveInjectionPrompt customPrefs DEFAULT_LAYOUT
      "Status board. <!-- IBS_PROMPT -->".toList) ≠ IBS_MARKER := by
  decide

/-- C5 (amended): in schema mode for every layout, and in custom mode for every custom text
that either does not contain the marker or already has it as its first line, the first
line of `getEffectiveInjectionPrompt()` is exactly the marker. -/
theorem effectivePrompt_firstLine (prefs : Prefs) (layoutConfig : Layout) (customPrompt : Str)
    (h : prefs.promptMode = "custom".toList → includes customPrompt IBS_MARKER = true →
      firstLine customPrompt = IBS_MARKER) :
    firstLine (getEffectiveInjectionPrompt prefs layoutConfig customPrompt) = IBS_MARKER := by
  unfold getEffectiveInjectionPrompt
  by_cases hm : prefs.promptMode = "custom".toList
  · by_cases hi : includes customPrompt IBS_MARKER = true
    · simpa [hm, hi] using h hm hi
    · simpa [hm, hi] using firstLine_marker_newline customPrompt
  · obtain ⟨rest, hrest⟩ := promptHead_eq
    simp only [hm, if_false, buildPromptFromSchema, hrest, List.append_assoc, List.cons_append]
    exact firstLine_marker_newline _

/-- Witness for C5 (amended): a custom text that starts with the marker line. -/
theorem effectivePrompt_firstLine_witness :
    firstLine (getEffectiveInjectionPrompt customPrefs DEFAULT_LAYOUT
      "<!-- IBS_PROMPT -->\nWrite a status.".toList) = IBS_MARKER :=
  effectivePrompt_firstLine customPrefs DEFAULT_LAYOUT
    "<!-- IBS_PROMPT -->\nWrite a status.".toList (fun _ _ => by decide)

/-- C6: in custom prompt mode, a custom text that contains the marker is the effective
prompt verbatim; otherwise the effective prompt is the marker, a newline, then the text,
and the marker occurs exactly once in it. -/
theorem effectivePrompt_custom (prefs : Prefs) (layoutConfig : Layout) (p : Str)
    (hmode : prefs.promptMode = "custom".toList) :
    (includes p IBS_MARKER = true →
        getEffectiveInjectionPrompt prefs layoutConfig p = p) ∧
    (includes p IBS_MARKER = false →
        getEffectiveInjectionPrompt prefs layoutConfig p = IBS_MARKER ++ "\n".toList ++ p ∧
        countOccurrences IBS_MARKER (getEffectiveInjectionPrompt prefs layoutConfig p) = 1) := by
  unfold getEffectiveInjectionPrompt
  refine ⟨fun hi => by simp [hmode, hi], fun hi => ?_⟩
  have hc := countOccurrences_marker_prepend p hi
  simp only [hmode, hi, if_true, Bool.false_eq_true, if_false, true_and]
  simpa using hc

/-- Witness for C6: the custom text `Write a status.` of the specification. -/
theorem effectivePrompt_custom_witness :
    getEffectiveInjectionPrompt customPrefs DEFAULT_LAYOUT "Write a status.".toList
      = "<!-- IBS_PROMPT -->\nWrite a status.".toList ∧
    countOccurrences IBS_MARKER
      (getEffectiveInjectionPrompt customPrefs DEFAULT_LAYOUT "Write a status.".toList) = 1 :=
  (effectivePrompt_custom customPrefs DEFAULT_LAYOUT "Write a status.".toList rfl).2
    (by decide)

/-! ## Lemmas on payload objects and the injector -/

theorem lookup_setProp_self (name : Str) (v : Json) :
    ∀ props : List (Str × Json), (setProp name v props).lookup name = some v
  | [] => by simp [setProp, List.lookup]
  | (k, w) :: rest => by
    by_cases hk : k = name
    · subst hk; simp [setProp, List.lookup]
    · have hb : (k == name) = false := by simpa using hk
      have hb2 : (name == k) = false := by simpa using fun h : name = k => hk h.symm
      simp only [setProp, hb, List.lookup, hb2]
      exact lookup_setProp_self name v rest

theorem lookup_setProp_ne {name k : Str} (v : Json) (hne : k ≠ name) :
    ∀ props : List (Str × Json), (setProp name v props).lookup k = props.lookup k
  | [] => by
    have hb : (k == name) = false := by simpa using hne
    simp [setProp, List.lookup, hb]
  | (k2, w) :: rest => by
    by_cases hk : k2 = name
    · subst hk
      have hb : (k == k2) = false := by simpa using hne
      simp [setProp, List.lookup, hb]
    · have hb : (k2 == name) = false := by simpa using hk
      simp only [setProp, hb, List.lookup]
      rw [lookup_setProp_ne v hne rest]

theorem getProp_some_isObj {obj : Json} {name : Str} {v : Json}
    (h : obj.getProp name = some v) : ∃ props, obj = .obj props := by
  cases obj <;> simp [Json.getProp] at h
  exact ⟨_, rfl⟩

theorem getProp_setProp_self {obj : Json} {name : Str} {w : Json} (v : Json)
    (h : obj.getProp name = some w) : (obj.setProp name v).getProp name = some v := by
  obtain ⟨props, rfl⟩ := getProp_some_isObj h
  simp [Json.setProp, Json.getProp, lookup_setProp_self]

theorem getProp_setProp_ne (obj : Json) {name k : Str} (v : Json) (hne : k ≠ name) :
    (obj.setProp name v).getProp k = obj.getProp k := by
  cases obj <;> simp [Json.setProp, Json.getProp, lookup_setProp_ne v hne]

theorem effectivePrompt_includes_marker (prefs : Prefs) (layoutConfig : Layout)
    (customPrompt : Str) :
    includes (getEffectiveInjectionPrompt prefs layoutConfig customPrompt) IBS_MARKER = true := by
  unfold getEffectiveInjectionPrompt
  by_cases hm : prefs.promptMode = "custom".toList
  · by_cases hi : includes customPrompt IBS_MARKER = true
    · simp only [hm, hi, if_true]
    · simp only [hm, hi, if_true, if_false, Bool.false_eq_true, List.append_assoc]
      exact includes_self_append IBS_MARKER _
  · simp only [hm, if_false, buildPromptFromSchema, List.append_assoc]
    exact includes_self_append IBS_MARKER _

theorem contentHasMarker_of_string {m : Json} (h : HasStringContent m) :
    contentHasMarker m = .ok (includes (messageContent m) IBS_MARKER) := by
  rcases h with h | ⟨s, h⟩
  · simp only [contentHasMarker, messageContent, h]
  · cases s with
    | nil => simp only [contentHasMarker, messageContent, h]; rfl
    | cons c cs => simp only [contentHasMarker, messageContent, h]; rfl

theorem arraySome_of_string :
    ∀ ms : List Json, (∀ m ∈ ms, HasStringContent m) →
      arraySome contentHasMarker ms
        = .ok (ms.any fun m => includes (messageContent m) IBS_MARKER)
  | [], _ => rfl
  | m :: ms, h => by
    have hm := contentHasMarker_of_string (h m (List.mem_cons_self _ _))
    have ih := arraySome_of_string ms (fun x hx => h x (List.mem_cons_of_mem _ hx))
    cases hb : includes (messageContent m) IBS_MARKER <;>
      simp [arraySome, hm, hb, ih]

theorem arraySome_append_singleton {p : Json → Except TypeError Bool} {m : Json} {b : Bool}
    (hm : p m = .ok b) :
    ∀ ms : List Json, arraySome p ms = .ok false → arraySome p (ms ++ [m]) = .ok b
  | [], _ => by cases b <;> simp [arraySome, hm]
  | x :: xs, h => by
    simp only [arraySome, List.cons_append] at h ⊢
    cases hx : p x with
    | error e => simp [hx] at h
    | ok bx =>
      cases bx with
      | true => simp [hx] at h
      | false =>
        simp only [hx] at h ⊢
        exact arraySome_append_singleton hm xs h

theorem contentHasMarker_injectedMessage (role promptText : Str)
    (hinc : includes promptText IBS_MARKER = true) :
    contentHasMarker (injectedMessage role promptText) = .ok true := by
  have hne : promptText ≠ [] := by
    intro h
    rw [h] at hinc
    exact absurd hinc (by decide)
  cases hp : promptText with
  | nil => exact absurd hp hne
  | cons c cs =>
    rw [hp] at hinc
    have hl : (injectedMessage role (c :: cs)).getProp "content".toList
        = some (.str (c :: cs)) := rfl
    simp only [contentHasMarker, hl, hinc]
    rfl

theorem inject_messages (prefs : Prefs) (promptText : Str)
    {obj : Json} {ms : List Json}
    (hm : obj.getProp "messages".toList = some (.arr ms)) :
    injectPromptText prefs promptText obj =
      match arraySome contentHasMarker ms with
      | .error e => .error e
      | .ok true => .ok { obj := obj, injected := false }
      | .ok false =>
        .ok { obj := obj.setProp "messages".toList
                (.arr (ms ++ [injectedMessage
                  (if prefs.injectRole = "user".toList then "user".toList else "system".toList)
                  (promptText)])),
              injected := true } := by
  unfold injectPromptText
  simp only [hm]

theorem inject_prompt (prefs : Prefs) (promptText : Str)
    {obj : Json} {p : Str}
    (hm : ¬ IsArrayProp obj "messages".toList)
    (hp : obj.getProp "prompt".toList = some (.str p)) :
    injectPromptText prefs promptText obj =
      if includes p IBS_MARKER = true then .ok { obj := obj, injected := false }
      else .ok { obj := obj.setProp "prompt".toList
                  (.str (p ++ "\n\n".toList ++
                    promptText)),
                 injected := true } := by
  unfold injectPromptText
  simp only []
  split
  · next ms hms => exact absurd ⟨ms, hms⟩ hm
  · simp only [hp]
    cases includes p IBS_MARKER <;> rfl

theorem inject_system (prefs : Prefs) (promptText : Str)
    {obj : Json} {p : Str}
    (hm : ¬ IsArrayProp obj "messages".toList) (hpr : ¬ IsStringProp obj "prompt".toList)
    (hp : obj.getProp "system_prompt".toList = some (.str p)) :
    injectPromptText prefs promptText obj =
      if includes p IBS_MARKER = true then .ok { obj := obj, injected := false }
      else .ok { obj := obj.setProp "system_prompt".toList
                  (.str (p ++ "\n\n".toList ++
                    promptText)),
                 injected := true } := by
  unfold injectPromptText
  simp only []
  split
  · next ms hms => exact absurd ⟨ms, hms⟩ hm
  · split
    · next q hq => exact absurd ⟨q, hq⟩ hpr
    · simp only [hp]
      cases includes p IBS_MARKER <;> rfl

theorem inject_noShape (prefs : Prefs) (promptText : Str)
    {obj : Json} (hm : ¬ IsArrayProp obj "messages".toList)
    (hpr : ¬ IsStringProp obj "prompt".toList)
    (hsp : ¬ IsStringProp obj "system_prompt".toList) :
    injectPromptText prefs promptText obj
      = .ok { obj := obj, injected := false } := by
  unfold injectPromptText
  simp only []
  split
  · next ms hms => exact absurd ⟨ms, hms⟩ hm
  · split
    · next q hq => exact absurd ⟨q, hq⟩ hpr
    · split
      · next q hq => exact absurd ⟨q, hq⟩ hsp
      · rfl

theorem messages_ne_prompt : "messages".toList ≠ "prompt".toList := by decide

theorem messages_ne_system : "messages".toList ≠ "system_prompt".toList := by decide

theorem prompt_ne_system : "prompt".toList ≠ "system_prompt".toList := by decide

/-- A second call on the payload returned by a first call reports no change. -/
theorem inject_twice (prefs : Prefs) (promptText : Str)
    (hinc : includes promptText IBS_MARKER = true) (obj : Json) (r : InjectResult)
    (h : injectPromptText prefs promptText obj = .ok r) :
    injectPromptText prefs promptText r.obj
      = .ok { obj := r.obj, injected := false } := by
  by_cases hm : IsArrayProp obj "messages".toList
  · obtain ⟨ms, hms⟩ := hm
    rw [inject_messages _ _ hms] at h
    cases hsome : arraySome contentHasMarker ms with
    | error e => simp [hsome] at h
    | ok b =>
      cases b with
      | true =>
        simp only [hsome, Except.ok.injEq] at h
        subst h
        simp only [inject_messages _ _ hms, hsome]
      | false =>
        simp only [hsome, Except.ok.injEq] at h
        subst h
        have hms2 := getProp_setProp_self (.arr (ms ++ [injectedMessage
          (if prefs.injectRole = "user".toList then "user".toList else "system".toList)
          (promptText)])) hms
        have hs2 := arraySome_append_singleton
          (contentHasMarker_injectedMessage
            (if prefs.injectRole = "user".toList then "user".toList else "system".toList)
            promptText hinc) ms hsome
        simp only [inject_messages _ _ hms2, hs2]
  · by_cases hp : IsStringProp obj "prompt".toList
    · obtain ⟨p, hp⟩ := hp
      rw [inject_prompt _ _ hm hp] at h
      by_cases hi : includes p IBS_MARKER = true
      · simp only [hi, if_true, Except.ok.injEq] at h
        subst h
        simp only [inject_prompt _ _ hm hp, hi, if_true]
      · simp only [hi, if_false, Bool.false_eq_true, Except.ok.injEq] at h
        subst h
        have hm2 : ¬ IsArrayProp (obj.setProp "prompt".toList (.str (p ++ "\n\n".toList ++
            promptText))) "messages".toList := by
          rintro ⟨ms, hms⟩
          rw [getProp_setProp_ne obj _ messages_ne_prompt] at hms
          exact hm ⟨ms, hms⟩
        have hp2 := getProp_setProp_self (.str (p ++ "\n\n".toList ++
            promptText)) hp
        have hi2 : includes (p ++ "\n\n".toList ++
            promptText) IBS_MARKER = true :=
          includes_append_right _ hinc
        simp only [inject_prompt _ _ hm2 hp2, hi2, if_true]
    · by_cases hsp : IsStringProp obj "system_prompt".toList
      · obtain ⟨p, hsp⟩ := hsp
        rw [inject_system _ _ hm hp hsp] at h
        by_cases hi : includes p IBS_MARKER = true
        · simp only [hi, if_true, Except.ok.injEq] at h
          subst h
          simp only [inject_system _ _ hm hp hsp, hi, if_true]
        · simp only [hi, if_false, Bool.false_eq_true, Except.ok.injEq] at h
          subst h
          have hm2 : ¬ IsArrayProp (obj.setProp "system_prompt".toList (.str (p ++
              "\n\n".toList ++ promptText)))
              "messages".toList := by
            rintro ⟨ms, hms⟩
            rw [getProp_setProp_ne obj _ messages_ne_system] at hms
            exact hm ⟨ms, hms⟩
          have hp2 : ¬ IsStringProp (obj.setProp "system_prompt".toList (.str (p ++
              "\n\n".toList ++ promptText)))
              "prompt".toList := by
            rintro ⟨q, hq⟩
            rw [getProp_setProp_ne obj _ prompt_ne_system] at hq
            exact hp ⟨q, hq⟩
          have hsp2 := getProp_setProp_self (.str (p ++ "\n\n".toList ++
              promptText)) hsp
          have hi2 : includes (p ++ "\n\n".toList ++
              promptText) IBS_MARKER = true :=
            includes_append_right _ hinc
          simp only [inject_system _ _ hm2 hp2 hsp2, hi2, if_true]
      · rw [inject_noShape _ _ hm hp hsp] at h
        simp only [Except.ok.injEq] at h
        subst h
        exact inject_noShape _ _ hm hp hsp

theorem hasStringContent_iff (m : Json) : hasStringContent m = true ↔ HasStringContent m := by
  unfold hasStringContent HasStringContent
  cases h : m.getProp "content".toList with
  | none => simp
  | some c => cases c <;> simp

theorem inject_total_of_string (prefs : Prefs) (promptText : Str)
    (obj : Json) (hmsgs : messagesHaveStringContent obj = true) :
    ∃ r, injectPromptText prefs promptText obj = .ok r := by
  by_cases hm : IsArrayProp obj "messages".toList
  · obtain ⟨ms, hms⟩ := hm
    have hall : ∀ m ∈ ms, HasStringContent m := by
      intro m hmem
      simp only [messagesHaveStringContent, hms, List.all_eq_true] at hmsgs
      exact (hasStringContent_iff m).1 (hmsgs m hmem)
    rw [inject_messages _ _ hms, arraySome_of_string ms hall]
    cases ms.any fun m => includes (messageContent m) IBS_MARKER <;> exact ⟨_, rfl⟩
  · by_cases hp : IsStringProp obj "prompt".toList
    · obtain ⟨p, hp⟩ := hp
      rw [inject_prompt _ _ hm hp]
      by_cases hi : includes p IBS_MARKER = true
      · exact ⟨_, if_pos hi⟩
      · exact ⟨_, if_neg hi⟩
    · by_cases hsp : IsStringProp obj "system_prompt".toList
      · obtain ⟨p, hsp⟩ := hsp
        rw [inject_system _ _ hm hp hsp]
        by_cases hi : includes p IBS_MARKER = true
        · exact ⟨_, if_pos hi⟩
        · exact ⟨_, if_neg hi⟩
      · exact ⟨_, inject_noShape _ _ hm hp hsp⟩

theorem inject_of_examined_marker (prefs : Prefs) (promptText : Str)
    (obj : Json) (hmsgs : messagesHaveStringContent obj = true)
    (hmark : ExaminedFieldHasMarker obj) :
    injectPromptText prefs promptText obj
      = .ok { obj := obj, injected := false } := by
  rcases hmark with ⟨ms, hms, m, hmem, hinc⟩ | ⟨hm, p, hp, hinc⟩ | ⟨hm, hpr, p, hp, hinc⟩
  · have hall : ∀ m ∈ ms, HasStringContent m := by
      intro m hmem
      simp only [messagesHaveStringContent, hms, List.all_eq_true] at hmsgs
      exact (hasStringContent_iff m).1 (hmsgs m hmem)
    have hany : (ms.any fun m => includes (messageContent m) IBS_MARKER) = true :=
      List.any_eq_true.2 ⟨m, hmem, hinc⟩
    rw [inject_messages _ _ hms, arraySome_of_string ms hall, hany]
  · rw [inject_prompt _ _ hm hp, if_pos hinc]
  · rw [inject_system _ _ hm hpr hp, if_pos hinc]

/-- At most one branch of the statements after the prompt fires, in the priority order
messages, prompt, system_prompt; without any of the three shapes nothing changes; and
they can only raise while the messages of a `messages` array are tested. -/
theorem injectPromptText_one_branch (prefs : Prefs) (promptText : Str) (obj : Json) :
    match injectPromptText prefs promptText obj with
    | .ok r =>
      (IsArrayProp obj "messages".toList →
        r.obj.getProp "prompt".toList = obj.getProp "prompt".toList ∧
        r.obj.getProp "system_prompt".toList = obj.getProp "system_prompt".toList) ∧
      (¬ IsArrayProp obj "messages".toList → IsStringProp obj "prompt".toList →
        r.obj.getProp "messages".toList = obj.getProp "messages".toList ∧
        r.obj.getProp "system_prompt".toList = obj.getProp "system_prompt".toList) ∧
      (¬ IsArrayProp obj "messages".toList → ¬ IsStringProp obj "prompt".toList →
        r.obj.getProp "messages".toList = obj.getProp "messages".toList ∧
        r.obj.getProp "prompt".toList = obj.getProp "prompt".toList) ∧
      ((¬ IsArrayProp obj "messages".toList ∧ ¬ IsStringProp obj "prompt".toList ∧
            ¬ IsStringProp obj "system_prompt".toList) →
        r = { obj := obj, injected := false })
    | .error _ => IsArrayProp obj "messages".toList := by
  by_cases hm : IsArrayProp obj "messages".toList
  · obtain ⟨ms, hms⟩ := hm
    rw [inject_messages _ _ hms]
    cases hsome : arraySome contentHasMarker ms with
    | error e => exact ⟨ms, hms⟩
    | ok b =>
      cases b with
      | true => simp
      | false =>
        simp only
        exact ⟨fun _ => ⟨getProp_setProp_ne obj _ messages_ne_prompt.symm,
          getProp_setProp_ne obj _ messages_ne_system.symm⟩, fun h => absurd ⟨ms, hms⟩ h,
          fun h => absurd ⟨ms, hms⟩ h, fun h => absurd ⟨ms, hms⟩ h.1⟩
  · by_cases hp : IsStringProp obj "prompt".toList
    · obtain ⟨p, hp⟩ := hp
      rw [inject_prompt _ _ hm hp]
      by_cases hi : includes p IBS_MARKER = true
      · simp [hi]
      · rw [if_neg hi]
        simp only
        exact ⟨fun h => absurd h hm, fun _ _ =>
          ⟨getProp_setProp_ne obj _ messages_ne_prompt,
            getProp_setProp_ne obj _ prompt_ne_system.symm⟩,
          fun _ h => absurd ⟨p, hp⟩ h, fun h => absurd ⟨p, hp⟩ h.2.1⟩
    · by_cases hsp : IsStringProp obj "system_prompt".toList
      · obtain ⟨p, hsp⟩ := hsp
        rw [inject_system _ _ hm hp hsp]
        by_cases hi : includes p IBS_MARKER = true
        · simp [hi]
        · rw [if_neg hi]
          simp only
          exact ⟨fun h => absurd h hm, fun _ h => absurd h hp, fun _ _ =>
            ⟨getProp_setProp_ne obj _ messages_ne_system,
              getProp_setProp_ne obj _ prompt_ne_system⟩, fun h => absurd ⟨p, hsp⟩ h.2.2⟩
      · rw [inject_noShape _ _ hm hp hsp]
        simp

/-- The statements after the prompt are purely additive, and a `prompt` (else a
`system_prompt`) string without the marker becomes the original followed by two newlines
and the prompt text. -/
theorem injectPromptText_additive (prefs : Prefs) (promptText : Str) (obj : Json) :
    match injectPromptText prefs promptText obj with
    | .ok r =>
      (∀ ms, obj.getProp "messages".toList = some (.arr ms) →
        ∃ ms2, r.obj.getProp "messages".toList = some (.arr ms2) ∧ ms <+: ms2) ∧
      (∀ p, obj.getProp "prompt".toList = some (.str p) →
        ∃ p2, r.obj.getProp "prompt".toList = some (.str p2) ∧ p <+: p2) ∧
      (∀ p, obj.getProp "system_prompt".toList = some (.str p) →
        ∃ p2, r.obj.getProp "system_prompt".toList = some (.str p2) ∧ p <+: p2) ∧
      (∀ k, k ≠ "messages".toList → k ≠ "prompt".toList → k ≠ "system_prompt".toList →
        r.obj.getProp k = obj.getProp k) ∧
      (¬ IsArrayProp obj "messages".toList →
        ∀ p, obj.getProp "prompt".toList = some (.str p) → includes p IBS_MARKER = false →
          r.obj.getProp "prompt".toList
            = some (.str (p ++ "\n\n".toList ++ promptText))) ∧
      (¬ IsArrayProp obj "messages".toList → ¬ IsStringProp obj "prompt".toList →
        ∀ p, obj.getProp "system_prompt".toList = some (.str p) →
          includes p IBS_MARKER = false →
          r.obj.getProp "system_prompt".toList
            = some (.str (p ++ "\n\n".toList ++ promptText)))
    | .error _ => IsArrayProp obj "messages".toList := by
  have hsame : ∀ r : InjectResult, r = { obj := obj, injected := false } →
      (∀ ms, obj.getProp "messages".toList = some (.arr ms) →
        ∃ ms2, r.obj.getProp "messages".toList = some (.arr ms2) ∧ ms <+: ms2) ∧
      (∀ p, obj.getProp "prompt".toList = some (.str p) →
        ∃ p2, r.obj.getProp "prompt".toList = some (.str p2) ∧ p <+: p2) ∧
      (∀ p, obj.getProp "system_prompt".toList = some (.str p) →
        ∃ p2, r.obj.getProp "system_prompt".toList = some (.str p2) ∧ p <+: p2) ∧
      (∀ k, k ≠ "messages".toList → k ≠ "prompt".toList → k ≠ "system_prompt".toList →
        r.obj.getProp k = obj.getProp k) := by
    rintro r rfl
    exact ⟨fun ms h => ⟨ms, h, List.prefix_refl ms⟩, fun q h => ⟨q, h, List.prefix_refl q⟩,
      fun q h => ⟨q, h, List.prefix_refl q⟩, fun _ _ _ _ => rfl⟩
  by_cases hm : IsArrayProp obj "messages".toList
  · obtain ⟨ms, hms⟩ := hm
    rw [inject_messages _ _ hms]
    cases hsome : arraySome contentHasMarker ms with
    | error e => exact ⟨ms, hms⟩
    | ok b =>
      cases b with
      | true =>
        obtain ⟨h1, h2, h3, h4⟩ := hsame _ rfl
        exact ⟨h1, h2, h3, h4, fun h => absurd ⟨ms, hms⟩ h, fun h => absurd ⟨ms, hms⟩ h⟩
      | false =>
        simp only
        refine ⟨fun ms1 h1 => ?_, fun q hq => ?_, fun q hq => ?_, fun k hk _ _ => ?_,
          fun h => absurd ⟨ms, hms⟩ h, fun h => absurd ⟨ms, hms⟩ h⟩
        · rw [hms] at h1
          obtain rfl : ms = ms1 := Json.arr.inj (Option.some.inj h1)
          exact ⟨_, getProp_setProp_self _ hms, List.prefix_append ms _⟩
        · exact ⟨q, by rw [getProp_setProp_ne obj _ messages_ne_prompt.symm, hq],
            List.prefix_refl q⟩
        · exact ⟨q, by rw [getProp_setProp_ne obj _ messages_ne_system.symm, hq],
            List.prefix_refl q⟩
        · exact getProp_setProp_ne obj _ hk
  · by_cases hp : IsStringProp obj "prompt".toList
    · obtain ⟨p, hp⟩ := hp
      rw [inject_prompt _ _ hm hp]
      by_cases hi : includes p IBS_MARKER = true
      · rw [if_pos hi]
        obtain ⟨h1, h2, h3, h4⟩ := hsame _ rfl
        refine ⟨h1, h2, h3, h4, fun _ q hq hqi => ?_, fun _ h => absurd ⟨p, hp⟩ h⟩
        rw [hp] at hq
        obtain rfl : p = q := Json.str.inj (Option.some.inj hq)
        rw [hi] at hqi
        exact absurd hqi (by decide)
      · rw [if_neg hi]
        simp only
        refine ⟨fun ms1 h1 => absurd ⟨ms1, h1⟩ hm, fun q hq => ?_, fun q hq => ?_,
          fun k _ hk _ => ?_, fun _ q hq _ => ?_, fun _ h => absurd ⟨p, hp⟩ h⟩
        · rw [hp] at hq
          obtain rfl : p = q := Json.str.inj (Option.some.inj hq)
          exact ⟨_, getProp_setProp_self _ hp, by
            rw [List.append_assoc]; exact List.prefix_append p _⟩
        · exact ⟨q, by rw [getProp_setProp_ne obj _ prompt_ne_system.symm, hq],
            List.prefix_refl q⟩
        · exact getProp_setProp_ne obj _ hk
        · rw [hp] at hq
          obtain rfl : p = q := Json.str.inj (Option.some.inj hq)
          exact getProp_setProp_self _ hp
    · by_cases hsp : IsStringProp obj "system_prompt".toList
      · obtain ⟨p, hsp⟩ := hsp
        rw [inject_system _ _ hm hp hsp]
        by_cases hi : includes p IBS_MARKER = true
        · rw [if_pos hi]
          obtain ⟨h1, h2, h3, h4⟩ := hsame _ rfl
          refine ⟨h1, h2, h3, h4, fun _ q hq _ => absurd ⟨q, hq⟩ hp,
            fun _ _ q hq hqi => ?_⟩
          rw [hsp] at hq
          obtain rfl : p = q := Json.str.inj (Option.some.inj hq)
          rw [hi] at hqi
          exact absurd hqi (by decide)
        · rw [if_neg hi]
          simp only
          refine ⟨fun ms1 h1 => absurd ⟨ms1, h1⟩ hm, fun q hq => absurd ⟨q, hq⟩ hp,
            fun q hq => ?_, fun k _ _ hk => ?_, fun _ q hq _ => absurd ⟨q, hq⟩ hp,
            fun _ _ q hq _ => ?_⟩
          · rw [hsp] at hq
            obtain rfl : p = q := Json.str.inj (Option.some.inj hq)
            exact ⟨_, getProp_setProp_self _ hsp, by
              rw [List.append_assoc]; exact List.prefix_append p _⟩
          · exact getProp_setProp_ne obj _ hk
          · rw [hsp] at hq
            obtain rfl : p = q := Json.str.inj (Option.some.inj hq)
            exact getProp_setProp_self _ hsp
      · rw [inject_noShape _ _ hm hp hsp]
        obtain ⟨h1, h2, h3, h4⟩ := hsame _ rfl
        exact ⟨h1, h2, h3, h4, fun _ q hq _ => absurd ⟨q, hq⟩ hp,
          fun _ _ q hq _ => absurd ⟨q, hq⟩ hsp⟩

/-! ## C7: the body of the generated prompt -/

theorem trim_nil : trim [] = [] := rfl

theorem instructionLine_eq_specLine (k display : Str) :
    instructionLine k display = specLine k display := by
  unfold instructionLine specLine
  by_cases h : display = []
  · subst h; rfl
  · simp only [h, if_false]

theorem schemaWalk_eq_foldl (sections : List Section) :
    ∀ acc : List Str × List (Str × FieldDef),
      sections.foldl (fun acc sec => sec.fields.foldl schemaStep acc) acc
        = (sections.flatMap fun sec => sec.fields).foldl schemaStep acc := by
  induction sections with
  | nil => intro acc; rfl
  | cons sec rest ih =>
    intro acc
    rw [List.foldl_cons, List.flatMap_cons, List.foldl_append]
    exact ih _

theorem mem_firstOccurrences (k : Str) : ∀ l : List Str, k ∈ firstOccurrences l ↔ k ∈ l
  | [] => by simp [firstOccurrences]
  | x :: xs => by
    simp only [firstOccurrences, List.mem_cons, List.mem_filter, mem_firstOccurrences k xs,
      decide_eq_true_eq]
    by_cases h : k = x <;> simp [h]

theorem nodup_firstOccurrences : ∀ l : List Str, (firstOccurrences l).Nodup
  | [] => by simp [firstOccurrences]
  | x :: xs => by
    simp only [firstOccurrences, List.nodup_cons, List.mem_filter, decide_eq_true_eq]
    exact ⟨fun h => h.2 rfl, (nodup_firstOccurrences xs).filter _⟩

/-- The keys component of the walk only depends on the trimmed keys. -/
theorem schemaStep_fst (acc : List Str × List (Str × FieldDef)) (f : FieldDef) :
    (schemaStep acc f).1 =
      if trim f.key = [] then acc.1
      else if acc.1.contains (trim f.key) then acc.1 else acc.1 ++ [trim f.key] := by
  unfold schemaStep
  by_cases h : f.key = []
  · simp [h, trim_nil]
  · by_cases h2 : trim f.key = []
    · simp [h, h2]
    · simp [h, h2]

theorem foldl_addKey :
    ∀ (l acc : List Str),
      l.foldl (fun ks k => if ks.contains k then ks else ks ++ [k]) acc
        = acc ++ (firstOccurrences l).filter fun k => k ∉ acc
  | [], acc => by simp [firstOccurrences]
  | k :: ks, acc => by
    rw [List.foldl_cons, foldl_addKey ks]
    by_cases hc : k ∈ acc
    · have hc2 : acc.contains k = true := by simpa using hc
      have hf : (firstOccurrences (k :: ks)).filter (fun x => x ∉ acc)
          = (firstOccurrences ks).filter fun x => x ∉ acc := by
        rw [firstOccurrences, List.filter_cons_of_neg (by simpa using hc), List.filter_filter]
        apply List.filter_congr
        intro x _
        by_cases hx : x ∈ acc
        · simp [hx]
        · have : x ≠ k := fun e => hx (e ▸ hc)
          simp [hx, this]
      rw [hf, if_pos hc2]
    · have hc2 : acc.contains k = false := by simpa using hc
      have hf : (firstOccurrences (k :: ks)).filter (fun x => x ∉ acc)
          = k :: (firstOccurrences ks).filter fun x => x ∉ acc ++ [k] := by
        rw [firstOccurrences, List.filter_cons_of_pos (by simpa using hc), List.filter_filter]
        congr 1
        apply List.filter_congr
        intro x _
        by_cases hx : x ∈ acc <;> by_cases hk : x = k <;> simp [hx, hk]
      rw [hf, if_neg (by simp [hc])]
      simp

theorem foldl_schemaStep_fst :
    ∀ (fs : List FieldDef) (acc : List Str × List (Str × FieldDef)),
      (fs.foldl schemaStep acc).1 =
        ((fs.map fun f => trim f.key).filter fun k => k ≠ []).foldl
          (fun ks k => if ks.contains k then ks else ks ++ [k]) acc.1
  | [], acc => rfl
  | f :: fs, acc => by
    rw [List.foldl_cons, foldl_schemaStep_fst fs (schemaStep acc f), schemaStep_fst]
    by_cases h : trim f.key = []
    · simp [h]
    · simp [h]

theorem lastFieldWithKey_cons (k : Str) (f : FieldDef) (fs : List FieldDef) :
    lastFieldWithKey k (f :: fs) =
      match lastFieldWithKey k fs with
      | some g => some g
      | none => if trim f.key = k then some f else none := rfl

theorem foldl_schemaStep_lookup (k : Str) (hk : k ≠ []) :
    ∀ (fs : List FieldDef) (acc : List Str × List (Str × FieldDef)),
      (fs.foldl schemaStep acc).2.lookup k =
        match lastFieldWithKey k fs with
        | some g => some g
        | none => acc.2.lookup k
  | [], acc => rfl
  | f :: fs, acc => by
    rw [List.foldl_cons, foldl_schemaStep_lookup k hk fs (schemaStep acc f),
      lastFieldWithKey_cons]
    cases lastFieldWithKey k fs with
    | some g => rfl
    | none =>
      simp only
      unfold schemaStep
      by_cases h : f.key = []
      · have hne : ¬ ([] : Str) = k := fun e => hk e.symm
        simp only [h, if_true, trim_nil, hne, if_false]
      · by_cases h2 : trim f.key = []
        · have hne : ¬ ([] : Str) = k := fun e => hk e.symm
          simp only [h, h2, if_true, hne, if_false]
        · by_cases h3 : trim f.key = k
          · subst h3
            simp [h, h2, List.lookup]
          · have hb : (k == trim f.key) = false := by
              simpa using fun e : k = trim f.key => h3 e.symm
            simp [h, h2, h3, List.lookup, hb]

theorem lastFieldWithKey_isSome_of_mem (k : Str) :
    ∀ fs : List FieldDef, (∃ f ∈ fs, trim f.key = k) → (lastFieldWithKey k fs).isSome = true
  | [], h => by simp at h
  | f :: fs, h => by
    rw [lastFieldWithKey_cons]
    cases hl : lastFieldWithKey k fs with
    | some g => rfl
    | none =>
      obtain ⟨g, hg, hgk⟩ := h
      rcases List.mem_cons.1 hg with rfl | hg
      · simp [hgk]
      · have := lastFieldWithKey_isSome_of_mem k fs ⟨g, hg, hgk⟩
        rw [hl] at this
        exact absurd this (by decide)

theorem mem_distinctKeys (layoutConfig : Layout) (k : Str) :
    k ∈ distinctKeys layoutConfig ↔ k ≠ [] ∧ ∃ f ∈ allFields layoutConfig, trim f.key = k := by
  unfold distinctKeys nonBlankKeys
  rw [mem_firstOccurrences]
  simp only [List.mem_filter, List.mem_map, decide_eq_true_eq]
  tauto

theorem schemaWalk_fst (layoutConfig : Layout) :
    (schemaWalk layoutConfig).1 = distinctKeys layoutConfig := by
  unfold schemaWalk
  rw [schemaWalk_eq_foldl, foldl_schemaStep_fst, foldl_addKey]
  simp [distinctKeys, nonBlankKeys, allFields]

theorem schemaLineList_eq (layoutConfig : Layout) :
    schemaLineList layoutConfig =
      if distinctKeys layoutConfig = [] then FALLBACK_LINES
      else (distinctKeys layoutConfig).map fun k => specLine k (displayFor layoutConfig k) := by
  unfold schemaLineList
  have h1 := schemaWalk_fst layoutConfig
  have h2 : ∀ k, k ≠ [] → (schemaWalk layoutConfig).2.lookup k
      = lastFieldWithKey k (allFields layoutConfig) := by
    intro k hk
    unfold schemaWalk
    rw [schemaWalk_eq_foldl, foldl_schemaStep_lookup k hk]
    unfold allFields
    cases lastFieldWithKey k (layoutConfig.sections.flatMap fun sec => sec.fields) <;> rfl
  generalize schemaWalk layoutConfig = w at h1 h2
  obtain ⟨keysInOrder, keyToField⟩ := w
  simp only at h1 h2
  subst h1
  by_cases he : distinctKeys layoutConfig = []
  · simp [he]
  · have hl : (distinctKeys layoutConfig).length ≠ 0 := by
      simpa [List.length_eq_zero] using he
    simp only [hl, ne_eq, not_false_eq_true, if_true, he, if_false]
    apply List.map_congr_left
    intro k hk
    have hk0 := ((mem_distinctKeys layoutConfig k).1 hk).1
    rw [h2 k hk0]
    unfold displayFor
    cases lastFieldWithKey k (allFields layoutConfig) <;>
      simp [instructionLine_eq_specLine]

/-- C7: for every layout, the code-block body of `buildPromptFromSchema` (the text between
the opening and the closing fence) is the newline-joined list of one instruction line per
distinct non-blank trimmed field key, in the order in which the keys first occur when
sections and fields are walked in order; the line of key `k` is `k: [%]` for display
`bar_only`, `k: [%] - [...]` for `bar_text` and `k: [...]` for any other display, the
display being that of the last field definition with that key; and when the layout yields
no key the body is the fixed ten-line template. -/
theorem buildPromptFromSchema_body (layoutConfig : Layout) :
    buildPromptFromSchema layoutConfig
      = IBS_MARKER ++ PROMPT_HEAD ++ schemaLines layoutConfig ++ PROMPT_TAIL ∧
    schemaLines layoutConfig = join "\n".toList
      (if distinctKeys layoutConfig = [] then
        [ "Posture: [...]".toList, "Clothes: [...]".toList, "Affinity: [...]".toList,
          "Mood: [...]".toList, "Emoji: [...]".toList, "Thought: [...]".toList,
          "Arousal: [%] - [...]".toList, "Location: [...]".toList,
          "Timezone: [...]".toList, "Objective: [...]".toList ]
      else (distinctKeys layoutConfig).map fun k =>
        if displayFor layoutConfig k = "bar_only".toList then k ++ ": [%]".toList
        else if displayFor layoutConfig k = "bar_text".toList then k ++ ": [%] - [...]".toList
        else k ++ ": [...]".toList) ∧
    (distinctKeys layoutConfig).Nodup ∧
    (∀ k, k ∈ distinctKeys layoutConfig ↔
      k ≠ [] ∧ ∃ f ∈ allFields layoutConfig, trim f.key = k) := by
  refine ⟨rfl, ?_, nodup_firstOccurrences _, mem_distinctKeys layoutConfig⟩
  unfold schemaLines
  rw [schemaLineList_eq]
  rfl

/-! ## C3: the detection test -/

theorem foldl_hits_eq (p : Str → Bool) :
    ∀ (l : List Str) (a : Nat),
      l.foldl (fun hits k => if p k then hits + 1 else hits) a = a + l.countP p
  | [], a => by simp
  | k :: ks, a => by
    rw [List.foldl_cons, foldl_hits_eq p ks, List.countP_cons]
    by_cases h : p k = true
    · simp [h]; omega
    · simp [h]

theorem colon_not_whiteSpace : isWhiteSpace ':' = false := by decide

theorem dropWhile_whiteSpace_append (ws rest : Str) (h : ws.all isWhiteSpace = true) :
    (ws ++ rest).dropWhile isWhiteSpace = rest.dropWhile isWhiteSpace := by
  induction ws with
  | nil => rfl
  | cons c cs ih =>
    simp only [List.all_cons, Bool.and_eq_true] at h
    simp only [List.cons_append, List.dropWhile_cons, h.1, if_true]
    exact ih h.2

theorem matchColon_iff (r : Str) :
    matchColon r = true ↔
      ∃ ws after, r = ws ++ ':' :: after ∧ ws.all isWhiteSpace = true := by
  constructor
  · intro h
    unfold matchColon at h
    split at h
    · next after hd =>
      refine ⟨r.takeWhile isWhiteSpace, after, ?_, ?_⟩
      · rw [← hd, List.takeWhile_append_dropWhile]
      · rw [List.all_eq_true]
        intro c hc
        exact List.mem_takeWhile_imp hc
    · exact absurd h (by decide)
  · rintro ⟨ws, after, rfl, hws⟩
    unfold matchColon
    rw [dropWhile_whiteSpace_append ws _ hws, List.dropWhile_cons, colon_not_whiteSpace]
    rfl

theorem matchLiteral_iff (canonicalize : Char → Char) :
    ∀ (key r rest : Str),
      matchLiteral canonicalize key r = some rest ↔
        ∃ lit, r = lit ++ rest ∧ lit.map canonicalize = key.map canonicalize
  | [], r, rest => by
    simp only [matchLiteral, Option.some.injEq, List.map_nil, List.map_eq_nil_iff]
    constructor
    · rintro rfl; exact ⟨[], rfl, rfl⟩
    · rintro ⟨lit, h, rfl⟩; exact h
  | k :: ks, [], rest => by
    simp only [matchLiteral, List.map_cons]
    constructor
    · intro h; exact absurd h (by simp)
    · rintro ⟨lit, h, hl⟩
      cases lit with
      | nil => simp at hl
      | cons c cs => simp at h
  | k :: ks, c :: r, rest => by
    simp only [matchLiteral, List.map_cons]
    by_cases hc : canonicalize k = canonicalize c
    · rw [if_pos hc, matchLiteral_iff canonicalize ks r rest]
      constructor
      · rintro ⟨lit, rfl, hl⟩
        exact ⟨c :: lit, rfl, by simp [hl, hc]⟩
      · rintro ⟨lit, h, hl⟩
        cases lit with
        | nil => simp at hl
        | cons d ds =>
          simp only [List.cons_append, List.cons.injEq] at h
          simp only [List.map_cons, List.cons.injEq] at hl
          exact ⟨ds, h.2, hl.2⟩
    · rw [if_neg hc]
      constructor
      · intro h; exact absurd h (by simp)
      · rintro ⟨lit, h, hl⟩
        cases lit with
        | nil => simp at hl
        | cons d ds =>
          simp only [List.cons_append, List.cons.injEq] at h
          simp only [List.map_cons, List.cons.injEq] at hl
          exact absurd (by rw [h.1, hl.1]) hc

theorem matchKeyColon_iff (canonicalize : Char → Char) (key r : Str) :
    matchKeyColon canonicalize key r = true ↔
      ∃ lit ws after, r = lit ++ ws ++ ':' :: after ∧ ws.all isWhiteSpace = true ∧
        lit.map canonicalize = key.map canonicalize := by
  unfold matchKeyColon
  constructor
  · intro h
    split at h
    · next rest hm =>
      obtain ⟨lit, rfl, hl⟩ := (matchLiteral_iff canonicalize key r rest).1 hm
      obtain ⟨ws, after, rfl, hws⟩ := (matchColon_iff rest).1 h
      exact ⟨lit, ws, after, by simp, hws, hl⟩
    · exact absurd h (by decide)
  · rintro ⟨lit, ws, after, rfl, hws, hl⟩
    have hm : matchLiteral canonicalize key (lit ++ ws ++ ':' :: after)
        = some (ws ++ ':' :: after) :=
      (matchLiteral_iff canonicalize key _ _).2 ⟨lit, by simp, hl⟩
    rw [hm]
    exact (matchColon_iff _).2 ⟨ws, after, rfl, hws⟩

theorem matchSpaceKeyColon_iff (canonicalize : Char → Char) (key : Str) :
    ∀ r : Str, matchSpaceKeyColon canonicalize key r = true ↔
      ∃ ws1 lit ws2 after, r = ws1 ++ lit ++ ws2 ++ ':' :: after ∧
        ws1.all isWhiteSpace = true ∧ ws2.all isWhiteSpace = true ∧
        lit.map canonicalize = key.map canonicalize
  | [] => by
    simp only [matchSpaceKeyColon, matchKeyColon_iff]
    constructor
    · rintro ⟨lit, ws, after, h, hws, hl⟩
      exact ⟨[], lit, ws, after, by simp at h, rfl, hws, hl⟩
    · rintro ⟨ws1, lit, ws2, after, h, _, _, _⟩
      simp at h
  | c :: r => by
    simp only [matchSpaceKeyColon, Bool.or_eq_true, Bool.and_eq_true, matchKeyColon_iff,
      matchSpaceKeyColon_iff canonicalize key r]
    constructor
    · rintro (⟨lit, ws, after, h, hws, hl⟩ | ⟨hc, ws1, lit, ws2, after, rfl, h1, h2, hl⟩)
      · exact ⟨[], lit, ws, after, by simpa using h, rfl, hws, hl⟩
      · exact ⟨c :: ws1, lit, ws2, after, by simp, by simp [hc, h1], h2, hl⟩
    · rintro ⟨ws1, lit, ws2, after, h, h1, h2, hl⟩
      cases ws1 with
      | nil => exact Or.inl ⟨lit, ws2, after, by simpa using h, h2, hl⟩
      | cons d ds =>
        simp only [List.cons_append, List.cons.injEq] at h
        simp only [List.all_cons, Bool.and_eq_true] at h1
        obtain ⟨rfl, rfl⟩ := h
        exact Or.inr ⟨h1.1, ds, lit, ws2, after, rfl, h1.2, h2, hl⟩

theorem matchAfterLineFeed_iff (canonicalize : Char → Char) (key : Str) :
    ∀ text : Str, matchAfterLineFeed canonicalize key text = true ↔
      ∃ before rest, text = before ++ rest ∧ before.getLast? = some '\n' ∧
        matchSpaceKeyColon canonicalize key rest = true
  | [] => by
    simp only [matchAfterLineFeed, Bool.false_eq_true, false_iff]
    rintro ⟨before, rest, h, hb, _⟩
    cases before with
    | nil => simp at hb
    | cons c cs => simp at h
  | c :: r => by
    simp only [matchAfterLineFeed, Bool.or_eq_true, Bool.and_eq_true, beq_iff_eq,
      matchAfterLineFeed_iff canonicalize key r]
    constructor
    · rintro (⟨rfl, h⟩ | ⟨before, rest, rfl, hb, h⟩)
      · exact ⟨['\n'], r, rfl, rfl, h⟩
      · refine ⟨c :: before, rest, rfl, ?_, h⟩
        cases before with
        | nil => simp at hb
        | cons d ds => simpa [List.getLast?_cons_cons] using hb
    · rintro ⟨before, rest, h, hb, hm⟩
      cases before with
      | nil => simp at hb
      | cons d ds =>
        simp only [List.cons_append, List.cons.injEq] at h
        obtain ⟨rfl, rfl⟩ := h
        cases ds with
        | nil =>
          simp only [List.getLast?_singleton, Option.some.injEq] at hb
          exact Or.inl ⟨hb, by simpa using hm⟩
        | cons e es =>
          rw [List.getLast?_cons_cons] at hb
          exact Or.inr ⟨e :: es, rest, rfl, hb, hm⟩

theorem keyPatternTest_iff (host : Host) (k text : Str) :
    keyPatternTest host k text = true ↔ HasKeyColon host.canonicalize k text := by
  unfold keyPatternTest HasKeyColon
  rw [Bool.or_eq_true, matchSpaceKeyColon_iff, matchAfterLineFeed_iff]
  constructor
  · rintro (⟨ws1, lit, ws2, after, h, h1, h2, hl⟩ | ⟨before, rest, rfl, hb, hm⟩)
    · exact ⟨[], ws1, lit, ws2, after, by simpa using h, Or.inl rfl, h1, h2, hl⟩
    · obtain ⟨ws1, lit, ws2, after, rfl, h1, h2, hl⟩ :=
        (matchSpaceKeyColon_iff host.canonicalize k rest).1 hm
      exact ⟨before, ws1, lit, ws2, after, by simp, Or.inr hb, h1, h2, hl⟩
  · rintro ⟨before, ws1, lit, ws2, after, rfl, hb | hb, h1, h2, hl⟩
    · subst hb
      exact Or.inl ⟨ws1, lit, ws2, after, by simp, h1, h2, hl⟩
    · refine Or.inr ⟨before, ws1 ++ lit ++ ws2 ++ ':' :: after, by simp, hb, ?_⟩
      exact (matchSpaceKeyColon_iff host.canonicalize k _).2
        ⟨ws1, lit, ws2, after, rfl, h1, h2, hl⟩

/-- C3 as stated fails: the white space between key and colon may contain line breaks.
In this text no line has the form `key:`, so the count of the claim is 0, below the
threshold 4 of the built-in layout, and yet `looksLikeInfoBoard` accepts the text. -/
theorem looksLikeInfoBoard_counterexample :
    looksLikeInfoBoard sampleHost DEFAULT_LAYOUT brokenLinesText = true ∧
    lineHitCount sampleHost DEFAULT_LAYOUT brokenLinesText = 0 ∧
    min 4 (max 2 (getAllExpectedKeysFromLayout DEFAULT_LAYOUT).length) = 4 := by
  decide

/-- C3 (amended): for every layout and text, `looksLikeInfoBoard(text)` is true if and only
if `hits >= min(4, max(2, n))`, where `n` is the number of expected keys returned by
`getAllExpectedKeysFromLayout` and `hits` is the number of those keys for which the text
has, at its start or right after a line feed, optional white space, the key (compared
case-insensitively), optional white space, which may include line breaks, and a colon; so
a text with exactly `min(4, max(2, n))` hits is accepted and one with one hit fewer is
rejected. -/
theorem looksLikeInfoBoard_iff (host : Host) (layoutConfig : Layout) (text : Str) :
    (looksLikeInfoBoard host layoutConfig text = true ↔
      min 4 (max 2 (getAllExpectedKeysFromLayout layoutConfig).length)
        ≤ hitCount host layoutConfig text) ∧
    (∀ k, keyPatternTest host k text = true ↔ HasKeyColon host.canonicalize k text) ∧
    (hitCount host layoutConfig text
        = min 4 (max 2 (getAllExpectedKeysFromLayout layoutConfig).length) →
      looksLikeInfoBoard host layoutConfig text = true) ∧
    (hitCount host layoutConfig text + 1
        = min 4 (max 2 (getAllExpectedKeysFromLayout layoutConfig).length) →
      looksLikeInfoBoard host layoutConfig text = false) := by
  have key : looksLikeInfoBoard host layoutConfig text = true ↔
      min 4 (max 2 (getAllExpectedKeysFromLayout layoutConfig).length)
        ≤ hitCount host layoutConfig text := by
    unfold looksLikeInfoBoard hitCount threshold
    simp only [foldl_hits_eq, Nat.zero_add, decide_eq_true_eq, ge_iff_le]
  refine ⟨key, fun k => keyPatternTest_iff host k text, fun h => key.2 (le_of_eq h.symm),
    fun h => ?_⟩
  cases hb : looksLikeInfoBoard host layoutConfig text with
  | false => rfl
  | true =>
    have := key.1 hb
    omega

/-! ## C4: extraction of the key/value map -/

theorem trimEnd_eq_rdropWhile (s : Str) : trimEnd s = s.rdropWhile isWhiteSpace := rfl

theorem dropWhile_of_head_not (p : Char → Bool) :
    ∀ l : Str, (∀ c, l.head? = some c → p c = false) → l.dropWhile p = l
  | [], _ => rfl
  | c :: cs, h => by
    rw [List.dropWhile_cons, h c rfl]
    rfl

theorem head?_of_prefix {a b : Str} (h : a <+: b) (c : Char) (hc : a.head? = some c) :
    b.head? = some c := by
  obtain ⟨t, rfl⟩ := h
  cases a with
  | nil => simp at hc
  | cons x xs => simpa using hc

theorem trim_idempotent (s : Str) : trim (trim s) = trim s := by
  unfold trim
  have hhead : ∀ c, (trimEnd (trimStart s)).head? = some c → isWhiteSpace c = false := by
    intro c hc
    have hp : trimEnd (trimStart s) <+: trimStart s := by
      rw [trimEnd_eq_rdropWhile]; exact List.rdropWhile_prefix _ _
    have h2 := head?_of_prefix hp c hc
    have h3 := List.head?_dropWhile_not isWhiteSpace s
    unfold trimStart at h2
    rw [h2] at h3
    exact h3
  have h1 : trimStart (trimEnd (trimStart s)) = trimEnd (trimStart s) :=
    dropWhile_of_head_not isWhiteSpace _ hhead
  rw [h1, trimEnd_eq_rdropWhile, trimEnd_eq_rdropWhile, List.rdropWhile_idempotent]

theorem indexOf_eq_none (c : Char) :
    ∀ s : Str, indexOf c s = none ↔ s.contains c = false
  | [] => by simp [indexOf]
  | d :: ds => by
    by_cases h : d = c
    · subst h; simp [indexOf]
    · have ih := indexOf_eq_none c ds
      have hcd : ¬ c = d := fun e => h e.symm
      cases hi : indexOf c ds with
      | none => simpa [indexOf, h, hi, hcd] using ih.1 hi
      | some n =>
        have : ¬ ds.contains c = false := fun e => by
          have := ih.2 e
          rw [hi] at this
          exact absurd this (by simp)
        simp only [indexOf, h, if_false, hi, Option.map_some', false_iff]
        simpa [hcd] using this

theorem indexOf_eq_some (c : Char) :
    ∀ (s : Str) (idx : Nat), indexOf c s = some idx →
      s.contains c = true ∧ s.take idx = s.takeWhile (fun x => x ≠ c) ∧
        s.drop (idx + 1) = (s.dropWhile fun x => x ≠ c).drop 1
  | [], idx, h => by simp [indexOf] at h
  | d :: ds, idx, h => by
    by_cases hd : d = c
    · subst hd
      simp only [indexOf, if_true, Option.some.injEq] at h
      subst h
      simp
    · simp only [indexOf, hd, if_false, Option.map_eq_some'] at h
      obtain ⟨n, hn, rfl⟩ := h
      obtain ⟨h1, h2, h3⟩ := indexOf_eq_some c ds n hn
      have h1m : c ∈ ds := by simpa using h1
      refine ⟨by simp [h1m], ?_, ?_⟩
      · simp [List.takeWhile_cons, hd, h2]
      · simp [List.dropWhile_cons, hd, h3]

theorem parseLine_eq (prefs : Prefs) (data : BoardData) (raw : Str) :
    parseLine prefs data raw =
      match lineEntry raw with
      | some (key, val) => objSet data key (maybeStripBrackets prefs val)
      | none => data := by
  unfold parseLine lineEntry
  by_cases hl : trim raw = []
  · simp [hl]
  · simp only [hl, if_false]
    cases hi : indexOf ':' (trim raw) with
    | none =>
      have hc := (indexOf_eq_none ':' (trim raw)).1 hi
      simp only [hc, Bool.false_eq_true, if_false]
    | some idx =>
      obtain ⟨h1, h2, h3⟩ := indexOf_eq_some ':' (trim raw) idx hi
      simp only [h1, if_true, h2, h3]
      by_cases hk : trim (List.takeWhile (fun x => x ≠ ':') (trim raw)) = []
      · rw [if_pos hk, if_pos hk]
      · rw [if_neg hk, if_neg hk]

theorem lookup_cons_eq (k key val : Str) (rest : BoardData) :
    List.lookup k ((key, val) :: rest) = if k = key then some val else List.lookup k rest := by
  by_cases h : k = key
  · subst h; simp
  · have hb : (k == key) = false := by simpa using h
    simp [List.lookup, hb, h]

theorem lookup_none_of_not_any (key : Str) :
    ∀ data : BoardData, data.any (fun e => e.1 == key) = false → data.lookup key = none
  | [], _ => rfl
  | (k, v) :: rest, h => by
    simp only [List.any_cons, Bool.or_eq_false_iff, beq_eq_false_iff_ne, ne_eq] at h
    rw [lookup_cons_eq, if_neg (fun e => h.1 e.symm)]
    exact lookup_none_of_not_any key rest h.2

theorem lookup_map_replace (k key val : Str) :
    ∀ data : BoardData, data.any (fun e => e.1 == key) = true →
      (data.map fun e => if e.1 == key then (key, val) else e).lookup k
        = if k = key then some val else data.lookup k
  | [], h => by simp at h
  | (k2, v2) :: rest, h => by
    by_cases h2 : k2 = key
    · subst h2
      simp only [List.map_cons, beq_self_eq_true, if_true, lookup_cons_eq]
      by_cases hk : k = k2
      · simp [hk]
      · simp only [hk, if_false]
        by_cases hr : rest.any (fun e => e.1 == k2) = true
        · rw [lookup_map_replace k k2 val rest hr, if_neg hk]
        · have hmap : (rest.map fun e => if e.1 == k2 then (k2, val) else e) = rest := by
            have hr2 : ∀ e ∈ rest, ¬ (e.1 == k2) = true := by
              intro e he hb
              exact hr (List.any_eq_true.2 ⟨e, he, hb⟩)
            conv_rhs => rw [← List.map_id rest]
            apply List.map_congr_left
            intro e he
            simp [hr2 e he]
          rw [hmap]
    · have hb : (k2 == key) = false := by simpa using h2
      simp only [List.any_cons, hb, Bool.false_or] at h
      simp only [List.map_cons, hb, Bool.false_eq_true, if_false, lookup_cons_eq,
        lookup_map_replace k key val rest h]
      by_cases hk : k = key
      · have : ¬ k = k2 := fun e => h2 (e ▸ hk)
        simp [hk, this, show ¬ key = k2 from fun e => h2 e.symm]
      · simp [hk]

theorem lookup_insertIndexed (k key val : Str) (n : Nat) :
    ∀ data : BoardData, data.any (fun e => e.1 == key) = false →
      (insertIndexed n (key, val) data).lookup k
        = if k = key then some val else data.lookup k
  | [], _ => by simp [insertIndexed, lookup_cons_eq]
  | (k2, v2) :: rest, h => by
    simp only [List.any_cons, Bool.or_eq_false_iff, beq_eq_false_iff_ne, ne_eq] at h
    unfold insertIndexed
    cases arrayIndex k2 with
    | none => simp only [lookup_cons_eq]
    | some m =>
      simp only
      by_cases hm : m < n
      · simp only [hm, if_true, lookup_cons_eq, lookup_insertIndexed k key val n rest h.2]
        by_cases hk : k = key
        · have : ¬ k = k2 := fun e => h.1 (e.symm.trans hk)
          simp [hk, this, show ¬ key = k2 from fun e => h.1 e.symm]
        · simp [hk]
      · simp only [hm, if_false, lookup_cons_eq]

theorem lookup_objSet (data : BoardData) (key val k : Str) (hk : k ≠ "__proto__".toList) :
    (objSet data key val).lookup k = if k = key then some val else data.lookup k := by
  unfold objSet
  by_cases hp : key = "__proto__".toList
  · rw [if_pos hp, if_neg (fun e => hk (e.trans hp))]
  · rw [if_neg hp]
    by_cases ha : data.any (fun e => e.1 == key) = true
    · rw [if_pos ha, lookup_map_replace k key val data ha]
    · rw [if_neg ha]
      have ha2 : data.any (fun e => e.1 == key) = false := Bool.eq_false_iff.2 ha
      cases arrayIndex key with
      | some n => exact lookup_insertIndexed k key val n data ha2
      | none =>
        simp only [List.lookup_append]
        by_cases hkk : k = key
        · subst hkk
          simp [lookup_none_of_not_any k data ha2]
        · have hb : (k == key) = false := by simpa using hkk
          simp [List.lookup, hb, hkk]

theorem lookup_foldl_parseLine (prefs : Prefs) (k : Str) (hk : k ≠ "__proto__".toList) :
    ∀ (lines : List Str) (data : BoardData),
      (lines.foldl (parseLine prefs) data).lookup k =
        match lastValue k lines with
        | some v => some (maybeStripBrackets prefs v)
        | none => data.lookup k
  | [], data => rfl
  | raw :: rest, data => by
    rw [List.foldl_cons, lookup_foldl_parseLine prefs k hk rest]
    show _ = match (match lastValue k rest with
        | some v => some v
        | none =>
          match lineEntry raw with
          | some (key, val) => if key = k then some val else none
          | none => none) with
      | some v => some (maybeStripBrackets prefs v)
      | none => data.lookup k
    cases lastValue k rest with
    | some v => rfl
    | none =>
      simp only
      rw [parseLine_eq]
      cases lineEntry raw with
      | none => rfl
      | some e =>
        obtain ⟨key, val⟩ := e
        simp only
        rw [lookup_objSet data key _ k hk]
        by_cases hkk : k = key
        · subst hkk; simp
        · have : ¬ key = k := fun e => hkk e.symm
          simp [hkk, this]

theorem maybeStripBrackets_off (prefs : Prefs) (h : prefs.stripOuterBrackets = false)
    (v : Str) : maybeStripBrackets prefs v = trim v := by
  simp [maybeStripBrackets, h]

theorem lineEntry_value_trimmed {raw : Str} {key val : Str}
    (h : lineEntry raw = some (key, val)) : trim val = val := by
  unfold lineEntry at h
  simp only at h
  by_cases hc : (trim raw).contains ':' = true
  · rw [if_pos hc] at h
    by_cases hk : trim (List.takeWhile (fun c => c ≠ ':') (trim raw)) = []
    · rw [if_pos hk] at h
      exact absurd h (by simp)
    · rw [if_neg hk] at h
      simp only [Option.some.injEq, Prod.mk.injEq] at h
      rw [← h.2, trim_idempotent]
  · rw [if_neg hc] at h
    exact absurd h (by simp)

theorem lastValue_trimmed (k : Str) :
    ∀ (lines : List Str) (v : Str), lastValue k lines = some v → trim v = v
  | [], v, h => by simp [lastValue] at h
  | raw :: rest, v, h => by
    unfold lastValue at h
    cases hl : lastValue k rest with
    | some w =>
      simp only [hl, Option.some.injEq] at h
      subst h
      exact lastValue_trimmed k rest w hl
    | none =>
      simp only [hl] at h
      cases he : lineEntry raw with
      | none => simp [he] at h
      | some e =>
        obtain ⟨key, val⟩ := e
        simp only [he] at h
        by_cases hkk : key = k
        · simp only [hkk, if_true, Option.some.injEq] at h
          subst h
          exact lineEntry_value_trimmed he
        · simp [hkk] at h

/-- C4 as stated fails: with `prefs.stripOuterBrackets` enabled the stored value is not the
trimmed text after the first colon, it has its outer brackets stripped. -/
theorem parseKeyValueLines_counterexample :
    (parseKeyValueLines stripPrefs "Mood: [happy]".toList).lookup "Mood".toList
      = some "happy".toList ∧
    lastValue "Mood".toList (split '\n' "Mood: [happy]".toList) = some "[happy]".toList := by
  decide

/-- C4 (amended): for every text and every key `k` other than `__proto__`,
`parseKeyValueLines(text)` holds for `k` the value of the last line of the text (split on
line feeds, each line trimmed) that contains a colon and whose text before the first colon
trims to `k`; the value is `maybeStripBrackets` of the trimmed text after the first colon,
which is that trimmed text itself when `prefs.stripOuterBrackets` is off; lines that are
empty, have no colon or have an empty key contribute nothing, and a key with no such line
is absent. -/
theorem parseKeyValueLines_lookup (prefs : Prefs) (text k : Str)
    (hk : k ≠ "__proto__".toList) :
    (parseKeyValueLines prefs text).lookup k
      = (lastValue k (split '\n' text)).map (maybeStripBrackets prefs) ∧
    (prefs.stripOuterBrackets = false →
      (parseKeyValueLines prefs text).lookup k = lastValue k (split '\n' text)) := by
  have h := lookup_foldl_parseLine prefs k hk (split '\n' text) []
  have h1 : (parseKeyValueLines prefs text).lookup k
      = (lastValue k (split '\n' text)).map (maybeStripBrackets prefs) := by
    unfold parseKeyValueLines
    rw [h]
    cases lastValue k (split '\n' text) <;> rfl
  refine ⟨h1, fun hoff => ?_⟩
  rw [h1]
  cases hl : lastValue k (split '\n' text) with
  | none => rfl
  | some v =>
    rw [Option.map_some', maybeStripBrackets_off prefs hoff, lastValue_trimmed k _ v hl]

/-- Witness for C4 (amended): two lines with the key `Time`; the second value wins and
keeps its later colon. -/
theorem parseKeyValueLines_lookup_witness :
    (parseKeyValueLines DEFAULT_PREFS "Time: 12:15\nTime: 12:30".toList).lookup "Time".toList
      = some "12:30".toList :=
  ((parseKeyValueLines_lookup DEFAULT_PREFS "Time: 12:15\nTime: 12:30".toList "Time".toList
    (by decide)).2 rfl).trans (by decide)

/-- The line `__proto__: x` leaves no entry in the extracted map. -/
theorem parseKeyValueLines_proto :
    parseKeyValueLines DEFAULT_PREFS "__proto__: x".toList = [] ∧
    lastValue "__proto__".toList (split '\n' "__proto__: x".toList) = some "x".toList := by
  decide

/-! ## C8: the renderer drops no non-blank value -/

theorem mem_of_lookup_eq_some {k v : Str} :
    ∀ data : BoardData, data.lookup k = some v → (k, v) ∈ data
  | [], h => by simp at h
  | (k2, v2) :: rest, h => by
    rw [lookup_cons_eq] at h
    by_cases hk : k = k2
    · rw [if_pos hk] at h
      obtain rfl : v2 = v := Option.some.inj h
      subst hk
      exact List.mem_cons_self _ _
    · rw [if_neg hk] at h
      exact List.mem_cons_of_mem _ (mem_of_lookup_eq_some rest h)

theorem mem_setAdd (keys : List Str) (k x : Str) : x ∈ setAdd keys k ↔ x ∈ keys ∨ x = k := by
  unfold setAdd
  by_cases h : keys.contains k = true
  · rw [if_pos h]
    have hm : k ∈ keys := by simpa using h
    constructor
    · exact Or.inl
    · rintro (h1 | rfl)
      · exact h1
      · exact hm
  · rw [if_neg h]
    simp

/-- The inner loop: the body grows by the nodes of the fields, and a key is used afterwards
exactly when it was before or some field with that key yielded a node. -/
theorem foldl_renderFieldStep (host : Host) (data : BoardData) :
    ∀ (fields : List FieldDef) (acc : List Str × List Node),
      (fields.foldl (renderFieldStep host data) acc).2
          = acc.2 ++ fields.filterMap
              (fun f => if f.key = [] then none else renderField host data f) ∧
      ∀ x, x ∈ (fields.foldl (renderFieldStep host data) acc).1 ↔
        x ∈ acc.1 ∨ ∃ f ∈ fields, f.key = x ∧ f.key ≠ [] ∧
          (renderField host data f).isSome = true
  | [], acc => by simp
  | f :: fs, acc => by
    obtain ⟨ih1, ih2⟩ := foldl_renderFieldStep host data fs (renderFieldStep host data acc f)
    rw [List.foldl_cons]
    by_cases hk : f.key = []
    · have hstep : renderFieldStep host data acc f = acc := by
        simp [renderFieldStep, hk]
      rw [hstep] at ih1 ih2 ⊢
      refine ⟨by rw [ih1]; simp [hk], fun x => ?_⟩
      rw [ih2 x]
      constructor
      · rintro (h | ⟨g, hg, h⟩)
        · exact Or.inl h
        · exact Or.inr ⟨g, List.mem_cons_of_mem _ hg, h⟩
      · rintro (h | ⟨g, hg, h1, h2, h3⟩)
        · exact Or.inl h
        · rcases List.mem_cons.1 hg with rfl | hg
          · exact absurd hk h2
          · exact Or.inr ⟨g, hg, h1, h2, h3⟩
    · cases hr : renderField host data f with
      | none =>
        have hstep : renderFieldStep host data acc f = acc := by
          simp [renderFieldStep, hk, hr]
        rw [hstep] at ih1 ih2 ⊢
        refine ⟨by rw [ih1]; simp [hk, hr], fun x => ?_⟩
        rw [ih2 x]
        constructor
        · rintro (h | ⟨g, hg, h⟩)
          · exact Or.inl h
          · exact Or.inr ⟨g, List.mem_cons_of_mem _ hg, h⟩
        · rintro (h | ⟨g, hg, h1, h2, h3⟩)
          · exact Or.inl h
          · rcases List.mem_cons.1 hg with rfl | hg
            · rw [hr] at h3; exact absurd h3 (by decide)
            · exact Or.inr ⟨g, hg, h1, h2, h3⟩
      | some node =>
        have hstep : renderFieldStep host data acc f
            = (setAdd acc.1 f.key, acc.2 ++ [node]) := by
          simp [renderFieldStep, hk, hr]
        rw [hstep] at ih1 ih2 ⊢
        refine ⟨by rw [ih1]; simp [hk, hr], fun x => ?_⟩
        rw [ih2 x]
        simp only [mem_setAdd]
        constructor
        · rintro ((h | h) | ⟨g, hg, h⟩)
          · exact Or.inl h
          · exact Or.inr ⟨f, List.mem_cons_self _ _, h.symm, hk, by rw [hr]; rfl⟩
          · exact Or.inr ⟨g, List.mem_cons_of_mem _ hg, h⟩
        · rintro (h | ⟨g, hg, h1, h2, h3⟩)
          · exact Or.inl (Or.inl h)
          · rcases List.mem_cons.1 hg with rfl | hg
            · exact Or.inl (Or.inr h1.symm)
            · exact Or.inr ⟨g, hg, h1, h2, h3⟩

theorem sectionNode_map_some (title : Str) (body : List Node) :
    sectionNode title (body.map some) = { title := title, body := body } := by
  unfold sectionNode
  congr 1
  induction body with
  | nil => rfl
  | cons n ns ih => simp [List.filterMap_cons, ih]

theorem renderSectionStep_eq (host : Host) (data : BoardData) (acc : List Str × List SectionNode)
    (sec : Section) :
    (renderSectionStep host data acc sec).2 = acc.2 ++
        (if sectionBody host data sec = [] then []
          else [{ title := sectionTitle sec, body := sectionBody host data sec }]) ∧
    ∀ x, x ∈ (renderSectionStep host data acc sec).1 ↔
      x ∈ acc.1 ∨ ∃ f ∈ sec.fields, f.key = x ∧ f.key ≠ [] ∧
        (renderField host data f).isSome = true := by
  obtain ⟨h1, h2⟩ := foldl_renderFieldStep host data sec.fields (acc.1, [])
  simp only [List.nil_append] at h1
  have hbody : (sec.fields.foldl (renderFieldStep host data) (acc.1, [])).2
      = sectionBody host data sec := h1
  unfold renderSectionStep
  simp only
  rw [hbody]
  by_cases he : sectionBody host data sec = []
  · simp only [he, List.length_nil, ne_eq, not_true_eq_false, if_false, if_true,
      List.append_nil, true_and]
    exact h2
  · have hl : (sectionBody host data sec).length ≠ 0 := by
      simpa [List.length_eq_zero] using he
    simp only [hl, ne_eq, not_false_eq_true, if_true, he, if_false, sectionNode_map_some]
    exact ⟨rfl, h2⟩

theorem foldl_renderSectionStep (host : Host) (data : BoardData) :
    ∀ (sections : List Section) (acc : List Str × List SectionNode),
      (sections.foldl (renderSectionStep host data) acc).2
          = acc.2 ++ sections.filterMap (fun sec =>
              if sectionBody host data sec = [] then none
              else some { title := sectionTitle sec, body := sectionBody host data sec }) ∧
      ∀ x, x ∈ (sections.foldl (renderSectionStep host data) acc).1 ↔
        x ∈ acc.1 ∨ ∃ sec ∈ sections, ∃ f ∈ sec.fields, f.key = x ∧ f.key ≠ [] ∧
          (renderField host data f).isSome = true
  | [], acc => by simp
  | sec :: rest, acc => by
    obtain ⟨ih1, ih2⟩ :=
      foldl_renderSectionStep host data rest (renderSectionStep host data acc sec)
    obtain ⟨s1, s2⟩ := renderSectionStep_eq host data acc sec
    rw [List.foldl_cons]
    constructor
    · rw [ih1, s1, List.filterMap_cons]
      by_cases he : sectionBody host data sec = []
      · simp [he]
      · simp [he]
    · intro x
      rw [ih2 x, s2 x]
      constructor
      · rintro ((h | ⟨f, hf, h⟩) | ⟨sec2, hs, h⟩)
        · exact Or.inl h
        · exact Or.inr ⟨sec, List.mem_cons_self _ _, f, hf, h⟩
        · exact Or.inr ⟨sec2, List.mem_cons_of_mem _ hs, h⟩
      · rintro (h | ⟨sec2, hs, f, hf, h⟩)
        · exact Or.inl (Or.inl h)
        · rcases List.mem_cons.1 hs with rfl | hs
          · exact Or.inl (Or.inr ⟨f, hf, h⟩)
          · exact Or.inr ⟨sec2, hs, f, hf, h⟩

theorem extras_labels_sublist :
    ∀ extras : BoardData,
      (((extras.map fun e => field e.1 (some e.2) true false).filterMap id).map Node.label).Sublist
        (extras.map Prod.fst)
  | [] => by simp
  | e :: rest => by
    have ih := extras_labels_sublist rest
    simp only [List.map_cons, List.filterMap_cons]
    unfold field
    by_cases hb : trim e.2 = []
    · simp only [hb, if_true, id]
      exact List.Sublist.cons _ ih
    · simp only [hb, if_false, id, List.map_cons, Node.label]
      exact List.Sublist.cons₂ _ ih

theorem renderBoard_eq (host : Host) (layoutConfig : Layout) (data : BoardData)
    (hne : data ≠ []) :
    ∃ used : List Str,
      (∀ x, x ∈ used ↔ ∃ sec ∈ layoutConfig.sections, ∃ f ∈ sec.fields, f.key = x ∧
        f.key ≠ [] ∧ (renderField host data f).isSome = true) ∧
      renderBoard host layoutConfig (some data) =
        .board (schemaSections host layoutConfig data ++
          (if data.filter (fun e => !used.contains e.1) = [] then []
            else [{ title := extrasTitle layoutConfig,
                    body := ((data.filter fun e => !used.contains e.1).map
                      fun e => field e.1 (some e.2) true false).filterMap id }])) := by
  obtain ⟨w1, w2⟩ := foldl_renderSectionStep host data layoutConfig.sections ([], [])
  refine ⟨(layoutConfig.sections.foldl (renderSectionStep host data) ([], [])).1, ?_, ?_⟩
  · intro x
    rw [w2 x]
    simp
  · have hl : ¬ data.length = 0 := by simpa [List.length_eq_zero] using hne
    unfold renderBoard
    simp only [hl, if_false]
    rw [w1]
    by_cases he : data.filter (fun e =>
        !(layoutConfig.sections.foldl (renderSectionStep host data) ([], [])).1.contains e.1) = []
    · simp only [he, List.length_nil, ne_eq, not_true_eq_false, if_false, if_true,
        List.append_nil, List.nil_append]
      rfl
    · have hl2 : (data.filter (fun e =>
          !(layoutConfig.sections.foldl (renderSectionStep host data) ([], [])).1.contains e.1)).length
            ≠ 0 := by
        simpa [List.length_eq_zero] using he
      simp only [hl2, ne_eq, not_false_eq_true, if_true, he, if_false, List.nil_append]
      rfl

/-- C8: no model-supplied information is dropped by the renderer.  For every layout and
board data, `renderBoard` shows the schema sections followed by at most one extras section
titled `layoutConfig.extrasSectionTitle` (default `Extra`), whose fields are labelled with
raw keys of the data, carry their values, and come in the key order of the data; and each
data key whose value is non-blank is shown, either by a field of a schema section that a
field definition with that key rendered, or as the field with the raw key and the value in
the extras section. -/
theorem renderBoard_drops_nothing (host : Host) (layoutConfig : Layout) (data : BoardData)
    (k v : Str) (hv : data.lookup k = some v) (hnb : trim v ≠ []) :
    ∃ extraSecs,
      renderBoard host layoutConfig (some data)
        = .board (schemaSections host layoutConfig data ++ extraSecs) ∧
      extraSecs.length ≤ 1 ∧
      (∀ s ∈ extraSecs, s.title = extrasTitle layoutConfig ∧
        (s.body.map Node.label).Sublist (data.map Prod.fst) ∧
        ∀ n ∈ s.body, ∃ e ∈ data, n = .field e.1 e.2 true false) ∧
      ((∃ s ∈ schemaSections host layoutConfig data, ∃ f ∈ allFields layoutConfig,
          f.key = k ∧ ∃ node ∈ s.body, renderField host data f = some node) ∨
        (∃ s ∈ extraSecs, Node.field k v true false ∈ s.body)) := by
  have hmem := mem_of_lookup_eq_some data hv
  have hne : data ≠ [] := List.ne_nil_of_mem hmem
  obtain ⟨used, hused, hrender⟩ := renderBoard_eq host layoutConfig data hne
  refine ⟨_, hrender, ?_, ?_, ?_⟩
  · split <;> simp
  · intro s hs
    split at hs
    · simp at hs
    · rw [List.mem_singleton] at hs
      subst hs
      refine ⟨rfl, ?_, ?_⟩
      · exact (extras_labels_sublist _).trans
          ((List.filter_sublist data).map Prod.fst)
      · intro n hn
        simp only [List.mem_filterMap, List.mem_map, id, exists_eq_right] at hn
        obtain ⟨e, he, hf⟩ := hn
        refine ⟨e, (List.mem_filter.1 he).1, ?_⟩
        unfold field at hf
        by_cases hb : trim e.2 = []
        · simp [hb] at hf
        · simp only [hb, if_false, Option.some.injEq] at hf
          exact hf.symm
  · by_cases hu : k ∈ used
    · left
      obtain ⟨sec, hsec, f, hf, hfk, hfne, hsome⟩ := (hused k).1 hu
      obtain ⟨node, hnode⟩ := Option.isSome_iff_exists.1 hsome
      have hbody : node ∈ sectionBody host data sec := by
        unfold sectionBody
        rw [List.mem_filterMap]
        exact ⟨f, hf, by rw [if_neg hfne]; exact hnode⟩
      have hbne : sectionBody host data sec ≠ [] := List.ne_nil_of_mem hbody
      refine ⟨{ title := sectionTitle sec, body := sectionBody host data sec }, ?_, f, ?_, hfk,
        node, hbody, hnode⟩
      · unfold schemaSections
        rw [List.mem_filterMap]
        exact ⟨sec, hsec, by rw [if_neg hbne]⟩
      · unfold allFields
        rw [List.mem_flatMap]
        exact ⟨sec, hsec, hf⟩
    · right
      have hex : (k, v) ∈ data.filter (fun e => !used.contains e.1) := by
        rw [List.mem_filter]
        exact ⟨hmem, by simpa using hu⟩
      have hne2 : data.filter (fun e => !used.contains e.1) ≠ [] := List.ne_nil_of_mem hex
      rw [if_neg hne2]
      refine ⟨_, List.mem_singleton_self _, ?_⟩
      simp only [List.mem_filterMap, List.mem_map, id, exists_eq_right]
      exact ⟨(k, v), hex, by simp [field, hnb]⟩

/-- Witness for C8: the scenario of the specification.  The layout has the one section
`Mind` with the field `Mood` shown as chips, and the text `Mood: [happy, curious]` and
`Extra: foo` renders a `Mind` section with the chips `happy` and `curious` and an `Extra`
section with the field `Extra` = `foo`. -/
theorem renderBoard_drops_nothing_witness :
    renderBoard sampleHost mindLayout (some (parseKeyValueLines DEFAULT_PREFS mindText))
      = .board [
          { title := "Mind".toList,
            body := [.chips "Mood".toList ["happy".toList, "curious".toList]] },
          { title := "Extra".toList,
            body := [.field "Extra".toList "foo".toList true false] } ] ∧
    ∃ extraSecs,
      renderBoard sampleHost mindLayout (some (parseKeyValueLines DEFAULT_PREFS mindText))
        = .board (schemaSections sampleHost mindLayout
            (parseKeyValueLines DEFAULT_PREFS mindText) ++ extraSecs) ∧
      extraSecs.length ≤ 1 ∧
      (∀ s ∈ extraSecs, s.title = extrasTitle mindLayout ∧
        (s.body.map Node.label).Sublist
          ((parseKeyValueLines DEFAULT_PREFS mindText).map Prod.fst) ∧
        ∀ n ∈ s.body, ∃ e ∈ parseKeyValueLines DEFAULT_PREFS mindText,
          n = .field e.1 e.2 true false) ∧
      ((∃ s ∈ schemaSections sampleHost mindLayout (parseKeyValueLines DEFAULT_PREFS mindText),
          ∃ f ∈ allFields mindLayout, f.key = "Extra".toList ∧
            ∃ node ∈ s.body,
              renderField sampleHost (parseKeyValueLines DEFAULT_PREFS mindText) f
                = some node) ∨
        (∃ s ∈ extraSecs, Node.field "Extra".toList "foo".toList true false ∈ s.body)) :=
  ⟨by decide,
    renderBoard_drops_nothing sampleHost mindLayout (parseKeyValueLines DEFAULT_PREFS mindText)
      "Extra".toList "foo".toList (by decide) (by decide)⟩

/-! ## C11: selection of the latest board -/

theorem latestBelow_eq_some (host : Host) (layoutConfig : Layout) (codes : List Str) :
    ∀ (n i : Nat), latestBelow host layoutConfig codes n = some i ↔
      i < n ∧ blockPasses host layoutConfig codes i = true ∧
        ∀ j, i < j → j < n → blockPasses host layoutConfig codes j = false
  | 0, i => by simp [latestBelow]
  | n + 1, i => by
    unfold latestBelow
    by_cases hp : looksLikeInfoBoard host layoutConfig (trim (codes.getD n [])) = true
    · rw [if_pos hp]
      constructor
      · intro h
        obtain rfl : n = i := Option.some.inj h
        exact ⟨Nat.lt_succ_self _, hp, fun j h1 h2 => by omega⟩
      · rintro ⟨h1, _, h3⟩
        by_cases hin : i = n
        · rw [hin]
        · have := h3 n (by omega) (Nat.lt_succ_self _)
          unfold blockPasses at this
          rw [hp] at this
          exact absurd this (by decide)
    · rw [if_neg hp, latestBelow_eq_some host layoutConfig codes n i]
      have hpf : blockPasses host layoutConfig codes n = false := by
        unfold blockPasses; simpa using hp
      constructor
      · rintro ⟨h1, h2, h3⟩
        refine ⟨by omega, h2, fun j hj1 hj2 => ?_⟩
        by_cases hjn : j = n
        · rw [hjn]; exact hpf
        · exact h3 j hj1 (by omega)
      · rintro ⟨h1, h2, h3⟩
        have hin : i ≠ n := by
          rintro rfl
          rw [hpf] at h2
          exact absurd h2 (by decide)
        exact ⟨by omega, h2, fun j hj1 hj2 => h3 j hj1 (by omega)⟩

theorem latestBelow_eq_none (host : Host) (layoutConfig : Layout) (codes : List Str) :
    ∀ n : Nat, latestBelow host layoutConfig codes n = none ↔
      ∀ j, j < n → blockPasses host layoutConfig codes j = false
  | 0 => by simp [latestBelow]
  | n + 1 => by
    unfold latestBelow
    by_cases hp : looksLikeInfoBoard host layoutConfig (trim (codes.getD n [])) = true
    · rw [if_pos hp]
      constructor
      · intro h; exact absurd h (by simp)
      · intro h
        have := h n (Nat.lt_succ_self _)
        unfold blockPasses at this
        rw [hp] at this
        exact absurd this (by decide)
    · rw [if_neg hp, latestBelow_eq_none host layoutConfig codes n]
      have hpf : blockPasses host layoutConfig codes n = false := by
        unfold blockPasses; simpa using hp
      constructor
      · intro h j hj
        by_cases hjn : j = n
        · rw [hjn]; exact hpf
        · exact h j (by omega)
      · intro h j hj
        exact h j (by omega)

/-- C11: for every list of candidate code-block texts in document order,
`getLatestInfoBoardCodeBlock` returns the block with the greatest index whose trimmed text
passes `looksLikeInfoBoard`: it returns index `i` exactly when block `i` passes and no
later block does, so an older passing block is never selected when a later one passes,
and it returns none if and only if no block passes. -/
theorem getLatestInfoBoardCodeBlock_latest (host : Host) (layoutConfig : Layout)
    (codes : List Str) :
    (∀ i, getLatestInfoBoardCodeBlock host layoutConfig codes = some i ↔
      i < codes.length ∧ blockPasses host layoutConfig codes i = true ∧
        ∀ j, i < j → j < codes.length → blockPasses host layoutConfig codes j = false) ∧
    (getLatestInfoBoardCodeBlock host layoutConfig codes = none ↔
      ∀ j, j < codes.length → blockPasses host layoutConfig codes j = false) :=
  ⟨fun i => latestBelow_eq_some host layoutConfig codes codes.length i,
    latestBelow_eq_none host layoutConfig codes codes.length⟩

/-! ## C12: the threshold and the number of expected keys -/

/-- The pieces of `split`: the first piece starts the text, every later piece comes right
after a separator. -/
theorem split_pieces (sep : Char) :
    ∀ s : Str, ∃ l ls, split sep s = l :: ls ∧ (∃ a, s = l ++ a) ∧
      ∀ line ∈ ls, ∃ before after, s = before ++ line ++ after ∧
        before.getLast? = some sep
  | [] => ⟨[], [], rfl, ⟨[], rfl⟩, fun _ h => absurd h (List.not_mem_nil _)⟩
  | c :: cs => by
    obtain ⟨l, ls, hsp, ⟨a, ha⟩, hlater⟩ := split_pieces sep cs
    have hlater2 : ∀ line ∈ ls, ∃ before after, c :: cs = before ++ line ++ after ∧
        before.getLast? = some sep := by
      intro line hline
      obtain ⟨before, after, hs, hb⟩ := hlater line hline
      refine ⟨c :: before, after, by rw [hs]; rfl, ?_⟩
      cases before with
      | nil => simp at hb
      | cons d ds => rw [List.getLast?_cons_cons]; exact hb
    by_cases hc : c = sep
    · refine ⟨[], l :: ls, by simp [split, hc, hsp], ⟨c :: cs, rfl⟩, ?_⟩
      intro line hline
      rcases List.mem_cons.1 hline with rfl | hline
      · exact ⟨[c], a, by rw [ha]; rfl, by simp [hc]⟩
      · exact hlater2 line hline
    · exact ⟨c :: l, ls, by simp [split, hc, hsp], ⟨a, by rw [ha]; rfl⟩, hlater2⟩

theorem split_mem_decomp (sep : Char) (s line : Str) (h : line ∈ split sep s) :
    ∃ before after, s = before ++ line ++ after ∧
      (before = [] ∨ before.getLast? = some sep) := by
  obtain ⟨l, ls, hsp, ⟨a, ha⟩, hlater⟩ := split_pieces sep s
  rw [hsp] at h
  rcases List.mem_cons.1 h with rfl | h
  · exact ⟨[], a, by rw [ha]; rfl, Or.inl rfl⟩
  · obtain ⟨before, after, hs, hb⟩ := hlater line h
    exact ⟨before, after, hs, Or.inr hb⟩

/-- A `key:` line in the sense of the claim is found by the detection pattern. -/
theorem keyPatternTest_of_hasKeyLine (host : Host) (k text : Str)
    (h : hasKeyLine host k text = true) : keyPatternTest host k text = true := by
  unfold hasKeyLine at h
  rw [List.any_eq_true] at h
  obtain ⟨line, hline, hm⟩ := h
  obtain ⟨before, after, hs, hb⟩ := split_mem_decomp '\n' text line hline
  obtain ⟨ws1, lit, ws2, aft, hl, h1, h2, h3⟩ :=
    (matchSpaceKeyColon_iff host.canonicalize k line).1 hm
  rw [keyPatternTest_iff]
  exact ⟨before, ws1, lit, ws2, aft ++ after, by rw [hs, hl]; simp, hb, h1, h2, h3⟩

theorem countP_eq_length_of_all (p : Str → Bool) :
    ∀ l : List Str, (∀ k ∈ l, p k = true) → l.countP p = l.length
  | [], _ => rfl
  | k :: ks, h => by
    rw [List.countP_cons_of_pos _ _ (h k (List.mem_cons_self _ _)), List.length_cons,
      countP_eq_length_of_all p ks (fun x hx => h x (List.mem_cons_of_mem _ hx))]

/-- C12 as stated fails: with a single field key there is one expected key and the
threshold is 2, so the text `Mood: happy`, which has a `key:` line for every expected
key, is rejected. -/
theorem threshold_counterexample :
    (getAllExpectedKeysFromLayout singleKeyLayout).length = 1 ∧
    min 4 (max 2 (getAllExpectedKeysFromLayout singleKeyLayout).length) = 2 ∧
    (∀ k ∈ getAllExpectedKeysFromLayout singleKeyLayout,
      hasKeyLine sampleHost k "Mood: happy".toList = true) ∧
    looksLikeInfoBoard sampleHost singleKeyLayout "Mood: happy".toList = false := by
  decide

/-- C12 (amended): for every layout with at least two expected keys the detection
threshold does not exceed their number, `min(4, max(2, n)) <= n`, so a text that contains a
matching `key:` line for every expected key is accepted by `looksLikeInfoBoard`; with a
single expected key the threshold is 2 and no text is accepted. -/
theorem threshold_le_expected (host : Host) (layoutConfig : Layout) (text : Str) :
    (2 ≤ (getAllExpectedKeysFromLayout layoutConfig).length →
      min 4 (max 2 (getAllExpectedKeysFromLayout layoutConfig).length)
        ≤ (getAllExpectedKeysFromLayout layoutConfig).length) ∧
    (2 ≤ (getAllExpectedKeysFromLayout layoutConfig).length →
      (∀ k ∈ getAllExpectedKeysFromLayout layoutConfig, hasKeyLine host k text = true) →
      looksLikeInfoBoard host layoutConfig text = true) ∧
    ((getAllExpectedKeysFromLayout layoutConfig).length = 1 →
      looksLikeInfoBoard host layoutConfig text = false) := by
  have hlooks : looksLikeInfoBoard host layoutConfig text
      = decide (min 4 (max 2 (getAllExpectedKeysFromLayout layoutConfig).length)
          ≤ (getAllExpectedKeysFromLayout layoutConfig).countP
              fun k => keyPatternTest host k text) := by
    unfold looksLikeInfoBoard threshold
    simp only [foldl_hits_eq, Nat.zero_add, ge_iff_le]
  refine ⟨fun h => by omega, fun hn hall => ?_, fun h1 => ?_⟩
  · have hc := countP_eq_length_of_all (fun k => keyPatternTest host k text)
      (getAllExpectedKeysFromLayout layoutConfig)
      (fun k hk => keyPatternTest_of_hasKeyLine host k text (hall k hk))
    rw [hlooks, hc, decide_eq_true_eq]
    omega
  · have hle := List.countP_le_length (fun k => keyPatternTest host k text)
      (l := getAllExpectedKeysFromLayout layoutConfig)
    rw [hlooks, decide_eq_false_iff_not]
    omega

/-- Witness for C12 (amended): the built-in layout has ten expected keys and a board that
names each of them is accepted. -/
theorem threshold_le_expected_witness :
    looksLikeInfoBoard sampleHost DEFAULT_LAYOUT fullBoardText = true :=
  (threshold_le_expected sampleHost DEFAULT_LAYOUT fullBoardText).2.1 (by decide) (by decide)

/-! ## C13: percent extraction -/

theorem isDigit_iff (c : Char) : c.isDigit = true ↔ 48 ≤ c.toNat ∧ c.toNat ≤ 57 := by
  unfold Char.isDigit Char.toNat
  simp only [Bool.and_eq_true, decide_eq_true_eq, ge_iff_le]
  constructor
  · rintro ⟨h1, h2⟩
    exact ⟨h1, h2⟩
  · rintro ⟨h1, h2⟩
    exact ⟨h1, h2⟩

theorem not_isDigit_of_isWhiteSpace (c : Char) (h : isWhiteSpace c = true) :
    c.isDigit = false := by
  rw [Bool.eq_false_iff]
  intro hd
  rw [isDigit_iff] at hd
  unfold isWhiteSpace at h
  simp only [Bool.or_eq_true, Bool.and_eq_true, beq_iff_eq, decide_eq_true_eq] at h
  omega

theorem percent_not_whiteSpace : isWhiteSpace '%' = false := by decide

theorem matchPercentSign_iff (r : Str) :
    matchPercentSign r = true ↔
      ∃ ws post, r = ws ++ '%' :: post ∧ ws.all isWhiteSpace = true := by
  constructor
  · intro h
    unfold matchPercentSign at h
    split at h
    · next post hd =>
      refine ⟨r.takeWhile isWhiteSpace, post, ?_, ?_⟩
      · rw [← hd, List.takeWhile_append_dropWhile]
      · rw [List.all_eq_true]
        intro c hc
        exact List.mem_takeWhile_imp hc
    · exact absurd h (by decide)
  · rintro ⟨ws, post, rfl, hws⟩
    unfold matchPercentSign
    rw [dropWhile_whiteSpace_append ws _ hws, List.dropWhile_cons, percent_not_whiteSpace]
    rfl

/-- The character that follows the digits of an occurrence is not a digit. -/
theorem percentHere_next (ds s : Str) (h : PercentHere ds s) :
    ∃ x t, s = ds ++ x :: t ∧ x.isDigit = false := by
  obtain ⟨ws, post, rfl, _, _, _, hws⟩ := h
  cases ws with
  | nil => exact ⟨'%', post, by simp, by decide⟩
  | cons w ws' =>
    simp only [List.all_cons, Bool.and_eq_true] at hws
    exact ⟨w, ws' ++ '%' :: post, by simp, not_isDigit_of_isWhiteSpace w hws.1⟩

theorem matchPercentWith_of_percentHere (ds s : Str) (h : PercentHere ds s) :
    matchPercentWith ds.length s = some ds := by
  obtain ⟨ws, post, rfl, h1, h2, hd, hws⟩ := h
  unfold matchPercentWith
  have htake : (ds ++ ws ++ '%' :: post).take ds.length = ds := by
    rw [List.append_assoc, List.take_left]
  have hdrop : (ds ++ ws ++ '%' :: post).drop ds.length = ws ++ '%' :: post := by
    rw [List.append_assoc, List.drop_left]
  have hs : matchPercentSign (ws ++ '%' :: post) = true :=
    (matchPercentSign_iff _).2 ⟨ws, post, rfl, hws⟩
  have hlen : ds.length ≤ (ds ++ ws ++ '%' :: post).length := by
    simp only [List.length_append]; omega
  rw [htake, hdrop, hd, hs]
  simp [hlen]

theorem matchPercentWith_none_of_gt (ds s : Str) (h : PercentHere ds s) (n : Nat)
    (hn : ds.length < n) : matchPercentWith n s = none := by
  obtain ⟨x, t, rfl, hx⟩ := percentHere_next ds s h
  unfold matchPercentWith
  have hall : ((ds ++ x :: t).take n).all Char.isDigit = false := by
    rw [Bool.eq_false_iff]
    intro hall
    rw [List.all_eq_true] at hall
    have hmem : x ∈ (ds ++ x :: t).take n := by
      rw [List.take_append_eq_append_take]
      apply List.mem_append_right
      obtain ⟨m, hm⟩ : ∃ m, n - ds.length = m + 1 := ⟨n - ds.length - 1, by omega⟩
      rw [hm, List.take_succ_cons]
      exact List.mem_cons_self _ _
    rw [hall x hmem] at hx
    exact absurd hx (by decide)
  rw [hall]
  simp

theorem percentHere_of_matchPercentWith (n : Nat) (s m : Str) (h1 : 1 ≤ n) (h3 : n ≤ 3)
    (h : matchPercentWith n s = some m) : PercentHere m s := by
  unfold matchPercentWith at h
  split at h
  · next hc =>
    simp only [Bool.and_eq_true, decide_eq_true_eq] at hc
    obtain ⟨⟨hlen, hd⟩, hs⟩ := hc
    obtain rfl : s.take n = m := Option.some.inj h
    obtain ⟨ws, post, hdrop, hws⟩ := (matchPercentSign_iff _).1 hs
    have hl : (s.take n).length = n := by rw [List.length_take]; omega
    refine ⟨ws, post, ?_, by omega, by omega, hd, hws⟩
    rw [List.append_assoc, ← hdrop, List.take_append_drop]
  · exact absurd h (by simp)

theorem matchPercentHere_iff (s m : Str) :
    matchPercentHere s = some m ↔ PercentHere m s := by
  constructor
  · intro h
    unfold matchPercentHere at h
    cases h3 : matchPercentWith 3 s with
    | some m3 =>
      rw [h3] at h
      obtain rfl : m3 = m := Option.some.inj h
      exact percentHere_of_matchPercentWith 3 s m3 (by omega) (by omega) h3
    | none =>
      rw [h3] at h
      cases h2 : matchPercentWith 2 s with
      | some m2 =>
        rw [h2] at h
        obtain rfl : m2 = m := Option.some.inj h
        exact percentHere_of_matchPercentWith 2 s m2 (by omega) (by omega) h2
      | none =>
        rw [h2] at h
        exact percentHere_of_matchPercentWith 1 s m (by omega) (by omega) h
  · intro h
    have hself := matchPercentWith_of_percentHere m s h
    have hgt := matchPercentWith_none_of_gt m s h
    obtain ⟨_, _, _, h1, h3, _, _⟩ := h
    unfold matchPercentHere
    obtain hl | hl | hl : m.length = 1 ∨ m.length = 2 ∨ m.length = 3 := by omega
    · rw [hl] at hself
      rw [hgt 3 (by omega), hgt 2 (by omega), hself]
    · rw [hl] at hself
      rw [hgt 3 (by omega), hself]
    · rw [hl] at hself
      rw [hself]

theorem not_percentHere_nil (ds : Str) : ¬ PercentHere ds [] := by
  rintro ⟨ws, post, h, _⟩
  simp at h

theorem matchPercent_iff :
    ∀ (v m : Str), matchPercent v = some m ↔ FirstPercent v m
  | [], m => by
    simp only [matchPercent]
    constructor
    · intro h; exact absurd h (by simp)
    · rintro ⟨pre, rest, h, hp, _⟩
      have : rest = [] := (List.append_eq_nil.1 h.symm).2
      rw [this] at hp
      exact absurd hp (not_percentHere_nil m)
  | c :: r, m => by
    unfold matchPercent
    cases hh : matchPercentHere (c :: r) with
    | some m1 =>
      simp only [Option.some.injEq]
      have hp1 := (matchPercentHere_iff (c :: r) m1).1 hh
      constructor
      · rintro rfl
        exact ⟨[], c :: r, rfl, hp1, fun _ _ _ _ _ => Nat.zero_le _⟩
      · rintro ⟨pre, rest, h, hp, hmin⟩
        have h0 := hmin [] (c :: r) m1 rfl hp1
        have hpre : pre = [] := List.length_eq_zero.1 (Nat.le_zero.1 h0)
        subst hpre
        simp only [List.nil_append] at h
        subst h
        have := (matchPercentHere_iff (c :: r) m).2 hp
        rw [hh] at this
        exact Option.some.inj this
    | none =>
      simp only
      rw [matchPercent_iff r m]
      have hnone : ∀ ds, ¬ PercentHere ds (c :: r) := by
        intro ds hp
        have := (matchPercentHere_iff (c :: r) ds).2 hp
        rw [hh] at this
        exact absurd this (by simp)
      constructor
      · rintro ⟨pre, rest, h, hp, hmin⟩
        refine ⟨c :: pre, rest, by rw [h]; rfl, hp, ?_⟩
        intro pre2 rest2 ds2 h2 hp2
        cases pre2 with
        | nil =>
          simp only [List.nil_append] at h2
          subst h2
          exact absurd hp2 (hnone ds2)
        | cons d pre2' =>
          simp only [List.cons_append, List.cons.injEq] at h2
          have := hmin pre2' rest2 ds2 h2.2 hp2
          simp only [List.length_cons]
          omega
      · rintro ⟨pre, rest, h, hp, hmin⟩
        cases pre with
        | nil =>
          simp only [List.nil_append] at h
          subst h
          exact absurd hp (hnone m)
        | cons d pre' =>
          simp only [List.cons_append, List.cons.injEq] at h
          refine ⟨pre', rest, h.2, hp, ?_⟩
          intro pre2 rest2 ds2 h2 hp2
          have := hmin (c :: pre2) rest2 ds2 (by rw [h2]; rfl) hp2
          simp only [List.length_cons] at this
          omega

theorem matchPercent_eq_none (v : Str) : matchPercent v = none ↔ ¬ HasPercent v := by
  constructor
  · rintro h ⟨pre, rest, ds, hv, hp⟩
    -- a first occurrence exists as soon as one exists
    have key : ∀ (n : Nat) (pre rest ds : Str), pre.length = n → v = pre ++ rest →
        PercentHere ds rest → ∃ m, matchPercent v = some m := by
      intro n
      induction n using Nat.strong_induction_on with
      | _ n ih =>
        intro pre rest ds hn hv hp
        by_cases hex : ∃ pre2 rest2 ds2, v = pre2 ++ rest2 ∧ PercentHere ds2 rest2 ∧
            pre2.length < n
        · obtain ⟨pre2, rest2, ds2, hv2, hp2, hlt⟩ := hex
          exact ih pre2.length hlt pre2 rest2 ds2 rfl hv2 hp2
        · refine ⟨ds, (matchPercent_iff v ds).2 ⟨pre, rest, hv, hp, ?_⟩⟩
          intro pre2 rest2 ds2 hv2 hp2
          by_contra hlt
          exact hex ⟨pre2, rest2, ds2, hv2, hp2, by omega⟩
    obtain ⟨m, hm⟩ := key pre.length pre rest ds rfl hv hp
    rw [h] at hm
    exact absurd hm (by simp)
  · intro h
    cases hm : matchPercent v with
    | none => rfl
    | some m =>
      obtain ⟨pre, rest, hv, hp, _⟩ := (matchPercent_iff v m).1 hm
      exact absurd ⟨pre, rest, m, hv, hp⟩ h

/-- C13: for every string value, `getPercent` returns null exactly when the value has no
occurrence of one to three decimal digits followed by optional white space and `%`;
otherwise it returns the number denoted by the digits of the first such occurrence,
clamped to [0, 100], so that the result is always between 0 and 100; `42% - happy` gives
42, `happy` gives null and `150%` gives 100. -/
theorem getPercent_first_occurrence (v : Str) :
    (getPercent (some v) = none ↔ ¬ HasPercent v) ∧
    (∀ n, getPercent (some v) = some n ↔
      ∃ ds, FirstPercent v ds ∧ n = max 0 (min 100 (parseDigits ds))) ∧
    (∀ n, getPercent (some v) = some n → 0 ≤ n ∧ n ≤ 100) ∧
    getPercent (some "42% - happy".toList) = some 42 ∧
    getPercent (some "happy".toList) = none ∧
    getPercent (some "150%".toList) = some 100 := by
  have hsome : ∀ n, getPercent (some v) = some n ↔
      ∃ ds, FirstPercent v ds ∧ n = max 0 (min 100 (parseDigits ds)) := by
    intro n
    unfold getPercent
    by_cases hv : v = []
    · subst hv
      simp only [if_true]
      constructor
      · intro h; exact absurd h (by simp)
      · rintro ⟨ds, hf, _⟩
        have := (matchPercent_iff [] ds).2 hf
        exact absurd this (by simp [matchPercent])
    · simp only [hv, if_false]
      cases hm : matchPercent v with
      | none =>
        simp only
        constructor
        · intro h; exact absurd h (by simp)
        · rintro ⟨ds, hf, _⟩
          have := (matchPercent_iff v ds).2 hf
          rw [hm] at this
          exact absurd this (by simp)
      | some m =>
        simp only [Option.some.injEq, clamp]
        constructor
        · rintro rfl
          exact ⟨m, (matchPercent_iff v m).1 hm, rfl⟩
        · rintro ⟨ds, hf, rfl⟩
          have := (matchPercent_iff v ds).2 hf
          rw [hm] at this
          rw [Option.some.inj this]
  refine ⟨?_, hsome, ?_, by decide, by decide, by decide⟩
  · unfold getPercent
    by_cases hv : v = []
    · subst hv
      simp only [if_true, true_iff]
      rw [← matchPercent_eq_none]
      rfl
    · simp only [hv, if_false]
      rw [← matchPercent_eq_none]
      cases matchPercent v <;> simp
  · intro n hn
    obtain ⟨ds, _, rfl⟩ := (hsome n).1 hn
    omega

/-! ## C14: chip splitting -/

theorem trim_head_not_whiteSpace (s : Str) (c : Char) (hc : (trim s).head? = some c) :
    isWhiteSpace c = false := by
  unfold trim at hc
  have hp : trimEnd (trimStart s) <+: trimStart s := by
    rw [trimEnd_eq_rdropWhile]; exact List.rdropWhile_prefix _ _
  have h2 := head?_of_prefix hp c hc
  have h3 := List.head?_dropWhile_not isWhiteSpace s
  unfold trimStart at h2
  rw [h2] at h3
  exact h3

theorem trim_last_not_whiteSpace (s : Str) (c : Char) (hc : (trim s).getLast? = some c) :
    isWhiteSpace c = false := by
  unfold trim at hc
  rw [trimEnd_eq_rdropWhile] at hc
  have hne : (trimStart s).rdropWhile isWhiteSpace ≠ [] := by
    intro h; rw [h] at hc; simp at hc
  have h := List.rdropWhile_last_not isWhiteSpace (trimStart s) hne
  rw [List.getLast?_eq_getLast _ hne] at hc
  obtain rfl := Option.some.inj hc
  simpa using h

theorem mem_of_mem_trim (s : Str) (c : Char) (hc : c ∈ trim s) : c ∈ s := by
  unfold trim at hc
  have h1 : trimEnd (trimStart s) <+: trimStart s := by
    rw [trimEnd_eq_rdropWhile]; exact List.rdropWhile_prefix _ _
  have h2 : trimStart s <:+ s := List.dropWhile_suffix _
  exact h2.subset (h1.subset hc)

theorem split_no_sep (sep : Char) :
    ∀ (s piece : Str), piece ∈ split sep s → sep ∉ piece
  | [], piece, h => by
    simp only [split, List.mem_singleton] at h
    subst h
    exact List.not_mem_nil _
  | c :: cs, piece, h => by
    obtain ⟨l, ls, hsp, _, _⟩ := split_pieces sep cs
    have ih := split_no_sep sep cs
    unfold split at h
    by_cases hc : c = sep
    · rw [if_pos hc] at h
      rcases List.mem_cons.1 h with rfl | h
      · exact List.not_mem_nil _
      · exact ih piece h
    · rw [if_neg hc, hsp] at h
      rcases List.mem_cons.1 h with rfl | h
      · intro hmem
        rcases List.mem_cons.1 hmem with h1 | h1
        · exact hc h1.symm
        · exact ih l (by rw [hsp]; exact List.mem_cons_self _ _) h1
      · exact ih piece (by rw [hsp]; exact List.mem_cons_of_mem _ h)

theorem stripEnclosing_enclosed (inner : Str) :
    stripEnclosing ('[' :: inner ++ [']']) = inner := by
  unfold stripEnclosing
  simp

theorem splitToChips_eq (v : Str) :
    splitToChips (some v)
      = ((((split ',' (stripEnclosing v)).map trim).filter fun s => s ≠ []).take 12) := by
  unfold splitToChips
  by_cases hv : v = []
  · subst hv; decide
  · simp only [hv, if_false]

theorem enclosed_of_head_last (v : Str) (h1 : v.head? = some '[') (h2 : v.getLast? = some ']') :
    ∃ inner, v = '[' :: inner ++ [']'] := by
  cases v with
  | nil => simp at h1
  | cons c cs =>
    simp only [List.head?_cons, Option.some.injEq] at h1
    subst h1
    rcases List.eq_nil_or_concat cs with rfl | ⟨inner, x, rfl⟩
    · simp at h2
    · refine ⟨inner, ?_⟩
      rw [List.concat_eq_append] at h2 ⊢
      have : ('[' :: (inner ++ [x])).getLast? = some x := by
        rw [← List.cons_append, List.getLast?_append]
        simp
      rw [this] at h2
      obtain rfl := Option.some.inj h2
      rfl

/-- On a value enclosed in `[...]`, and on a value that neither starts with `[` nor ends
with `]`, the replacement of `splitToChips` strips one layer of enclosing `[...]`. -/
theorem stripEnclosing_eq_stripOneLayer (v : Str)
    (h : (v.head? = some '[' ∧ v.getLast? = some ']') ∨
      (v.head? ≠ some '[' ∧ v.getLast? ≠ some ']')) :
    stripEnclosing v = stripOneLayer v := by
  rcases h with ⟨h1, h2⟩ | ⟨h1, h2⟩
  · obtain ⟨inner, rfl⟩ := enclosed_of_head_last v h1 h2
    rw [stripEnclosing_enclosed]
    unfold stripOneLayer
    rw [if_pos ⟨h1, h2, by simp⟩]
    simp
  · unfold stripEnclosing stripOneLayer
    simp only [h1, h2, if_false, false_and]

/-- C14 as stated fails: the value `[a` is not enclosed in `[...]`, so the steps of the
claim give the one item `[a`; `splitToChips` removes the opening bracket on its own and
gives the item `a`. -/
theorem splitToChips_counterexample :
    splitToChips (some "[a".toList) = ["a".toList] ∧
    chipsOfClaim "[a".toList = ["[a".toList] ∧
    splitToChips (some "[a".toList) ≠ chipsOfClaim "[a".toList := by
  decide

/-- C14 (amended): for every string value, `splitToChips` removes an opening bracket at
the start and a closing bracket at the end, each whether or not the other is there, splits
on commas, trims each item, drops the empty items and keeps the first 12.  On a value
enclosed in `[...]` this strips one layer, and on such a value and on a value that
neither starts with `[` nor ends with `]` the result is that of the steps of the claim.
The result has at most 12 items, every item is non-empty, has no leading or trailing white
space and contains no comma, and the items come in their original order; `[a, b, , c]`
gives `a`, `b`, `c`. -/
theorem splitToChips_items (v : Str) :
    splitToChips (some v)
      = ((((split ',' (stripEnclosing v)).map trim).filter fun s => s ≠ []).take 12) ∧
    (∀ inner, v = '[' :: inner ++ [']'] → stripEnclosing v = inner) ∧
    ((v.head? = some '[' ∧ v.getLast? = some ']') ∨
        (v.head? ≠ some '[' ∧ v.getLast? ≠ some ']') →
      splitToChips (some v) = chipsOfClaim v) ∧
    (splitToChips (some v)).length ≤ 12 ∧
    (∀ item ∈ splitToChips (some v), item ≠ [] ∧
      (∀ c, item.head? = some c → isWhiteSpace c = false) ∧
      (∀ c, item.getLast? = some c → isWhiteSpace c = false) ∧ ',' ∉ item) ∧
    (splitToChips (some v)).Sublist ((split ',' (stripEnclosing v)).map trim) ∧
    splitToChips (some "[a, b, , c]".toList) = ["a".toList, "b".toList, "c".toList] := by
  have heq := splitToChips_eq v
  refine ⟨heq, ?_, ?_, ?_, ?_, ?_, by decide⟩
  · rintro inner rfl
    exact stripEnclosing_enclosed inner
  · intro h
    rw [heq, stripEnclosing_eq_stripOneLayer v h]
    rfl
  · rw [heq, List.length_take]
    exact Nat.min_le_left _ _
  · intro item hitem
    rw [heq] at hitem
    have hfil := List.mem_of_mem_take hitem
    rw [List.mem_filter, List.mem_map] at hfil
    obtain ⟨⟨piece, hpiece, rfl⟩, hne⟩ := hfil
    refine ⟨by simpa using hne, trim_head_not_whiteSpace piece, trim_last_not_whiteSpace piece,
      fun hc => ?_⟩
    exact split_no_sep ',' _ piece hpiece (mem_of_mem_trim piece ',' hc)
  · rw [heq]
    exact (List.take_sublist _ _).trans (List.filter_sublist _)

/-! ## C15: bracket stripping -/

theorem startsWith_singleton (v : Str) (c : Char) :
    startsWith v [c] = true ↔ v.head? = some c := by
  unfold startsWith
  cases v with
  | nil => simp [List.isPrefixOf]
  | cons d ds =>
    simp only [List.isPrefixOf, List.head?_cons, Option.some.injEq, Bool.and_true, beq_iff_eq]
    exact eq_comm

theorem endsWith_singleton (v : Str) (c : Char) :
    endsWith v [c] = true ↔ v.getLast? = some c := by
  unfold endsWith
  rw [List.reverse_singleton, ← List.head?_reverse]
  exact startsWith_singleton v.reverse c

/-- C15: with `prefs.stripOuterBrackets` enabled, `maybeStripBrackets` strips exactly one
layer of matching outer brackets: if the trimmed value starts with `[` and ends with `]`,
the result is the text between that first and that last character, trimmed, and otherwise
it is the trimmed value unchanged (`[Calm]` gives `Calm`, `Calm` gives `Calm`, the
unbalanced `[Calm` gives `[Calm`); with the option disabled the result is the trimmed
value for every input. -/
theorem maybeStripBrackets_one_layer (prefs : Prefs) (value : Str) :
    (prefs.stripOuterBrackets = true →
      ((trim value).head? = some '[' → (trim value).getLast? = some ']' →
        ∃ inner, trim value = '[' :: inner ++ [']'] ∧
          maybeStripBrackets prefs value = trim inner) ∧
      (¬ ((trim value).head? = some '[' ∧ (trim value).getLast? = some ']') →
        maybeStripBrackets prefs value = trim value)) ∧
    (prefs.stripOuterBrackets = false → maybeStripBrackets prefs value = trim value) ∧
    maybeStripBrackets stripPrefs "[Calm]".toList = "Calm".toList ∧
    maybeStripBrackets stripPrefs "Calm".toList = "Calm".toList ∧
    maybeStripBrackets stripPrefs "[Calm".toList = "[Calm".toList := by
  refine ⟨fun hon => ⟨fun h1 h2 => ?_, fun hnot => ?_⟩,
    fun hoff => maybeStripBrackets_off prefs hoff value, by decide, by decide, by decide⟩
  · obtain ⟨inner, hv⟩ := enclosed_of_head_last (trim value) h1 h2
    refine ⟨inner, hv, ?_⟩
    have hs : startsWith (trim value) "[".toList = true :=
      (startsWith_singleton _ '[').2 h1
    have he : endsWith (trim value) "]".toList = true :=
      (endsWith_singleton _ ']').2 h2
    unfold maybeStripBrackets
    simp only [hon, Bool.not_true, Bool.false_eq_true, if_false, hs, he, Bool.and_self,
      if_true]
    rw [hv]
    simp
  · have hse : (startsWith (trim value) "[".toList && endsWith (trim value) "]".toList)
        = false := by
      rw [Bool.eq_false_iff]
      intro h
      rw [Bool.and_eq_true] at h
      exact hnot ⟨(startsWith_singleton _ '[').1 h.1, (endsWith_singleton _ ']').1 h.2⟩
    unfold maybeStripBrackets
    simp only [hon, Bool.not_true, Bool.false_eq_true, if_false, hse]

/-! ## C16: the display type of a key that is defined more than once -/

/-- C16 fails on the code: in `duplicateKeyLayout` the first definition of `Mood` has
display `bar_only`, which dictates the line `Mood: [%]`, and the generated body is the
single line `Mood: [...]`, the format of the last definition. -/
theorem buildPromptFromSchema_duplicate_key :
    (allFields duplicateKeyLayout).map (fun f => (f.key, f.display))
      = [("Mood".toList, "bar_only".toList), ("Mood".toList, "text".toList)] ∧
    specLine "Mood".toList "bar_only".toList = "Mood: [%]".toList ∧
    schemaLines duplicateKeyLayout = "Mood: [...]".toList := by
  decide

/-! ## C18: sections without rendered fields -/

/-- Every schema section of the rendered board has at least one field. -/
theorem schemaSections_body_ne_nil (host : Host) (layoutConfig : Layout) (data : BoardData) :
    ∀ s ∈ schemaSections host layoutConfig data, s.body ≠ [] := by
  intro s hs
  unfold schemaSections at hs
  rw [List.mem_filterMap] at hs
  obtain ⟨sec, _, h⟩ := hs
  by_cases he : sectionBody host data sec = []
  · rw [if_pos he] at h
    exact absurd h (by simp)
  · rw [if_neg he] at h
    obtain rfl := Option.some.inj h
    exact he

/-- C18 fails on the code: for the board text `X:` the only data key has a blank value,
and `renderBoard` still shows the extras section, with no field in it. -/
theorem renderBoard_empty_extras :
    parseKeyValueLines DEFAULT_PREFS "X:".toList = [("X".toList, [])] ∧
    renderBoard sampleHost DEFAULT_LAYOUT (some (parseKeyValueLines DEFAULT_PREFS "X:".toList))
      = .board [{ title := "Extra".toList, body := [] }] := by
  decide

/-! ## C17: bar-only fields -/

theorem trim_ne_nil_of_mem (s : Str) (c : Char) (hc : c ∈ s) (hw : isWhiteSpace c = false) :
    trim s ≠ [] := by
  intro h
  unfold trim at h
  rw [trimEnd_eq_rdropWhile, List.rdropWhile_eq_nil_iff] at h
  rw [← List.takeWhile_append_dropWhile isWhiteSpace s, List.mem_append] at hc
  rcases hc with hc | hc
  · rw [List.mem_takeWhile_imp hc] at hw
    exact absurd hw (by decide)
  · rw [h c hc] at hw
    exact absurd hw (by decide)

theorem trim_ne_nil_of_getPercent (v : Str) (p : Nat) (h : getPercent (some v) = some p) :
    v ≠ [] ∧ trim v ≠ [] := by
  unfold getPercent at h
  by_cases hv : v = []
  · simp [hv] at h
  · refine ⟨hv, ?_⟩
    simp only [hv, if_false] at h
    cases hm : matchPercent v with
    | none => simp [hm] at h
    | some m =>
      obtain ⟨pre, rest, hvr, ⟨ws, post, hrest, _⟩, _⟩ := (matchPercent_iff v m).1 hm
      apply trim_ne_nil_of_mem v '%' _ percent_not_whiteSpace
      rw [hvr, hrest]
      simp

theorem getPercent_none_of_trim_nil (v : Str) (h : trim v = []) : getPercent (some v) = none := by
  cases hp : getPercent (some v) with
  | none => rfl
  | some p => exact absurd h (trim_ne_nil_of_getPercent v p hp).2

theorem renderField_barOnly (host : Host) (data : BoardData) (f : FieldDef)
    (hd : f.display = "bar_only".toList) :
    renderField host data f
      = barOnly (if f.label ≠ [] then f.label else f.key) (getValue host data f.key) := by
  unfold renderField
  have h1 : ¬ "bar_only".toList = "chips".toList := by decide
  have h2 : ¬ "bar_only".toList = "mono".toList := by decide
  simp only [hd, if_neg h1, if_neg h2, if_true]

theorem barOnly_eq (label : Str) (value : Option Str) :
    barOnly label value =
      match getPercent value with
      | none => none
      | some pct => some (.bar label pct) := by
  unfold barOnly
  cases value with
  | none => rfl
  | some v =>
    simp only
    by_cases hb : (v = [] || trim v = []) = true
    · rw [if_pos hb]
      have ht : trim v = [] := by
        simp only [Bool.or_eq_true, decide_eq_true_eq] at hb
        rcases hb with rfl | h
        · rfl
        · exact h
      rw [getPercent_none_of_trim_nil v ht]
    · rw [if_neg hb]


/-- C17 as stated fails: the field `Energy` is bar-only and its value `high` contains no
percent, and yet `renderBoard` shows key and value, as a plain field of the extras
section. -/
theorem renderBoard_barOnly_counterexample :
    getPercent (some "high".toList) = none ∧
    renderBoard sampleHost barOnlyLayout
        (some (parseKeyValueLines DEFAULT_PREFS "Energy: high".toList))
      = .board [{ title := "Extra".toList,
                  body := [.field "Energy".toList "high".toList true false] }] := by
  decide

/-- C17 (amended): for every layout and board data, a field definition with display
`bar_only` whose value contains no percent yields no field in its schema section; its key
is then not counted as used, and when the value is non-blank and no field definition with
that key rendered it, key and value are shown as a plain field in the extras section; when
a percent `p` is found the field is rendered as a label and a fill bar of width `p`% with
no value text. -/
theorem renderBoard_barOnly (host : Host) (layoutConfig : Layout) (data : BoardData)
    (f : FieldDef) (hd : f.display = "bar_only".toList) :
    (getPercent (getValue host data f.key) = none → renderField host data f = none) ∧
    (∀ p, getPercent (getValue host data f.key) = some p →
      renderField host data f
        = some (.bar (if f.label ≠ [] then f.label else f.key) p)) ∧
    (∀ v, data.lookup f.key = some v → trim v ≠ [] →
      (∀ g ∈ allFields layoutConfig, g.key = f.key → renderField host data g = none) →
      ∃ s, renderBoard host layoutConfig (some data)
          = .board (schemaSections host layoutConfig data ++ [s]) ∧
        s.title = extrasTitle layoutConfig ∧ Node.field f.key v true false ∈ s.body) := by
  have hr := renderField_barOnly host data f hd
  rw [barOnly_eq] at hr
  refine ⟨fun hn => by rw [hr, hn], fun p hp => by rw [hr, hp], fun v hv hnb hall => ?_⟩
  have hmem := mem_of_lookup_eq_some data hv
  have hne : data ≠ [] := List.ne_nil_of_mem hmem
  obtain ⟨used, hused, hrender⟩ := renderBoard_eq host layoutConfig data hne
  have hu : f.key ∉ used := by
    intro hin
    obtain ⟨sec, hsec, g, hg, hgk, _, hsome⟩ := (hused f.key).1 hin
    have hgall : g ∈ allFields layoutConfig := by
      unfold allFields
      rw [List.mem_flatMap]
      exact ⟨sec, hsec, hg⟩
    rw [hall g hgall hgk] at hsome
    exact absurd hsome (by decide)
  have hex : (f.key, v) ∈ data.filter (fun e => !used.contains e.1) := by
    rw [List.mem_filter]
    exact ⟨hmem, by simpa using hu⟩
  have hne2 : data.filter (fun e => !used.contains e.1) ≠ [] := List.ne_nil_of_mem hex
  rw [if_neg hne2] at hrender
  refine ⟨_, hrender, rfl, ?_⟩
  simp only [List.mem_filterMap, List.mem_map, id, exists_eq_right]
  exact ⟨(f.key, v), hex, by simp [field, hnb]⟩

/-- Witness for C17 (amended): the field `Energy` of `barOnlyLayout` with the value
`80%` is rendered as a bar of width 80. -/
theorem renderBoard_barOnly_witness :
    renderField sampleHost (parseKeyValueLines DEFAULT_PREFS "Energy: 80%".toList)
        { key := "Energy".toList, label := [], display := "bar_only".toList, subtle := false }
      = some (.bar "Energy".toList 80) :=
  (renderBoard_barOnly sampleHost barOnlyLayout
    (parseKeyValueLines DEFAULT_PREFS "Energy: 80%".toList)
    { key := "Energy".toList, label := [], display := "bar_only".toList, subtle := false }
    rfl).2.1 80 (by decide)

/-! ## C19: the per-character cache -/

theorem conversationKey_toStr_ne_nil (key : ConversationKey) : key.toStr ≠ [] := by
  cases key <;> simp [ConversationKey.toStr]

theorem conversationKey_toStr_ne_proto (key : ConversationKey) :
    key.toStr ≠ "__proto__".toList := by
  cases key <;> simp [ConversationKey.toStr]

theorem conversationKey_toStr_injective (a b : ConversationKey) (h : a.toStr = b.toStr) :
    a = b := by
  cases a <;> cases b <;> simp [ConversationKey.toStr] at h ⊢ <;> exact h

theorem cache_lookup_cons_eq (k key : Str) (entry : CacheEntry) (rest : BoardCache) :
    List.lookup k ((key, entry) :: rest)
      = if k = key then some entry else List.lookup k rest := by
  by_cases h : k = key
  · subst h; simp
  · have hb : (k == key) = false := by simpa using h
    simp [List.lookup, hb, h]

theorem cache_lookup_none_of_not_any (key : Str) :
    ∀ cache : BoardCache, cache.any (fun e => e.1 == key) = false → cache.lookup key = none
  | [], _ => rfl
  | (k, v) :: rest, h => by
    simp only [List.any_cons, Bool.or_eq_false_iff, beq_eq_false_iff_ne, ne_eq] at h
    rw [cache_lookup_cons_eq, if_neg (fun e => h.1 e.symm)]
    exact cache_lookup_none_of_not_any key rest h.2

theorem cache_lookup_map_replace (k key : Str) (entry : CacheEntry) :
    ∀ cache : BoardCache, cache.any (fun e => e.1 == key) = true →
      (cache.map fun e => if e.1 == key then (key, entry) else e).lookup k
        = if k = key then some entry else cache.lookup k
  | [], h => by simp at h
  | (k2, v2) :: rest, h => by
    by_cases h2 : k2 = key
    · subst h2
      simp only [List.map_cons, beq_self_eq_true, if_true, cache_lookup_cons_eq]
      by_cases hk : k = k2
      · simp [hk]
      · simp only [hk, if_false]
        by_cases hr : rest.any (fun e => e.1 == k2) = true
        · rw [cache_lookup_map_replace k k2 entry rest hr, if_neg hk]
        · have hmap : (rest.map fun e => if e.1 == k2 then (k2, entry) else e) = rest := by
            have hr2 : ∀ e ∈ rest, ¬ (e.1 == k2) = true := by
              intro e he hb
              exact hr (List.any_eq_true.2 ⟨e, he, hb⟩)
            conv_rhs => rw [← List.map_id rest]
            apply List.map_congr_left
            intro e he
            simp [hr2 e he]
          rw [hmap]
    · have hb : (k2 == key) = false := by simpa using h2
      simp only [List.any_cons, hb, Bool.false_or] at h
      simp only [List.map_cons, hb, Bool.false_eq_true, if_false, cache_lookup_cons_eq,
        cache_lookup_map_replace k key entry rest h]
      by_cases hk : k = key
      · have : ¬ k = k2 := fun e => h2 (e ▸ hk)
        simp [hk, this, show ¬ key = k2 from fun e => h2 e.symm]
      · simp [hk]

theorem lookup_cacheSet (cache : BoardCache) (key : Str) (entry : CacheEntry) (k : Str)
    (hp : key ≠ "__proto__".toList) :
    (cacheSet cache key entry).lookup k
      = if k = key then some entry else cache.lookup k := by
  unfold cacheSet
  rw [if_neg hp]
  by_cases ha : cache.any (fun e => e.1 == key) = true
  · rw [if_pos ha, cache_lookup_map_replace k key entry cache ha]
  · rw [if_neg ha]
    have ha2 : cache.any (fun e => e.1 == key) = false := Bool.eq_false_iff.2 ha
    simp only [List.lookup_append]
    by_cases hkk : k = key
    · subst hkk
      simp [cache_lookup_none_of_not_any k cache ha2]
    · have hb : (k == key) = false := by simpa using hkk
      simp [List.lookup, hb, hkk]

theorem setCacheForActive_boardCache (st : PanelState) (d : BoardData) (now : Nat) :
    (setCacheForActive st d now).boardCache
      = cacheSet st.boardCache st.activeKey.toStr { data := d, savedAt := now } := by
  unfold setCacheForActive
  simp only [conversationKey_toStr_ne_nil, if_false]

/-- C19: for every cache state, active key and board data `d`, after
`setCacheForActive(d)` the call `getCacheForKey(activeKey)` returns `d`, the entry of
every other conversation key is unchanged, and `getCacheForKey` of a key that has no
entry returns none. -/
theorem setCacheForActive_getCacheForKey (st : PanelState) (d : BoardData) (now : Nat) :
    getCacheForKey (setCacheForActive st d now).boardCache st.activeKey.toStr = some d ∧
    (∀ k : Str, k ≠ st.activeKey.toStr →
      (setCacheForActive st d now).boardCache.lookup k = st.boardCache.lookup k) ∧
    (∀ other : ConversationKey, other ≠ st.activeKey →
      getCacheForKey (setCacheForActive st d now).boardCache other.toStr
        = getCacheForKey st.boardCache other.toStr) ∧
    (∀ (cache : BoardCache) (k : Str), cache.lookup k = none → getCacheForKey cache k = none) := by
  have hset := setCacheForActive_boardCache st d now
  have hl := fun k => lookup_cacheSet st.boardCache st.activeKey.toStr
    { data := d, savedAt := now } k (conversationKey_toStr_ne_proto st.activeKey)
  refine ⟨?_, fun k hk => ?_, fun other ho => ?_, fun cache k hk => ?_⟩
  · unfold getCacheForKey
    rw [hset, hl, if_pos rfl]
  · rw [hset, hl, if_neg hk]
  · have hne : other.toStr ≠ st.activeKey.toStr :=
      fun h => ho (conversationKey_toStr_injective _ _ h)
    unfold getCacheForKey
    rw [hset, hl, if_neg hne]
  · unfold getCacheForKey
    rw [hk]

/-! ## C20: the refresh step -/

theorem refreshFromChat_found (host : Host) (prefs : Prefs) (layoutConfig : Layout)
    (st : PanelState) (key : ConversationKey) (codes : List Str) (now : Nat) (i : Nat)
    (h : getLatestInfoBoardCodeBlock host layoutConfig codes = some i) :
    refreshFromChat host prefs layoutConfig st key codes now =
      setCacheForActive
        { boardCache := st.boardCache, activeKey := key,
          content := renderBoard host layoutConfig
            (some (parseKeyValueLines prefs (trim (codes.getD i [])))) }
        (parseKeyValueLines prefs (trim (codes.getD i []))) now := by
  unfold refreshFromChat
  simp only [h]

theorem refreshFromChat_notFound (host : Host) (prefs : Prefs) (layoutConfig : Layout)
    (st : PanelState) (key : ConversationKey) (codes : List Str) (now : Nat)
    (h : getLatestInfoBoardCodeBlock host layoutConfig codes = none) :
    refreshFromChat host prefs layoutConfig st key codes now =
      { boardCache := st.boardCache, activeKey := key,
        content :=
          match getCacheForKey st.boardCache key.toStr with
          | some cached => renderBoard host layoutConfig (some cached)
          | none => renderBoard host layoutConfig none } := by
  unfold refreshFromChat
  simp only [h]
  cases getCacheForKey st.boardCache key.toStr <;> rfl

/-- C20: `refreshFromChat` as a step on the state (cache, active key, rendered board).
The active key becomes the recomputed conversation key.  If block `i` is the latest block
that passes detection, the rendered board is that of `parseKeyValueLines` of its trimmed
text, the cache entry of the recomputed key holds exactly that data and all other cache
entries are unchanged.  If no block passes, the cache is unchanged and the rendered board
is that of the cached data of the recomputed key when an entry exists, and the empty state
otherwise. -/
theorem refreshFromChat_step (host : Host) (prefs : Prefs) (layoutConfig : Layout)
    (st : PanelState) (key : ConversationKey) (codes : List Str) (now : Nat) :
    (refreshFromChat host prefs layoutConfig st key codes now).activeKey = key ∧
    (∀ i, i < codes.length → blockPasses host layoutConfig codes i = true →
      (∀ j, i < j → j < codes.length → blockPasses host layoutConfig codes j = false) →
      (refreshFromChat host prefs layoutConfig st key codes now).content
        = renderBoard host layoutConfig
            (some (parseKeyValueLines prefs (trim (codes.getD i [])))) ∧
      getCacheForKey (refreshFromChat host prefs layoutConfig st key codes now).boardCache
          key.toStr
        = some (parseKeyValueLines prefs (trim (codes.getD i []))) ∧
      ∀ k : Str, k ≠ key.toStr →
        (refreshFromChat host prefs layoutConfig st key codes now).boardCache.lookup k
          = st.boardCache.lookup k) ∧
    ((∀ j, j < codes.length → blockPasses host layoutConfig codes j = false) →
      (refreshFromChat host prefs layoutConfig st key codes now).boardCache = st.boardCache ∧
      (∀ cached, getCacheForKey st.boardCache key.toStr = some cached →
        (refreshFromChat host prefs layoutConfig st key codes now).content
          = renderBoard host layoutConfig (some cached)) ∧
      (getCacheForKey st.boardCache key.toStr = none →
        (refreshFromChat host prefs layoutConfig st key codes now).content = .empty)) := by
  refine ⟨?_, fun i hi hp hlater => ?_, fun hnone => ?_⟩
  · cases hg : getLatestInfoBoardCodeBlock host layoutConfig codes with
    | none => rw [refreshFromChat_notFound _ _ _ _ _ _ _ hg]
    | some i => rw [refreshFromChat_found _ _ _ _ _ _ _ i hg]; rfl
  · have hg : getLatestInfoBoardCodeBlock host layoutConfig codes = some i :=
      (latestBelow_eq_some host layoutConfig codes codes.length i).2 ⟨hi, hp, hlater⟩
    rw [refreshFromChat_found _ _ _ _ _ _ _ i hg, setCacheForActive_boardCache]
    have hl := fun k => lookup_cacheSet st.boardCache key.toStr
      { data := parseKeyValueLines prefs (trim (codes.getD i [])), savedAt := now } k
      (conversationKey_toStr_ne_proto key)
    refine ⟨rfl, ?_, fun k hk => ?_⟩
    · unfold getCacheForKey
      simp only
      rw [hl, if_pos rfl]
    · simp only
      rw [hl, if_neg hk]
  · have hg : getLatestInfoBoardCodeBlock host layoutConfig codes = none :=
      (latestBelow_eq_none host layoutConfig codes codes.length).2 hnone
    rw [refreshFromChat_notFound _ _ _ _ _ _ _ hg]
    refine ⟨rfl, fun cached hc => ?_, fun hc => ?_⟩
    · simp only [hc]
    · simp only [hc]
      rfl

/-- Witness for C20: from the start-up state, with the key `name:Carmy` and a board as the
second of two candidate blocks, the board is rendered and cached under that key. -/
theorem refreshFromChat_step_witness :
    (refreshFromChat sampleHost DEFAULT_PREFS DEFAULT_LAYOUT initialState
        (.name "Carmy".toList) sampleCodes 0).content
      = renderBoard sampleHost DEFAULT_LAYOUT
          (some (parseKeyValueLines DEFAULT_PREFS (trim (sampleCodes.getD 1 [])))) ∧
    getCacheForKey (refreshFromChat sampleHost DEFAULT_PREFS DEFAULT_LAYOUT initialState
        (.name "Carmy".toList) sampleCodes 0).boardCache
        (ConversationKey.name "Carmy".toList).toStr
      = some (parseKeyValueLines DEFAULT_PREFS (trim (sampleCodes.getD 1 []))) ∧
    ∀ k : Str, k ≠ (ConversationKey.name "Carmy".toList).toStr →
      (refreshFromChat sampleHost DEFAULT_PREFS DEFAULT_LAYOUT initialState
        (.name "Carmy".toList) sampleCodes 0).boardCache.lookup k
        = initialState.boardCache.lookup k :=
  (refreshFromChat_step sampleHost DEFAULT_PREFS DEFAULT_LAYOUT initialState
    (.name "Carmy".toList) sampleCodes 0).2.1 1 (by decide) (by decide)
    (fun j h1 h2 => absurd h2 (by simp only [sampleCodes, List.length]; omega))

/-! ## C23: the generated template is recognised as a board -/

/-- A double loop over sections and fields is a single loop over all fields. -/
theorem foldl_sections_fields {β : Type} (g : β → FieldDef → β) :
    ∀ (sections : List Section) (acc : β),
      sections.foldl (fun acc sec => sec.fields.foldl g acc) acc
        = (sections.flatMap fun sec => sec.fields).foldl g acc
  | [], _ => rfl
  | sec :: rest, acc => by
    rw [List.foldl_cons, foldl_sections_fields g rest, List.flatMap_cons, List.foldl_append]

/-- The loop of `getAllExpectedKeysFromLayout` adds the non-empty raw keys in order. -/
theorem foldl_expectedKeys :
    ∀ (fs : List FieldDef) (acc : List Str),
      fs.foldl (fun keys f => if f.key ≠ [] then setAdd keys f.key else keys) acc
        = ((fs.map fun f => f.key).filter fun k => k ≠ []).foldl
            (fun ks k => if ks.contains k then ks else ks ++ [k]) acc
  | [], _ => rfl
  | f :: fs, acc => by
    rw [List.foldl_cons, foldl_expectedKeys fs, List.map_cons]
    by_cases h : f.key = []
    · simp [h]
    · simp [h, setAdd]

/-- The expected keys are the distinct non-empty raw keys of the layout in the order of
their first occurrence, or the ten default keys when there is none. -/
theorem expectedKeys_eq (layoutConfig : Layout) :
    getAllExpectedKeysFromLayout layoutConfig =
      if firstOccurrences
          (((allFields layoutConfig).map fun f => f.key).filter fun k => k ≠ []) = [] then
        DEFAULT_EXPECTED_KEYS
      else firstOccurrences
          (((allFields layoutConfig).map fun f => f.key).filter fun k => k ≠ []) := by
  unfold getAllExpectedKeysFromLayout
  rw [foldl_sections_fields, foldl_expectedKeys, foldl_addKey]
  simp only [allFields, List.nil_append, List.not_mem_nil, not_false_eq_true, decide_True,
    List.filter_true, ne_eq, List.length_eq_zero, ite_not]

/-- When every field key is trimmed, the raw keys are the trimmed keys. -/
theorem rawKeys_eq_nonBlankKeys (layoutConfig : Layout)
    (h : ∀ f ∈ allFields layoutConfig, trim f.key = f.key) :
    (((allFields layoutConfig).map fun f => f.key).filter fun k => k ≠ [])
      = nonBlankKeys layoutConfig := by
  unfold nonBlankKeys
  congr 1
  exact List.map_congr_left fun f hf => (h f hf).symm

/-- Every line of a joined text sits in it at the start or right after a line feed. -/
theorem join_mem_decomp :
    ∀ (lines : List Str) (line : Str), line ∈ lines →
      ∃ pre post, join "\n".toList lines = pre ++ line ++ post ∧
        (pre = [] ∨ pre.getLast? = some '\n')
  | [], _, h => absurd h (List.not_mem_nil _)
  | [l], line, h => by
    rw [List.mem_singleton] at h
    subst h
    exact ⟨[], [], by simp [join], Or.inl rfl⟩
  | l :: l2 :: ls, line, h => by
    rcases List.mem_cons.1 h with rfl | h
    · exact ⟨[], "\n".toList ++ join "\n".toList (l2 :: ls), by simp [join], Or.inl rfl⟩
    · obtain ⟨pre, post, hj, hp⟩ := join_mem_decomp (l2 :: ls) line h
      refine ⟨l ++ "\n".toList ++ pre, post, ?_, Or.inr ?_⟩
      · show l ++ "\n".toList ++ join "\n".toList (l2 :: ls) = _
        rw [hj]
        simp
      · rcases hp with rfl | hp
        · simp
        · rw [List.getLast?_append, hp]
          rfl

/-- Every instruction line starts with its key and a colon. -/
theorem specLine_key_colon (k display : Str) : ∃ rest, specLine k display = k ++ ':' :: rest := by
  unfold specLine
  split
  · exact ⟨" [%]".toList, rfl⟩
  · split
    · exact ⟨" [%] - [...]".toList, rfl⟩
    · exact ⟨" [...]".toList, rfl⟩

/-- A line `key: ...` of the generated body is found by the detection pattern of `key` in
the generated prompt. -/
theorem keyPatternTest_buildPrompt (host : Host) (layoutConfig : Layout) (k : Str)
    (h : ∃ line ∈ schemaLineList layoutConfig, ∃ rest, line = k ++ ':' :: rest) :
    keyPatternTest host k (buildPromptFromSchema layoutConfig) = true := by
  obtain ⟨line, hline, rest, rfl⟩ := h
  obtain ⟨pre, post, hj, hp⟩ := join_mem_decomp _ _ hline
  rw [keyPatternTest_iff]
  refine ⟨IBS_MARKER ++ PROMPT_HEAD ++ pre, [], k, [], rest ++ post ++ PROMPT_TAIL, ?_, Or.inr ?_,
    rfl, rfl, rfl⟩
  · unfold buildPromptFromSchema schemaLines
    rw [hj]
    simp
  · rcases hp with rfl | hp
    · rfl
    · rw [List.getLast?_append, hp]
      rfl

/-- Every default key has its line in the fallback template. -/
theorem fallback_lines_keys :
    ∀ k ∈ DEFAULT_EXPECTED_KEYS, ∃ line ∈ FALLBACK_LINES, ∃ rest, line = k ++ ':' :: rest := by
  have h : ∀ k ∈ DEFAULT_EXPECTED_KEYS, ∃ line ∈ FALLBACK_LINES,
      (k ++ [':']).isPrefixOf line = true := by decide
  intro k hk
  obtain ⟨line, hl, hp⟩ := h k hk
  obtain ⟨rest, hr⟩ := List.isPrefixOf_iff_prefix.1 hp
  exact ⟨line, hl, rest, by rw [← hr]; simp⟩

/-- C23: for every layout whose field keys are non-empty and have no leading or trailing
white space, and whose number of distinct keys is not exactly one, the text returned by
`buildPromptFromSchema` passes `looksLikeInfoBoard` under the same layout; and the keys
named by the fallback template, which is used when there is no key, are exactly the ten
default expected keys. -/
theorem buildPromptFromSchema_looksLikeInfoBoard (host : Host) (layoutConfig : Layout)
    (hkeys : ∀ f ∈ allFields layoutConfig, f.key ≠ [] ∧ trim f.key = f.key)
    (hcount : (distinctKeys layoutConfig).length ≠ 1) :
    looksLikeInfoBoard host layoutConfig (buildPromptFromSchema layoutConfig) = true ∧
    (distinctKeys layoutConfig = [] →
      schemaLineList layoutConfig = FALLBACK_LINES ∧
      getAllExpectedKeysFromLayout layoutConfig = DEFAULT_EXPECTED_KEYS) ∧
    FALLBACK_LINES.map (fun line => line.takeWhile fun c => c ≠ ':') = DEFAULT_EXPECTED_KEYS := by
  have hexp : getAllExpectedKeysFromLayout layoutConfig =
      if distinctKeys layoutConfig = [] then DEFAULT_EXPECTED_KEYS
      else distinctKeys layoutConfig := by
    rw [expectedKeys_eq, rawKeys_eq_nonBlankKeys layoutConfig fun f hf => (hkeys f hf).2]
    rfl
  have hlines := schemaLineList_eq layoutConfig
  refine ⟨?_, fun h0 => ⟨by rw [hlines, if_pos h0], by rw [hexp, if_pos h0]⟩, by decide⟩
  have hall : ∀ k ∈ getAllExpectedKeysFromLayout layoutConfig,
      keyPatternTest host k (buildPromptFromSchema layoutConfig) = true := by
    intro k hk
    apply keyPatternTest_buildPrompt
    by_cases h0 : distinctKeys layoutConfig = []
    · rw [hexp, if_pos h0] at hk
      rw [hlines, if_pos h0]
      exact fallback_lines_keys k hk
    · rw [hexp, if_neg h0] at hk
      rw [hlines, if_neg h0]
      obtain ⟨rest, hr⟩ := specLine_key_colon k (displayFor layoutConfig k)
      exact ⟨_, List.mem_map.2 ⟨k, hk, rfl⟩, rest, hr⟩
  have hlen : 2 ≤ (getAllExpectedKeysFromLayout layoutConfig).length := by
    by_cases h0 : distinctKeys layoutConfig = []
    · rw [hexp, if_pos h0]
      decide
    · rw [hexp, if_neg h0]
      have : (distinctKeys layoutConfig).length ≠ 0 := fun e => h0 (List.length_eq_zero.1 e)
      omega
  have hc := countP_eq_length_of_all
    (fun k => keyPatternTest host k (buildPromptFromSchema layoutConfig))
    (getAllExpectedKeysFromLayout layoutConfig) hall
  unfold looksLikeInfoBoard threshold
  simp only [foldl_hits_eq, Nat.zero_add, ge_iff_le]
  rw [hc, decide_eq_true_eq]
  omega

/-- Witness for C23: the built-in layout has ten distinct trimmed keys and its generated
prompt is accepted as a board. -/
theorem buildPromptFromSchema_looksLikeInfoBoard_witness :
    looksLikeInfoBoard sampleHost DEFAULT_LAYOUT (buildPromptFromSchema DEFAULT_LAYOUT) = true :=
  (buildPromptFromSchema_looksLikeInfoBoard sampleHost DEFAULT_LAYOUT (by decide)
    (by decide)).1

/-! ## C22: detection and extraction -/

theorem toNat_ofNat_small (n : Nat) (h : n < 55296) : (Char.ofNat n).toNat = n := by
  have hv : n.isValidChar := Or.inl h
  unfold Char.ofNat
  rw [dif_pos hv]
  unfold Char.ofNatAux Char.toNat
  simp [UInt32.toNat]

/-- Upper-casing leaves a character alone or maps a small ASCII letter to its capital. -/
theorem toUpper_cases (c : Char) :
    c.toUpper = c ∨ (97 ≤ c.toNat ∧ c.toNat ≤ 122 ∧ c.toUpper.toNat = c.toNat - 32) := by
  unfold Char.toUpper
  simp only []
  split
  · rename_i h
    exact Or.inr ⟨h.1, h.2, toNat_ofNat_small _ (by omega)⟩
  · exact Or.inl rfl

theorem isWhiteSpace_letter (c : Char) (h1 : 65 ≤ c.toNat) (h2 : c.toNat ≤ 122) :
    isWhiteSpace c = false := by
  rw [Bool.eq_false_iff]
  intro h
  unfold isWhiteSpace at h
  simp only [Bool.or_eq_true, Bool.and_eq_true, beq_iff_eq, decide_eq_true_eq] at h
  omega

theorem colon_toNat (c : Char) : c = ':' ↔ c.toNat = 58 := by
  constructor
  · rintro rfl; rfl
  · intro h
    apply Char.ext
    apply UInt32.ext
    exact h

/-- The sample host compares the colon and white space as they are. -/
theorem sampleHost_keepsSeparators : sampleHost.KeepsSeparators := by
  intro c d h
  change c.toUpper = d.toUpper at h
  rcases toUpper_cases c with hc | ⟨hc1, hc2, hc3⟩ <;>
    rcases toUpper_cases d with hd | ⟨hd1, hd2, hd3⟩
  · rw [hc, hd] at h
    subst h
    exact ⟨Iff.rfl, rfl⟩
  · rw [hc] at h
    have hn : c.toNat = d.toNat - 32 := by rw [h, hd3]
    refine ⟨?_, ?_⟩
    · rw [colon_toNat, colon_toNat]; omega
    · rw [isWhiteSpace_letter c (by omega) (by omega),
        isWhiteSpace_letter d (by omega) (by omega)]
  · rw [hd] at h
    have hn : d.toNat = c.toNat - 32 := by rw [← h, hc3]
    refine ⟨?_, ?_⟩
    · rw [colon_toNat, colon_toNat]; omega
    · rw [isWhiteSpace_letter c (by omega) (by omega),
        isWhiteSpace_letter d (by omega) (by omega)]
  · refine ⟨?_, ?_⟩
    · rw [colon_toNat, colon_toNat]; omega
    · rw [isWhiteSpace_letter c (by omega) (by omega),
        isWhiteSpace_letter d (by omega) (by omega)]

theorem rdropWhile_append_not (p : Char → Bool) (a : Str) (x : Char) (hx : p x = false) :
    ∀ b : Str, (a ++ x :: b).rdropWhile p = a ++ x :: b.rdropWhile p := by
  intro b
  induction b using List.reverseRecOn with
  | nil =>
    have : a ++ [x] = a ++ [x] := rfl
    rw [List.rdropWhile_concat, hx]
    simp
  | append_singleton b y ih =>
    have e : a ++ x :: (b ++ [y]) = (a ++ x :: b) ++ [y] := by simp
    rw [e, List.rdropWhile_concat, List.rdropWhile_concat, ih]
    by_cases hy : p y = true
    · simp [hy]
    · simp [hy]

theorem takeWhile_append_stop (p : Char → Bool) (x : Char) (v : Str) (hx : p x = false) :
    ∀ u : Str, (∀ c ∈ u, p c = true) → (u ++ x :: v).takeWhile p = u
  | [], _ => by simp [List.takeWhile_cons, hx]
  | c :: u, h => by
    rw [List.cons_append, List.takeWhile_cons, h c (List.mem_cons_self _ _)]
    simp only [if_true, List.cons.injEq, true_and]
    exact takeWhile_append_stop p x v hx u fun d hd => h d (List.mem_cons_of_mem _ hd)

theorem rdropWhile_all (p : Char → Bool) (ws : Str) (h : ws.all p = true) :
    ws.rdropWhile p = [] := by
  rw [List.rdropWhile_eq_nil_iff]
  intro c hc
  exact List.all_eq_true.1 h c hc

/-- A text that starts and ends with a character that is not white space is its own trim,
also when white space follows it. -/
theorem trim_append_whiteSpace (s ws : Str) (hne : s ≠ [])
    (hh : ∀ c, s.head? = some c → isWhiteSpace c = false)
    (hl : ∀ c, s.getLast? = some c → isWhiteSpace c = false)
    (hws : ws.all isWhiteSpace = true) : trim (s ++ ws) = s := by
  obtain ⟨init, last, rfl⟩ : ∃ init last, s = init ++ [last] := by
    rcases List.eq_nil_or_concat s with h | ⟨init, last, h⟩
    · exact absurd h hne
    · exact ⟨init, last, by rw [h, List.concat_eq_append]⟩
  have hlast : isWhiteSpace last = false := hl last (by simp)
  unfold trim trimStart
  rw [dropWhile_of_head_not isWhiteSpace _ (fun c hc => hh c (by
    cases init with
    | nil => simpa using hc
    | cons i is => simpa using hc))]
  rw [trimEnd_eq_rdropWhile, List.append_assoc, List.singleton_append,
    rdropWhile_append_not isWhiteSpace init last hlast, rdropWhile_all isWhiteSpace ws hws]

/-- The literal that the detection pattern of a trimmed key without a colon matched is not
empty, has no colon and neither starts nor ends with white space. -/
theorem literal_shape (host : Host) (hhost : host.KeepsSeparators) (k lit : Str)
    (hne : k ≠ []) (htrim : trim k = k) (hcolon : ':' ∉ k)
    (hlit : lit.map host.canonicalize = k.map host.canonicalize) :
    lit ≠ [] ∧ ':' ∉ lit ∧ (∀ c, lit.head? = some c → isWhiteSpace c = false) ∧
      (∀ c, lit.getLast? = some c → isWhiteSpace c = false) := by
  refine ⟨?_, ?_, ?_, ?_⟩
  · rintro rfl
    exact hne (List.map_eq_nil_iff.1 hlit.symm)
  · intro hmem
    have h1 : host.canonicalize ':' ∈ k.map host.canonicalize := by
      rw [← hlit]; exact List.mem_map_of_mem _ hmem
    obtain ⟨d, hd, hcd⟩ := List.mem_map.1 h1
    exact hcolon (((hhost d ':' hcd).1.2 rfl) ▸ hd)
  · intro c hc
    have h1 := congrArg List.head? hlit
    rw [List.head?_map, List.head?_map, hc] at h1
    cases hk : k.head? with
    | none => rw [hk] at h1; simp at h1
    | some d =>
      rw [hk] at h1
      simp only [Option.map_some', Option.some.injEq] at h1
      rw [(hhost c d h1).2]
      exact trim_head_not_whiteSpace k d (by rw [htrim]; exact hk)
  · intro c hc
    have h1 := congrArg List.getLast? hlit
    rw [List.getLast?_map, List.getLast?_map, hc] at h1
    cases hk : k.getLast? with
    | none => rw [hk] at h1; simp at h1
    | some d =>
      rw [hk] at h1
      simp only [Option.map_some', Option.some.injEq] at h1
      rw [(hhost c d h1).2]
      exact trim_last_not_whiteSpace k d (by rw [htrim]; exact hk)

/-- A line made of white space, a literal as above, white space, a colon and any text
contributes an entry whose key is the literal. -/
theorem lineEntry_key_line (ws1 lit ws2 after : Str)
    (h1 : ws1.all isWhiteSpace = true) (h2 : ws2.all isWhiteSpace = true)
    (hne : lit ≠ []) (hcolon : ':' ∉ lit)
    (hh : ∀ c, lit.head? = some c → isWhiteSpace c = false)
    (hl : ∀ c, lit.getLast? = some c → isWhiteSpace c = false) :
    ∃ val, lineEntry (ws1 ++ lit ++ ws2 ++ ':' :: after) = some (lit, val) := by
  have htrim : trim (ws1 ++ lit ++ ws2 ++ ':' :: after)
      = (lit ++ ws2) ++ ':' :: after.rdropWhile isWhiteSpace := by
    unfold trim trimStart
    rw [List.append_assoc, List.append_assoc, dropWhile_whiteSpace_append ws1 _ h1,
      dropWhile_of_head_not isWhiteSpace _ (fun c hc => hh c (by
        cases lit with
        | nil => exact absurd rfl hne
        | cons i is => simpa using hc)),
      trimEnd_eq_rdropWhile, ← List.append_assoc,
      rdropWhile_append_not isWhiteSpace _ ':' colon_not_whiteSpace]
  have hstop : ∀ c ∈ lit ++ ws2, (fun c => decide (c ≠ ':')) c = true := by
    intro c hc
    simp only [decide_eq_true_eq]
    rintro rfl
    rcases List.mem_append.1 hc with hc | hc
    · exact hcolon hc
    · have := List.all_eq_true.1 h2 _ hc
      rw [colon_not_whiteSpace] at this
      exact absurd this (by simp)
  have htake : ((lit ++ ws2) ++ ':' :: after.rdropWhile isWhiteSpace).takeWhile
      (fun c => decide (c ≠ ':')) = lit ++ ws2 :=
    takeWhile_append_stop _ ':' _ (by simp) _ hstop
  unfold lineEntry
  simp only
  rw [htrim, if_pos (by simp), htake, trim_append_whiteSpace lit ws2 hne hh hl h2, if_neg hne]
  exact ⟨_, rfl⟩

/-- A key that some line contributes has a last value. -/
theorem lastValue_isSome {key val : Str} :
    ∀ (lines : List Str) (line : Str), line ∈ lines → lineEntry line = some (key, val) →
      ∃ v, lastValue key lines = some v
  | [], _, h, _ => absurd h (List.not_mem_nil _)
  | raw :: rest, line, h, he => by
    show ∃ v, (match lastValue key rest with
        | some v => some v
        | none =>
          match lineEntry raw with
          | some (key2, val) => if key2 = key then some val else none
          | none => none) = some v
    cases hr : lastValue key rest with
    | some v => exact ⟨v, rfl⟩
    | none =>
      rcases List.mem_cons.1 h with rfl | h
      · rw [he]
        exact ⟨val, by simp⟩
      · obtain ⟨v, hv⟩ := lastValue_isSome rest line h he
        rw [hv] at hr
        exact absurd hr (by simp)

/-- The expected keys are never empty strings. -/
theorem expectedKeys_ne_nil (layoutConfig : Layout) :
    ∀ k ∈ getAllExpectedKeysFromLayout layoutConfig, k ≠ [] := by
  intro k hk
  rw [expectedKeys_eq] at hk
  split at hk
  · revert k
    decide
  · rw [mem_firstOccurrences, List.mem_filter] at hk
    simpa using hk.2

/-- C22 as stated fails: four keys of the built-in layout, each followed by a line break
before the colon, are four hits, so the text is accepted as a board; but no line has a key
before a colon, so the extracted map is empty and the panel shows the empty state. -/
theorem detection_extraction_counterexample :
    looksLikeInfoBoard sampleHost DEFAULT_LAYOUT colonBelowText = true ∧
    "Mood".toList ∈ getAllExpectedKeysFromLayout DEFAULT_LAYOUT ∧
    keyPatternTest sampleHost "Mood".toList colonBelowText = true ∧
    parseKeyValueLines DEFAULT_PREFS colonBelowText = [] ∧
    renderBoard sampleHost DEFAULT_LAYOUT
      (some (parseKeyValueLines DEFAULT_PREFS colonBelowText)) = .empty := by
  decide

/-- The conditions on the key in the amended claim are needed: an expected key that starts
with a space, or that contains a colon, is counted as a hit on its own line, but the
extracted key is trimmed and ends before the first colon. -/
theorem detection_extraction_key_shapes :
    getAllExpectedKeysFromLayout oddKeysLayout = [" Mood".toList, "a:b".toList] ∧
    hasKeyLine sampleHost " Mood".toList " Mood: calm\na:b: 1".toList = true ∧
    hasKeyLine sampleHost "a:b".toList " Mood: calm\na:b: 1".toList = true ∧
    looksLikeInfoBoard sampleHost oddKeysLayout " Mood: calm\na:b: 1".toList = true ∧
    parseKeyValueLines DEFAULT_PREFS " Mood: calm\na:b: 1".toList
      = [("Mood".toList, "calm".toList), ("a".toList, "b: 1".toList)] := by
  decide

/-- C22 (amended): on a host whose case folding compares the colon and white space as they
are, an expected key without leading or trailing white space, without a colon and other
than `__proto__` up to letter case, that stands on one line of the text, after optional
white space and followed on the same line by optional white space and a colon, is counted
as a hit and is, up to letter case, a key of the extracted map; so the extracted map is
not empty. -/
theorem hasKeyLine_extracted (host : Host) (prefs : Prefs) (layoutConfig : Layout)
    (text k : Str) (hhost : host.KeepsSeparators)
    (hk : k ∈ getAllExpectedKeysFromLayout layoutConfig)
    (htrim : trim k = k) (hcolon : ':' ∉ k)
    (hproto : k.map host.canonicalize ≠ "__proto__".toList.map host.canonicalize)
    (hline : hasKeyLine host k text = true) :
    keyPatternTest host k text = true ∧
    (∃ key ∈ objectKeys (parseKeyValueLines prefs text),
      key.map host.canonicalize = k.map host.canonicalize) ∧
    parseKeyValueLines prefs text ≠ [] := by
  have hkey : ∃ key ∈ objectKeys (parseKeyValueLines prefs text),
      key.map host.canonicalize = k.map host.canonicalize := by
    have hl := hline
    unfold hasKeyLine at hl
    rw [List.any_eq_true] at hl
    obtain ⟨line, hmem, hm⟩ := hl
    obtain ⟨ws1, lit, ws2, after, rfl, h1, h2, hlit⟩ :=
      (matchSpaceKeyColon_iff host.canonicalize k line).1 hm
    obtain ⟨hne, hc, hh, hl⟩ := literal_shape host hhost k lit
      (expectedKeys_ne_nil layoutConfig k hk) htrim hcolon hlit
    obtain ⟨val, he⟩ := lineEntry_key_line ws1 lit ws2 after h1 h2 hne hc hh hl
    obtain ⟨v, hv⟩ := lastValue_isSome _ _ hmem he
    have hnp : lit ≠ "__proto__".toList := by
      rintro rfl
      exact hproto hlit.symm
    have hlook := lookup_foldl_parseLine prefs lit hnp (split '\n' text) []
    rw [hv] at hlook
    exact ⟨lit, List.mem_map.2 ⟨(lit, _), mem_of_lookup_eq_some _ hlook, rfl⟩, hlit⟩
  refine ⟨keyPatternTest_of_hasKeyLine host k text hline, hkey, ?_⟩
  obtain ⟨key, hmem, _⟩ := hkey
  intro h
  rw [h] at hmem
  exact absurd hmem (List.not_mem_nil _)

/-- Witness for C22 (amended): the key `Mood` of the built-in layout in the scenario text. -/
theorem hasKeyLine_extracted_witness :
    keyPatternTest sampleHost "Mood".toList mindText = true ∧
    (∃ key ∈ objectKeys (parseKeyValueLines DEFAULT_PREFS mindText),
      key.map sampleHost.canonicalize = "Mood".toList.map sampleHost.canonicalize) ∧
    parseKeyValueLines DEFAULT_PREFS mindText ≠ [] :=
  hasKeyLine_extracted sampleHost DEFAULT_PREFS DEFAULT_LAYOUT mindText "Mood".toList
    sampleHost_keepsSeparators (by decide) (by decide) (by decide) (by decide) (by decide)

/-! ## C21: storage faults of the layout -/

/-- A missing document gives the built-in layout. -/
theorem loadLayout_missing : loadLayout .missing = DEFAULT_LAYOUT.toJson := rfl

/-- A document that is not valid JSON gives the built-in layout. -/
theorem loadLayout_invalid : loadLayout .invalid = DEFAULT_LAYOUT.toJson := rfl

/-- A document that is a JSON value other than an object or an array gives the built-in
layout. -/
theorem loadLayout_not_object (v : Json) (h : (!v.truthy || !v.typeofObject) = true) :
    loadLayout (.parsed v) = DEFAULT_LAYOUT.toJson := by
  show sanitizeLayout v = _
  unfold sanitizeLayout
  simp only [h, if_true]
  rfl

/-- A value that passes the object test of `loadLayout` is an object or an array. -/
theorem object_or_array (v : Json) (h : (!v.truthy || !v.typeofObject) = false) :
    (∃ props, v = .obj props) ∨ ∃ elems, v = .arr elems := by
  cases v with
  | obj props => exact Or.inl ⟨props, rfl⟩
  | arr elems => exact Or.inr ⟨elems, rfl⟩
  | null => simp [Json.truthy] at h
  | bool b => simp [Json.typeofObject] at h
  | num n => simp [Json.typeofObject] at h
  | str s => simp [Json.typeofObject] at h

theorem assign_isObj (o : Json) (name : Str) (v : Json)
    (ho : (∃ props, o = .obj props) ∨ ∃ elems, o = .arr elems) :
    ∃ props, o.assign name v = .obj props ∧ props.lookup name = some v ∧
      ∀ k, k ≠ name → props.lookup k = o.getProp k := by
  rcases ho with ⟨props, rfl⟩ | ⟨elems, rfl⟩
  · exact ⟨_, rfl, lookup_setProp_self name v props, fun k hk => lookup_setProp_ne v hk props⟩
  · refine ⟨_, rfl, by simp [List.lookup], fun k hk => ?_⟩
    have hb : (k == name) = false := by simpa using hk
    simp [List.lookup, hb, Json.getProp]

/-- A value that fails the object test of `loadLayout` has no readable property. -/
theorem getProp_of_not_object (v : Json) (h : (!v.truthy || !v.typeofObject) = true)
    (name : Str) : v.getProp name = none := by
  cases v with
  | obj props => simp [Json.truthy, Json.typeofObject] at h
  | _ => rfl

/-- After `loadLayout`, the layout is an object whose `sections` is an array, each element
of which went through the loop body, and whose `extrasSectionTitle` is a string; the array
is the stored one if there is one, and that of the built-in layout otherwise. -/
theorem sanitizeLayout_shape (v : Json) :
    ∃ (props : List (Str × Json)) (secs : List Json) (title : Str),
      sanitizeLayout v = .obj props ∧
      props.lookup "sections".toList = some (.arr (secs.map sanitizeSection)) ∧
      props.lookup "extrasSectionTitle".toList = some (.str title) ∧
      secs = match v.getProp "sections".toList with
        | some (.arr stored) => stored
        | _ => DEFAULT_LAYOUT.sections.map Section.toJson := by
  have hne : "extrasSectionTitle".toList ≠ "sections".toList := by decide
  have hne2 : "sections".toList ≠ "extrasSectionTitle".toList := by decide
  -- the value after the object test
  obtain ⟨l0, h0, ho0, hv0⟩ : ∃ l0, (if (!v.truthy || !v.typeofObject) = true
      then DEFAULT_LAYOUT.toJson else v) = l0 ∧
      ((∃ props, l0 = .obj props) ∨ ∃ elems, l0 = .arr elems) ∧
      (l0 = v ∨ (l0 = DEFAULT_LAYOUT.toJson ∧ v.getProp "sections".toList = none)) := by
    by_cases h : (!v.truthy || !v.typeofObject) = true
    · exact ⟨_, rfl, by rw [if_pos h]; exact Or.inl ⟨_, rfl⟩,
        Or.inr ⟨by rw [if_pos h], getProp_of_not_object v h _⟩⟩
    · exact ⟨_, rfl, by rw [if_neg h]; exact object_or_array v (by simpa using h),
        Or.inl (by rw [if_neg h])⟩
  -- the value after the test of `sections`
  obtain ⟨p1, secs, h1, hs1, hv1⟩ : ∃ p1 secs, (match l0.getProp "sections".toList with
      | some (.arr _) => l0
      | _ => l0.assign "sections".toList
          (.arr (DEFAULT_LAYOUT.sections.map Section.toJson))) = .obj p1 ∧
      p1.lookup "sections".toList = some (.arr secs) ∧
      secs = match l0.getProp "sections".toList with
        | some (.arr stored) => stored
        | _ => DEFAULT_LAYOUT.sections.map Section.toJson := by
    cases hg : l0.getProp "sections".toList with
    | none =>
      obtain ⟨p, hp, hl, _⟩ := assign_isObj l0 "sections".toList
        (.arr (DEFAULT_LAYOUT.sections.map Section.toJson)) ho0
      exact ⟨p, _, hp, hl, rfl⟩
    | some x =>
      cases x with
      | arr elems =>
        rcases ho0 with ⟨props, rfl⟩ | ⟨e, rfl⟩
        · exact ⟨props, elems, rfl, hg, rfl⟩
        · exact absurd hg (by simp [Json.getProp])
      | _ =>
        obtain ⟨p, hp, hl, _⟩ := assign_isObj l0 "sections".toList
          (.arr (DEFAULT_LAYOUT.sections.map Section.toJson)) ho0
        exact ⟨p, _, hp, hl, rfl⟩
  -- the value after the test of `extrasSectionTitle`
  obtain ⟨p2, title, h2, hs2, ht2⟩ : ∃ p2 title,
      (match (Json.obj p1).getProp "extrasSectionTitle".toList with
      | some (.str _) => Json.obj p1
      | _ => (Json.obj p1).assign "extrasSectionTitle".toList (.str "Extra".toList))
        = .obj p2 ∧
      p2.lookup "sections".toList = some (.arr secs) ∧
      p2.lookup "extrasSectionTitle".toList = some (.str title) := by
    cases hg : (Json.obj p1).getProp "extrasSectionTitle".toList with
    | none =>
      obtain ⟨p, hp, hl, hk⟩ := assign_isObj (.obj p1) "extrasSectionTitle".toList
        (.str "Extra".toList) (Or.inl ⟨_, rfl⟩)
      exact ⟨p, _, hp, by rw [hk _ hne2]; exact hs1, hl⟩
    | some x =>
      cases x with
      | str t => exact ⟨p1, t, rfl, hs1, hg⟩
      | _ =>
        obtain ⟨p, hp, hl, hk⟩ := assign_isObj (.obj p1) "extrasSectionTitle".toList
          (.str "Extra".toList) (Or.inl ⟨_, rfl⟩)
        exact ⟨p, _, hp, by rw [hk _ hne2]; exact hs1, hl⟩
  obtain ⟨p3, hp3, hl3, hk3⟩ := assign_isObj (.obj p2) "sections".toList
    (.arr (secs.map sanitizeSection)) (Or.inl ⟨_, rfl⟩)
  refine ⟨p3, secs, title, ?_, hl3, by rw [hk3 _ hne]; exact ht2, ?_⟩
  · unfold sanitizeLayout
    simp only []
    rw [h0, h1, h2]
    simp only [Json.getProp, hs2]
    exact hp3
  · rcases hv0 with e | ⟨e, hnone⟩
    · rw [← e]
      exact hv1
    · rw [hnone, hv1, e]
      rfl

/-- No section of the built-in layout is `null`. -/
theorem null_not_mem_toJson (sections : List Section) :
    Json.null ∉ sections.map Section.toJson := by
  intro h
  obtain ⟨sec, _, he⟩ := List.mem_map.1 h
  exact absurd he (by simp [Section.toJson])

/-- The loop body of `loadLayout` keeps `null` and produces no other `null`. -/
theorem sanitizeSection_eq_null (s : Json) : sanitizeSection s = .null ↔ s = .null := by
  constructor
  · intro h
    cases s with
    | null => rfl
    | bool b => simp [sanitizeSection, Json.typeofObject] at h
    | num n => simp [sanitizeSection, Json.typeofObject] at h
    | str t => simp [sanitizeSection, Json.typeofObject] at h
    | arr elems => simp [sanitizeSection, Json.typeofObject, Json.truthy, Json.getProp,
        Json.assign] at h
    | obj props =>
      unfold sanitizeSection at h
      simp only [Json.truthy, Json.typeofObject, Bool.not_true, Bool.or_self,
        Bool.false_eq_true, if_false] at h
      split at h
      · exact absurd h (by simp)
      · exact absurd h (by simp [Json.assign])
  · rintro rfl
    rfl

/-- After the loop body of `loadLayout`, the read `sec.fields || []` of an element other
than `null` gives a list. -/
theorem sanitizeSection_fields (s : Json) (hs : s ≠ .null) :
    ∃ fields fs, (sanitizeSection s).read "fields".toList = .ok fields ∧
      iterateOrEmpty fields = .ok fs := by
  cases s with
  | null => exact absurd rfl hs
  | bool b =>
    have e : sanitizeSection (.bool b) = .bool b := by
      simp only [sanitizeSection, Json.typeofObject, Bool.not_false, Bool.or_true, if_true]
    exact ⟨none, [], by rw [e]; rfl, rfl⟩
  | num n =>
    have e : sanitizeSection (.num n) = .num n := by
      simp only [sanitizeSection, Json.typeofObject, Bool.not_false, Bool.or_true, if_true]
    exact ⟨none, [], by rw [e]; rfl, rfl⟩
  | str t =>
    have e : sanitizeSection (.str t) = .str t := by
      simp only [sanitizeSection, Json.typeofObject, Bool.not_false, Bool.or_true, if_true]
    exact ⟨none, [], by rw [e]; rfl, rfl⟩
  | arr elems => exact ⟨some (.arr []), [], rfl, rfl⟩
  | obj props =>
    have e : sanitizeSection (.obj props) =
        match props.lookup "fields".toList with
        | some (.arr _) => .obj props
        | _ => .obj (setProp "fields".toList (.arr []) props) := rfl
    rw [e]
    cases hg : props.lookup "fields".toList with
    | none =>
      exact ⟨some (.arr []), [], congrArg Except.ok (lookup_setProp_self _ _ props), rfl⟩
    | some x =>
      cases x with
      | arr fs => exact ⟨some (.arr fs), fs, congrArg Except.ok hg, rfl⟩
      | null =>
        exact ⟨some (.arr []), [], congrArg Except.ok (lookup_setProp_self _ _ props), rfl⟩
      | bool b =>
        exact ⟨some (.arr []), [], congrArg Except.ok (lookup_setProp_self _ _ props), rfl⟩
      | num n =>
        exact ⟨some (.arr []), [], congrArg Except.ok (lookup_setProp_self _ _ props), rfl⟩
      | str t =>
        exact ⟨some (.arr []), [], congrArg Except.ok (lookup_setProp_self _ _ props), rfl⟩
      | obj q =>
        exact ⟨some (.arr []), [], congrArg Except.ok (lookup_setProp_self _ _ props), rfl⟩

/-- The inner loop of `getAllExpectedKeysFromLayout` returns when `String` does. -/
theorem collectFieldKeys_returns (stringOf : Json → Except TypeError Str)
    (hs : ∀ v, ∃ k, stringOf v = .ok k) :
    ∀ (fs : List Json) (keys : List Str), ∃ r, collectFieldKeys stringOf fs keys = .ok r
  | [], keys => ⟨keys, rfl⟩
  | f :: fs, keys => by
    unfold collectFieldKeys
    cases f.getProp "key".toList with
    | none => exact collectFieldKeys_returns stringOf hs fs keys
    | some key =>
      by_cases ht : (!key.truthy) = true
      · simp only [ht, if_true]
        exact collectFieldKeys_returns stringOf hs fs keys
      · obtain ⟨k, hk⟩ := hs key
        simp only [ht, Bool.false_eq_true, if_false, hk]
        exact collectFieldKeys_returns stringOf hs fs _

/-- The outer loop of `getAllExpectedKeysFromLayout` returns on the sections that
`loadLayout` leaves when none of them is `null`. -/
theorem collectSectionKeys_returns (stringOf : Json → Except TypeError Str)
    (hs : ∀ v, ∃ k, stringOf v = .ok k) :
    ∀ (secs : List Json) (keys : List Str), Json.null ∉ secs →
      ∃ r, collectSectionKeys stringOf (secs.map sanitizeSection) keys = .ok r
  | [], keys, _ => ⟨keys, rfl⟩
  | s :: secs, keys, hn => by
    have hs0 : s ≠ .null := fun e => hn (e ▸ List.mem_cons_self _ _)
    obtain ⟨fields, fs, h1, h2⟩ := sanitizeSection_fields s hs0
    obtain ⟨r, h3⟩ := collectFieldKeys_returns stringOf hs fs keys
    rw [List.map_cons]
    unfold collectSectionKeys
    simp only [h1, h2, h3]
    exact collectSectionKeys_returns stringOf hs secs r
      fun h => hn (List.mem_cons_of_mem _ h)

/-- The outer loop of `getAllExpectedKeysFromLayout` raises on the sections that
`loadLayout` leaves when one of them is `null`. -/
theorem collectSectionKeys_raises (stringOf : Json → Except TypeError Str) :
    ∀ (secs : List Json) (keys : List Str), Json.null ∈ secs →
      ∃ e, collectSectionKeys stringOf (secs.map sanitizeSection) keys = .error e
  | [], _, hn => absurd hn (List.not_mem_nil _)
  | s :: secs, keys, hn => by
    rw [List.map_cons]
    unfold collectSectionKeys
    by_cases h0 : s = .null
    · subst h0
      exact ⟨.nullProperty, rfl⟩
    · have hn2 : Json.null ∈ secs := by
        rcases List.mem_cons.1 hn with h | h
        · exact absurd h.symm h0
        · exact h
      cases (sanitizeSection s).read "fields".toList with
      | error e => exact ⟨e, rfl⟩
      | ok fields =>
        dsimp only
        cases iterateOrEmpty fields with
        | error e => exact ⟨e, rfl⟩
        | ok fs =>
          dsimp only
          cases collectFieldKeys stringOf fs keys with
          | error e => exact ⟨e, rfl⟩
          | ok r => exact collectSectionKeys_raises stringOf secs r hn2

/-- Where no stored section is `null` and `String` returns, `getAllExpectedKeysFromLayout`
returns on the loaded layout. -/
theorem expectedKeys_returns (stringOf : Json → Except TypeError Str)
    (hs : ∀ v, ∃ k, stringOf v = .ok k) (v : Json)
    (hn : ∀ stored, v.getProp "sections".toList = some (.arr stored) → Json.null ∉ stored) :
    ∃ keys, Json.getAllExpectedKeysFromLayout stringOf (loadLayout (.parsed v)) = .ok keys := by
  obtain ⟨props, secs, title, hl, hsec, _, hst⟩ := sanitizeLayout_shape v
  have hnull : Json.null ∉ secs := by
    rw [hst]
    cases hg : v.getProp "sections".toList with
    | none => exact null_not_mem_toJson _
    | some x =>
      cases x with
      | arr stored => exact hn stored hg
      | _ => exact null_not_mem_toJson _
  obtain ⟨r, hr⟩ := collectSectionKeys_returns stringOf hs secs [] hnull
  show ∃ keys, Json.getAllExpectedKeysFromLayout stringOf (sanitizeLayout v) = .ok keys
  rw [hl]
  simp only [Json.getAllExpectedKeysFromLayout, Json.read, Json.getProp, hsec, iterateOrEmpty,
    Json.truthy, Bool.not_true, Bool.false_eq_true, if_false, hr]
  exact ⟨_, rfl⟩

/-- Where a stored section is `null`, `getAllExpectedKeysFromLayout` raises on the loaded
layout. -/
theorem expectedKeys_raises (stringOf : Json → Except TypeError Str) (v : Json)
    (stored : List Json) (hv : v.getProp "sections".toList = some (.arr stored))
    (hn : Json.null ∈ stored) :
    ∃ e, Json.getAllExpectedKeysFromLayout stringOf (loadLayout (.parsed v)) = .error e := by
  obtain ⟨props, secs, title, hl, hsec, _, hst⟩ := sanitizeLayout_shape v
  rw [hv] at hst
  subst hst
  obtain ⟨e, he⟩ := collectSectionKeys_raises stringOf secs [] hn
  show ∃ e, Json.getAllExpectedKeysFromLayout stringOf (sanitizeLayout v) = .error e
  rw [hl]
  simp only [Json.getAllExpectedKeysFromLayout, Json.read, Json.getProp, hsec, iterateOrEmpty,
    Json.truthy, Bool.not_true, Bool.false_eq_true, if_false, he]
  exact ⟨_, rfl⟩

/-- On field definitions written as parsed values, the inner loop of
`getAllExpectedKeysFromLayout` is the one of the typed embedding. -/
theorem collectFieldKeys_toJson (stringOf : Json → Except TypeError Str)
    (hs : ∀ s, stringOf (.str s) = .ok s) :
    ∀ (fs : List FieldDef) (keys : List Str),
      collectFieldKeys stringOf (fs.map FieldDef.toJson) keys
        = .ok (fs.foldl (fun keys f => if f.key ≠ [] then setAdd keys f.key else keys) keys)
  | [], _ => rfl
  | f :: fs, keys => by
    have hkey : (FieldDef.toJson f).getProp "key".toList = some (.str f.key) := rfl
    rw [List.map_cons, List.foldl_cons]
    unfold collectFieldKeys
    rw [hkey]
    dsimp only
    by_cases h : f.key = []
    · rw [h]
      exact collectFieldKeys_toJson stringOf hs fs keys
    · have ht : (!(Json.str f.key).truthy) = false := by
        cases hk : f.key with
        | nil => exact absurd hk h
        | cons c cs => rfl
      rw [ht, hs]
      simp only [Bool.false_eq_true, if_false, ne_eq, h, not_false_eq_true, if_true]
      exact collectFieldKeys_toJson stringOf hs fs _

/-- On sections written as parsed values, the outer loop of `getAllExpectedKeysFromLayout`
is the one of the typed embedding. -/
theorem collectSectionKeys_toJson (stringOf : Json → Except TypeError Str)
    (hs : ∀ s, stringOf (.str s) = .ok s) :
    ∀ (secs : List Section) (keys : List Str),
      collectSectionKeys stringOf (secs.map Section.toJson) keys
        = .ok (secs.foldl (fun keys sec => sec.fields.foldl
            (fun keys f => if f.key ≠ [] then setAdd keys f.key else keys) keys) keys)
  | [], _ => rfl
  | sec :: secs, keys => by
    have hread : (Section.toJson sec).read "fields".toList
        = .ok (some (.arr (sec.fields.map FieldDef.toJson))) := rfl
    have hiter : iterateOrEmpty (some (.arr (sec.fields.map FieldDef.toJson)))
        = .ok (sec.fields.map FieldDef.toJson) := rfl
    rw [List.map_cons, List.foldl_cons]
    unfold collectSectionKeys
    rw [hread]
    dsimp only
    rw [hiter]
    dsimp only
    rw [collectFieldKeys_toJson stringOf hs]
    exact collectSectionKeys_toJson stringOf hs secs _

/-- On a layout written as a parsed value, `getAllExpectedKeysFromLayout` returns what it
returns in the typed embedding. -/
theorem expectedKeys_toJson (stringOf : Json → Except TypeError Str)
    (hs : ∀ s, stringOf (.str s) = .ok s) (layoutConfig : Layout) :
    Json.getAllExpectedKeysFromLayout stringOf layoutConfig.toJson
      = .ok (getAllExpectedKeysFromLayout layoutConfig) := by
  have hread : layoutConfig.toJson.read "sections".toList
      = .ok (some (.arr (layoutConfig.sections.map Section.toJson))) := rfl
  have hiter : iterateOrEmpty (some (.arr (layoutConfig.sections.map Section.toJson)))
      = .ok (layoutConfig.sections.map Section.toJson) := rfl
  unfold Json.getAllExpectedKeysFromLayout
  rw [hread]
  dsimp only
  rw [hiter]
  dsimp only
  rw [collectSectionKeys_toJson stringOf hs]
  rfl

/-- A stored layout that is well-formed is loaded as it is. -/
theorem loadLayout_toJson (layoutConfig : Layout) :
    loadLayout (.parsed layoutConfig.toJson) = layoutConfig.toJson := by
  have hmap : (layoutConfig.sections.map Section.toJson).map sanitizeSection
      = layoutConfig.sections.map Section.toJson := by
    rw [List.map_map]
    exact List.map_congr_left fun sec _ => rfl
  show sanitizeLayout layoutConfig.toJson = _
  have e : sanitizeLayout layoutConfig.toJson
      = .obj [("extrasSectionTitle".toList, .str layoutConfig.extrasSectionTitle),
          ("sections".toList,
            .arr ((layoutConfig.sections.map Section.toJson).map sanitizeSection))] := rfl
  rw [e, hmap]
  rfl

/-- C21 fails on the stored document `{"sections":[null]}`: `loadLayout` skips the
element `null` and leaves it in `sections`, so the loaded layout is not well-formed, and
`getAllExpectedKeysFromLayout` raises a `TypeError` when it reads `fields` of `null`. -/
theorem loadLayout_null_section (stringOf : Json → Except TypeError Str) :
    loadLayout nullSectionDocument
      = .obj [("sections".toList, .arr [.null]),
          ("extrasSectionTitle".toList, .str "Extra".toList)] ∧
    ¬ WellFormedLayout (loadLayout nullSectionDocument) ∧
    Json.getAllExpectedKeysFromLayout stringOf (loadLayout nullSectionDocument)
      = .error .nullProperty := by
  refine ⟨rfl, ?_, rfl⟩
  rintro ⟨⟨sections, hsec, hall⟩, _⟩
  have e : sections = [.null] := by
    have h : some (Json.arr [.null]) = some (.arr sections) := hsec
    simpa using h.symm
  obtain ⟨⟨props, hp⟩, _⟩ := hall .null (by rw [e]; exact List.mem_singleton.2 rfl)
  exact absurd hp (by simp)

/-! ## C1, C2, C9, C10: the injection rule -/

theorem inject_disabled (stringOf : Json → Except TypeError Str) (prefs : Prefs)
    (layoutConfig : Json) (customPrompt : Str) (obj : Json)
    (h : prefs.autoInjectPrompt = false) :
    injectIntoPayload stringOf prefs layoutConfig customPrompt obj
      = .ok { obj := obj, injected := false } := by
  simp [injectIntoPayload, h]

theorem inject_notObject (stringOf : Json → Except TypeError Str) (prefs : Prefs)
    (layoutConfig : Json) (customPrompt : Str) (obj : Json)
    (h : (obj.truthy && obj.typeofObject) = false) :
    injectIntoPayload stringOf prefs layoutConfig customPrompt obj
      = .ok { obj := obj, injected := false } := by
  unfold injectIntoPayload
  split
  · rfl
  · have h2 : (!obj.truthy || !obj.typeofObject) = true := by
      cases ht : obj.truthy <;> cases ho : obj.typeofObject <;> simp_all
    rw [if_pos h2]

/-- A payload that is not an object has none of the three shapes. -/
theorem injectPromptText_notObject (prefs : Prefs) (promptText : Str) (obj : Json)
    (h : (obj.truthy && obj.typeofObject) = false) :
    injectPromptText prefs promptText obj = .ok { obj := obj, injected := false } := by
  have hnone : ∀ name, obj.getProp name = none := by
    intro name
    cases obj with
    | obj props => exact absurd h (by simp [Json.truthy, Json.typeofObject])
    | _ => rfl
  exact inject_noShape prefs promptText
    (fun ⟨ms, hms⟩ => by rw [hnone] at hms; exact absurd hms (by simp))
    (fun ⟨q, hq⟩ => by rw [hnone] at hq; exact absurd hq (by simp))
    (fun ⟨q, hq⟩ => by rw [hnone] at hq; exact absurd hq (by simp))

/-- With auto-injection enabled, in a state in which `getEffectiveInjectionPrompt` returns,
the call runs the statements after the prompt with the text it returned. -/
theorem inject_of_prompt (stringOf : Json → Except TypeError Str) (prefs : Prefs)
    (layoutConfig : Json) (customPrompt : Str) (obj : Json) (promptText : Str)
    (hauto : prefs.autoInjectPrompt = true)
    (hp : Json.getEffectiveInjectionPrompt stringOf prefs layoutConfig customPrompt
      = .ok promptText) :
    injectIntoPayload stringOf prefs layoutConfig customPrompt obj
      = injectPromptText prefs promptText obj := by
  by_cases hobj : (obj.truthy && obj.typeofObject) = false
  · rw [inject_notObject _ _ _ _ _ hobj, injectPromptText_notObject _ _ _ hobj]
  · have h2 : ¬ (!obj.truthy || !obj.typeofObject) = true := by
      cases ht : obj.truthy <;> cases ho : obj.typeofObject <;> simp_all
    unfold injectIntoPayload
    rw [if_neg (by simp [hauto]), if_neg h2, hp]

/-- With auto-injection enabled, on an object payload, the call raises whenever
`getEffectiveInjectionPrompt` does. -/
theorem inject_raises (stringOf : Json → Except TypeError Str) (prefs : Prefs)
    (layoutConfig : Json) (customPrompt : Str) (obj : Json) (e : TypeError)
    (hauto : prefs.autoInjectPrompt = true)
    (hobj : (obj.truthy && obj.typeofObject) = true)
    (hp : Json.getEffectiveInjectionPrompt stringOf prefs layoutConfig customPrompt
      = .error e) :
    injectIntoPayload stringOf prefs layoutConfig customPrompt obj = .error e := by
  have h2 : ¬ (!obj.truthy || !obj.typeofObject) = true := by
    cases ht : obj.truthy <;> cases ho : obj.typeofObject <;> simp_all
  unfold injectIntoPayload
  rw [if_neg (by simp [hauto]), if_neg h2, hp]

/-- The prompt that `getEffectiveInjectionPrompt` returns contains the marker. -/
theorem loadedPrompt_includes_marker (stringOf : Json → Except TypeError Str) (prefs : Prefs)
    (layoutConfig : Json) (customPrompt promptText : Str)
    (hp : Json.getEffectiveInjectionPrompt stringOf prefs layoutConfig customPrompt
      = .ok promptText) :
    includes promptText IBS_MARKER = true := by
  unfold Json.getEffectiveInjectionPrompt at hp
  by_cases hm : prefs.promptMode = "custom".toList
  · rw [if_pos hm] at hp
    obtain rfl := Except.ok.inj hp
    by_cases hi : includes customPrompt IBS_MARKER = true
    · simp only [hi, if_true]
    · simp only [hi, if_false, Bool.false_eq_true, List.append_assoc]
      exact includes_self_append IBS_MARKER _
  · rw [if_neg hm] at hp
    unfold Json.buildPromptFromSchema at hp
    cases h1 : layoutConfig.read "sections".toList with
    | error e => rw [h1] at hp; exact absurd hp (by simp)
    | ok sections =>
      rw [h1] at hp
      dsimp only at hp
      cases h2 : iterateOrEmpty sections with
      | error e => rw [h2] at hp; exact absurd hp (by simp)
      | ok secs =>
        rw [h2] at hp
        dsimp only at hp
        cases h3 : walkSections stringOf secs ([], []) with
        | error e => rw [h3] at hp; exact absurd hp (by simp)
        | ok acc =>
          rw [h3] at hp
          obtain ⟨keysInOrder, keyToField⟩ := acc
          dsimp only at hp
          obtain rfl := Except.ok.inj hp
          rw [List.append_assoc, List.append_assoc]
          exact includes_self_append IBS_MARKER _

/-- In a state in which the effective prompt is computed, injection is idempotent: for
every payload whose messages have string contents the first call returns, a second call on
the payload it returned reports no change, and when the examined field already contains
the marker the first call itself reports no change. -/
theorem inject_idempotent_of_prompt (stringOf : Json → Except TypeError Str) (prefs : Prefs)
    (layoutConfig : Json) (customPrompt : Str) (obj : Json) (promptText : Str)
    (hp : Json.getEffectiveInjectionPrompt stringOf prefs layoutConfig customPrompt
      = .ok promptText)
    (hmsgs : messagesHaveStringContent obj = true) :
    ∃ r, injectIntoPayload stringOf prefs layoutConfig customPrompt obj = .ok r ∧
      injectIntoPayload stringOf prefs layoutConfig customPrompt r.obj
        = .ok { obj := r.obj, injected := false } ∧
      (ExaminedFieldHasMarker obj → r = { obj := obj, injected := false }) := by
  by_cases hauto : prefs.autoInjectPrompt = true
  swap
  · have hd : prefs.autoInjectPrompt = false := by simpa using hauto
    exact ⟨_, inject_disabled _ _ _ _ _ hd, inject_disabled _ _ _ _ _ hd, fun _ => rfl⟩
  have hinc := loadedPrompt_includes_marker _ _ _ _ _ hp
  obtain ⟨r, hr⟩ := inject_total_of_string prefs promptText obj hmsgs
  refine ⟨r, by rw [inject_of_prompt _ _ _ _ _ _ hauto hp, hr], ?_, fun hmark => ?_⟩
  · rw [inject_of_prompt _ _ _ _ _ _ hauto hp]
    exact inject_twice prefs promptText hinc obj r hr
  · have h2 := inject_of_examined_marker prefs promptText obj hmsgs hmark
    rw [hr] at h2
    exact Except.ok.inj h2

/-- In a state in which the effective prompt is computed, with auto-injection enabled, a
`messages` array of messages with string (or missing) content is left as it is when a
message contains the marker, and gets exactly one new message otherwise. -/
theorem inject_messages_of_prompt (stringOf : Json → Except TypeError Str) (prefs : Prefs)
    (layoutConfig : Json) (customPrompt : Str) (obj : Json) (promptText : Str)
    (ms : List Json)
    (hp : Json.getEffectiveInjectionPrompt stringOf prefs layoutConfig customPrompt
      = .ok promptText)
    (hauto : prefs.autoInjectPrompt = true)
    (hms : obj.getProp "messages".toList = some (.arr ms))
    (hstr : ms.all hasStringContent = true) :
    ((∃ m ∈ ms, includes (messageContent m) IBS_MARKER = true) →
      injectIntoPayload stringOf prefs layoutConfig customPrompt obj
        = .ok { obj := obj, injected := false }) ∧
    ((∀ m ∈ ms, includes (messageContent m) IBS_MARKER = false) →
      ∃ r, injectIntoPayload stringOf prefs layoutConfig customPrompt obj = .ok r ∧
        r.injected = true ∧
        r.obj.getProp "messages".toList = some (.arr (ms ++ [.obj [
          ("role".toList, .str (if prefs.injectRole = "user".toList then "user".toList
            else "system".toList)),
          ("content".toList, .str promptText)]]))) := by
  have hall : ∀ m ∈ ms, HasStringContent m := fun m hmem =>
    (hasStringContent_iff m).1 (List.all_eq_true.1 hstr m hmem)
  have hinj := inject_messages prefs promptText hms
  rw [arraySome_of_string ms hall] at hinj
  rw [inject_of_prompt _ _ _ _ _ _ hauto hp]
  constructor
  · rintro ⟨m, hmem, hinc⟩
    have hany : (ms.any fun m => includes (messageContent m) IBS_MARKER) = true :=
      List.any_eq_true.2 ⟨m, hmem, hinc⟩
    rw [hinj, hany]
  · intro hnone
    have hany : (ms.any fun m => includes (messageContent m) IBS_MARKER) = false := by
      rw [List.any_eq_false]
      intro m hmem
      simp [hnone m hmem]
    rw [hany] at hinj
    exact ⟨_, hinj, rfl, getProp_setProp_self _ hms⟩

/-- In a state in which the effective prompt is computed, at most one branch fires, in the
priority order messages, prompt, system_prompt, and the call reports no change when
auto-injection is disabled, the payload is not an object, or none of the three shapes is
present. -/
theorem inject_one_branch_of_prompt (stringOf : Json → Except TypeError Str) (prefs : Prefs)
    (layoutConfig : Json) (customPrompt : Str) (obj : Json) (promptText : Str)
    (hp : Json.getEffectiveInjectionPrompt stringOf prefs layoutConfig customPrompt
      = .ok promptText) :
    match injectIntoPayload stringOf prefs layoutConfig customPrompt obj with
    | .ok r =>
      (IsArrayProp obj "messages".toList →
        r.obj.getProp "prompt".toList = obj.getProp "prompt".toList ∧
        r.obj.getProp "system_prompt".toList = obj.getProp "system_prompt".toList) ∧
      (¬ IsArrayProp obj "messages".toList → IsStringProp obj "prompt".toList →
        r.obj.getProp "messages".toList = obj.getProp "messages".toList ∧
        r.obj.getProp "system_prompt".toList = obj.getProp "system_prompt".toList) ∧
      (¬ IsArrayProp obj "messages".toList → ¬ IsStringProp obj "prompt".toList →
        r.obj.getProp "messages".toList = obj.getProp "messages".toList ∧
        r.obj.getProp "prompt".toList = obj.getProp "prompt".toList) ∧
      (prefs.autoInjectPrompt = false ∨ (obj.truthy && obj.typeofObject) = false ∨
          (¬ IsArrayProp obj "messages".toList ∧ ¬ IsStringProp obj "prompt".toList ∧
            ¬ IsStringProp obj "system_prompt".toList) →
        r = { obj := obj, injected := false })
    | .error _ => IsArrayProp obj "messages".toList := by
  by_cases hauto : prefs.autoInjectPrompt = true
  swap
  · rw [inject_disabled _ _ _ _ _ (by simpa using hauto)]
    simp
  rw [inject_of_prompt _ _ _ _ _ _ hauto hp]
  have h := injectPromptText_one_branch prefs promptText obj
  cases hres : injectPromptText prefs promptText obj with
  | error e =>
    rw [hres] at h
    exact h
  | ok r =>
    rw [hres] at h
    obtain ⟨h1, h2, h3, h4⟩ := h
    refine ⟨h1, h2, h3, ?_⟩
    rintro (h | h | h)
    · rw [hauto] at h; exact absurd h (by decide)
    · have hn := injectPromptText_notObject prefs promptText obj h
      rw [hres] at hn
      exact Except.ok.inj hn
    · exact h4 h

/-- C1 fails in the state that `loadLayout` leaves for the stored layout
`{"sections":[null]}`, with the default preferences (auto-injection enabled, prompt from
the schema): on the payload `{ prompt: "<!-- IBS_PROMPT --> Hi" }`, whose examined field
already contains the marker, the call does not report "no change" but raises, because
`getEffectiveInjectionPrompt` reads `fields` of the `null` section before the payload is
looked at.  This is the defect of C21. -/
theorem injectIntoPayload_marked_raises (stringOf : Json → Except TypeError Str) :
    DEFAULT_PREFS.autoInjectPrompt = true ∧
    messagesHaveStringContent markedPayload = true ∧
    ExaminedFieldHasMarker markedPayload ∧
    Json.getEffectiveInjectionPrompt stringOf DEFAULT_PREFS nullSectionLayout []
      = .error .nullProperty ∧
    injectIntoPayload stringOf DEFAULT_PREFS nullSectionLayout [] markedPayload
      = .error .nullProperty := by
  refine ⟨rfl, rfl, Or.inr (Or.inl ⟨?_, _, rfl, by decide⟩), rfl, rfl⟩
  rintro ⟨ms, hms⟩
  exact absurd hms (by simp [markedPayload, Json.getProp, List.lookup])

/-- C2 fails in the state that `loadLayout` leaves for the stored layout
`{"sections":[null]}`, with the default preferences: on the payload
`{ messages: [{ role: "user", content: "Hello" }] }`, whose only message has a string
content without the marker, the call does not report a change and appends no message but
raises, because `getEffectiveInjectionPrompt` reads `fields` of the `null` section.  This
is the defect of C21. -/
theorem injectIntoPayload_messages_raises (stringOf : Json → Except TypeError Str) :
    DEFAULT_PREFS.autoInjectPrompt = true ∧
    chatPayload.getProp "messages".toList = some (.arr [helloMessage]) ∧
    [helloMessage].all hasStringContent = true ∧
    (∀ m ∈ [helloMessage], includes (messageContent m) IBS_MARKER = false) ∧
    injectIntoPayload stringOf DEFAULT_PREFS nullSectionLayout [] chatPayload
      = .error .nullProperty := by
  refine ⟨rfl, rfl, rfl, ?_, rfl⟩
  intro m hm
  rw [List.mem_singleton] at hm
  subst hm
  decide

/-- C9 fails in the state that `loadLayout` leaves for the stored layout
`{"sections":[null]}`, with the default preferences: on the payload `{}`, which has none
of the three shapes, the call does not report "no change" but raises, because
`getEffectiveInjectionPrompt` is called before the shapes are tested and reads `fields` of
the `null` section.  This is the defect of C21. -/
theorem injectIntoPayload_noShape_raises (stringOf : Json → Except TypeError Str) :
    ¬ IsArrayProp emptyPayload "messages".toList ∧
    ¬ IsStringProp emptyPayload "prompt".toList ∧
    ¬ IsStringProp emptyPayload "system_prompt".toList ∧
    injectIntoPayload stringOf DEFAULT_PREFS nullSectionLayout [] emptyPayload
      = .error .nullProperty := by
  refine ⟨?_, ?_, ?_, rfl⟩ <;>
  · rintro ⟨x, hx⟩
    exact absurd hx (by simp [emptyPayload, Json.getProp, List.lookup])

/-- C10 as stated fails: on `{ messages: [], prompt: "Hi" }` with the default preferences
and the built-in layout the call returns, the `prompt` string does not contain the marker,
and yet the resulting `prompt` is not the original followed by two newlines and the
effective prompt (the messages branch fired instead). -/
theorem injectIntoPayload_prompt_counterexample :
    ∃ r promptText,
      Json.getEffectiveInjectionPrompt sampleStringOf DEFAULT_PREFS DEFAULT_LAYOUT.toJson []
        = .ok promptText ∧
      injectIntoPayload sampleStringOf DEFAULT_PREFS DEFAULT_LAYOUT.toJson [] mixedPayload
        = .ok r ∧
      mixedPayload.getProp "prompt".toList = some (.str "Hi".toList) ∧
      includes "Hi".toList IBS_MARKER = false ∧
      r.obj.getProp "prompt".toList
        ≠ some (.str ("Hi".toList ++ "\n\n".toList ++ promptText)) := by
  refine ⟨_, _, rfl, rfl, rfl, by decide, ?_⟩
  intro h
  have h2 := Json.str.inj (Option.some.inj h)
  have h3 := congrArg List.length h2
  simp only [List.length_append] at h3
  have h4 : "Hi".toList.length = 2 := rfl
  have h5 : "\n\n".toList.length = 2 := rfl
  omega

/-- C10 (amended): the injector is purely additive.  For every payload and every state in
which the effective prompt is computed, when the call returns: the original `messages`
list is a prefix of the resulting one, the original `prompt` and `system_prompt` strings
are prefixes of the resulting ones, and every other property is unchanged; and when
auto-injection is enabled and `messages` is not an array, a `prompt` string without the
marker becomes exactly the original followed by two newlines and the effective prompt, and
likewise a `system_prompt` string when in addition `prompt` is not a string.  The call can
then only raise while it tests the messages of a `messages` array, which is before any
mutation. -/
theorem injectIntoPayload_additive (stringOf : Json → Except TypeError Str) (prefs : Prefs)
    (layoutConfig : Json) (customPrompt : Str) (obj : Json) (promptText : Str)
    (hp : Json.getEffectiveInjectionPrompt stringOf prefs layoutConfig customPrompt
      = .ok promptText) :
    match injectIntoPayload stringOf prefs layoutConfig customPrompt obj with
    | .ok r =>
      (∀ ms, obj.getProp "messages".toList = some (.arr ms) →
        ∃ ms2, r.obj.getProp "messages".toList = some (.arr ms2) ∧ ms <+: ms2) ∧
      (∀ p, obj.getProp "prompt".toList = some (.str p) →
        ∃ p2, r.obj.getProp "prompt".toList = some (.str p2) ∧ p <+: p2) ∧
      (∀ p, obj.getProp "system_prompt".toList = some (.str p) →
        ∃ p2, r.obj.getProp "system_prompt".toList = some (.str p2) ∧ p <+: p2) ∧
      (∀ k, k ≠ "messages".toList → k ≠ "prompt".toList → k ≠ "system_prompt".toList →
        r.obj.getProp k = obj.getProp k) ∧
      (prefs.autoInjectPrompt = true → ¬ IsArrayProp obj "messages".toList →
        ∀ p, obj.getProp "prompt".toList = some (.str p) → includes p IBS_MARKER = false →
          r.obj.getProp "prompt".toList
            = some (.str (p ++ "\n\n".toList ++ promptText))) ∧
      (prefs.autoInjectPrompt = true → ¬ IsArrayProp obj "messages".toList →
        ¬ IsStringProp obj "prompt".toList →
        ∀ p, obj.getProp "system_prompt".toList = some (.str p) →
          includes p IBS_MARKER = false →
          r.obj.getProp "system_prompt".toList
            = some (.str (p ++ "\n\n".toList ++ promptText)))
    | .error _ => IsArrayProp obj "messages".toList := by
  by_cases hauto : prefs.autoInjectPrompt = true
  swap
  · rw [inject_disabled _ _ _ _ _ (by simpa using hauto)]
    exact ⟨fun ms h => ⟨ms, h, List.prefix_refl ms⟩, fun q h => ⟨q, h, List.prefix_refl q⟩,
      fun q h => ⟨q, h, List.prefix_refl q⟩, fun _ _ _ _ => rfl,
      fun h => absurd h hauto, fun h => absurd h hauto⟩
  rw [inject_of_prompt _ _ _ _ _ _ hauto hp]
  have h := injectPromptText_additive prefs promptText obj
  cases hres : injectPromptText prefs promptText obj with
  | error e =>
    rw [hres] at h
    exact h
  | ok r =>
    rw [hres] at h
    obtain ⟨h1, h2, h3, h4, h5, h6⟩ := h
    exact ⟨h1, h2, h3, h4, fun _ => h5, fun _ => h6⟩

/-- Witness for C10 (amended): the payload `{ prompt: "Hi" }` with the default preferences
and the built-in layout; the resulting `prompt` is `Hi`, two newlines and the generated
prompt. -/
theorem injectIntoPayload_additive_witness :
    Json.getEffectiveInjectionPrompt sampleStringOf DEFAULT_PREFS DEFAULT_LAYOUT.toJson []
      = .ok (buildPromptFromSchema DEFAULT_LAYOUT) ∧
    ∃ r, injectIntoPayload sampleStringOf DEFAULT_PREFS DEFAULT_LAYOUT.toJson [] promptPayload
        = .ok r ∧
      r.obj.getProp "prompt".toList = some (.str ("Hi".toList ++ "\n\n".toList ++
        buildPromptFromSchema DEFAULT_LAYOUT)) := by
  have h := injectIntoPayload_additive sampleStringOf DEFAULT_PREFS DEFAULT_LAYOUT.toJson []
    promptPayload (buildPromptFromSchema DEFAULT_LAYOUT) rfl
  have hnot : ¬ IsArrayProp promptPayload "messages".toList := by
    rintro ⟨ms, hms⟩
    exact absurd hms (by simp [promptPayload, Json.getProp, List.lookup])
  exact ⟨rfl, _, rfl, h.2.2.2.2.1 rfl hnot _ rfl (by decide)⟩

/-! ## The loaded layout and the typed layout -/

theorem lookup_map_toJson (k : Str) :
    ∀ l : List (Str × FieldDef),
      (l.map fun e => (e.1, FieldDef.toJson e.2)).lookup k
        = (l.lookup k).map FieldDef.toJson
  | [] => rfl
  | (k2, f) :: rest => by
    by_cases h : k = k2
    · subst h
      simp [List.lookup]
    · have hb : (k == k2) = false := by simpa using h
      simp only [List.map_cons, List.lookup, hb]
      exact lookup_map_toJson k rest

/-- On a field definition written as a parsed value, the step of `buildPromptFromSchema`
is the one of the typed embedding. -/
theorem schemaStep_toJson (stringOf : Json → Except TypeError Str)
    (hs : ∀ s, stringOf (.str s) = .ok s) (acc : List Str × List (Str × FieldDef))
    (f : FieldDef) :
    Json.schemaStep stringOf (acc.1, acc.2.map fun e => (e.1, FieldDef.toJson e.2))
        (FieldDef.toJson f)
      = .ok ((schemaStep acc f).1,
          (schemaStep acc f).2.map fun e => (e.1, FieldDef.toJson e.2)) := by
  have hkey : (FieldDef.toJson f).getProp "key".toList = some (.str f.key) := rfl
  unfold Json.schemaStep schemaStep
  rw [hkey]
  dsimp only
  by_cases h : f.key = []
  · rw [h]
    rfl
  · have ht : (!(Json.str f.key).truthy) = false := by
      cases hk : f.key with
      | nil => exact absurd hk h
      | cons c cs => rfl
    rw [ht, hs, if_neg h]
    dsimp only
    by_cases hk : trim f.key = []
    · simp only [Bool.false_eq_true, if_false, hk, if_true]
    · simp only [Bool.false_eq_true, if_false, hk, List.map_cons]

theorem walkFields_toJson (stringOf : Json → Except TypeError Str)
    (hs : ∀ s, stringOf (.str s) = .ok s) :
    ∀ (fs : List FieldDef) (acc : List Str × List (Str × FieldDef)),
      walkFields stringOf (fs.map FieldDef.toJson)
          (acc.1, acc.2.map fun e => (e.1, FieldDef.toJson e.2))
        = .ok ((fs.foldl schemaStep acc).1,
            (fs.foldl schemaStep acc).2.map fun e => (e.1, FieldDef.toJson e.2))
  | [], _ => rfl
  | f :: fs, acc => by
    rw [List.map_cons, List.foldl_cons]
    unfold walkFields
    rw [schemaStep_toJson stringOf hs]
    exact walkFields_toJson stringOf hs fs _

theorem walkSections_toJson (stringOf : Json → Except TypeError Str)
    (hs : ∀ s, stringOf (.str s) = .ok s) :
    ∀ (secs : List Section) (acc : List Str × List (Str × FieldDef)),
      walkSections stringOf (secs.map Section.toJson)
          (acc.1, acc.2.map fun e => (e.1, FieldDef.toJson e.2))
        = .ok ((secs.foldl (fun acc sec => sec.fields.foldl schemaStep acc) acc).1,
            (secs.foldl (fun acc sec => sec.fields.foldl schemaStep acc) acc).2.map
              fun e => (e.1, FieldDef.toJson e.2))
  | [], _ => rfl
  | sec :: secs, acc => by
    have hread : (Section.toJson sec).read "fields".toList
        = .ok (some (.arr (sec.fields.map FieldDef.toJson))) := rfl
    have hiter : iterateOrEmpty (some (.arr (sec.fields.map FieldDef.toJson)))
        = .ok (sec.fields.map FieldDef.toJson) := rfl
    rw [List.map_cons, List.foldl_cons]
    unfold walkSections
    rw [hread]
    dsimp only
    rw [hiter]
    dsimp only
    rw [walkFields_toJson stringOf hs]
    exact walkSections_toJson stringOf hs secs _

/-- On a layout written as a parsed value, `buildPromptFromSchema` returns what it returns
in the typed embedding. -/
theorem buildPromptFromSchema_toJson (stringOf : Json → Except TypeError Str)
    (hs : ∀ s, stringOf (.str s) = .ok s) (layoutConfig : Layout) :
    Json.buildPromptFromSchema stringOf layoutConfig.toJson
      = .ok (buildPromptFromSchema layoutConfig) := by
  have hread : layoutConfig.toJson.read "sections".toList
      = .ok (some (.arr (layoutConfig.sections.map Section.toJson))) := rfl
  have hiter : iterateOrEmpty (some (.arr (layoutConfig.sections.map Section.toJson)))
      = .ok (layoutConfig.sections.map Section.toJson) := rfl
  have hwalk := walkSections_toJson stringOf hs layoutConfig.sections ([], [])
  have hline : ∀ k (l : List (Str × FieldDef)),
      Json.instructionLine k ((l.map fun e => (e.1, FieldDef.toJson e.2)).lookup k)
        = match l.lookup k with
          | some f => instructionLine k f.display
          | none => instructionLine k [] := by
    intro k l
    rw [lookup_map_toJson]
    cases l.lookup k with
    | none => rfl
    | some f => rfl
  unfold Json.buildPromptFromSchema
  rw [hread]
  dsimp only
  rw [hiter]
  dsimp only
  have hnil : (([], []) : List Str × List (Str × Json))
      = ((([], []) : List Str × List (Str × FieldDef)).1,
        (([], []) : List Str × List (Str × FieldDef)).2.map
          fun e => (e.1, FieldDef.toJson e.2)) := rfl
  rw [hnil, hwalk]
  dsimp only
  simp only [hline]
  rfl

/-- On a layout written as a parsed value, `getEffectiveInjectionPrompt` returns what it
returns in the typed embedding. -/
theorem getEffectiveInjectionPrompt_toJson (stringOf : Json → Except TypeError Str)
    (hs : ∀ s, stringOf (.str s) = .ok s) (prefs : Prefs) (layoutConfig : Layout)
    (customPrompt : Str) :
    Json.getEffectiveInjectionPrompt stringOf prefs layoutConfig.toJson customPrompt
      = .ok (getEffectiveInjectionPrompt prefs layoutConfig customPrompt) := by
  unfold Json.getEffectiveInjectionPrompt getEffectiveInjectionPrompt
  by_cases hm : prefs.promptMode = "custom".toList
  · simp only [hm, if_true]
  · simp only [hm, if_false]
    exact buildPromptFromSchema_toJson stringOf hs layoutConfig

/-- The loops of `buildPromptFromSchema` raise on the sections that `loadLayout` leaves
when one of them is `null`. -/
theorem walkSections_raises (stringOf : Json → Except TypeError Str) :
    ∀ (secs : List Json) (acc : List Str × List (Str × Json)), Json.null ∈ secs →
      ∃ e, walkSections stringOf (secs.map sanitizeSection) acc = .error e
  | [], _, hn => absurd hn (List.not_mem_nil _)
  | s :: secs, acc, hn => by
    rw [List.map_cons]
    unfold walkSections
    by_cases h0 : s = .null
    · subst h0
      exact ⟨.nullProperty, rfl⟩
    · have hn2 : Json.null ∈ secs := by
        rcases List.mem_cons.1 hn with h | h
        · exact absurd h.symm h0
        · exact h
      cases (sanitizeSection s).read "fields".toList with
      | error e => exact ⟨e, rfl⟩
      | ok fields =>
        dsimp only
        cases iterateOrEmpty fields with
        | error e => exact ⟨e, rfl⟩
        | ok fs =>
          dsimp only
          cases walkFields stringOf fs acc with
          | error e => exact ⟨e, rfl⟩
          | ok r => exact walkSections_raises stringOf secs r hn2

/-- Where a stored section is `null`, with auto-injection enabled and the prompt taken
from the schema, the injector raises on every object payload. -/
theorem inject_raises_of_null (stringOf : Json → Except TypeError Str) (prefs : Prefs)
    (customPrompt : Str) (v obj : Json) (stored : List Json)
    (hv : v.getProp "sections".toList = some (.arr stored)) (hn : Json.null ∈ stored)
    (hauto : prefs.autoInjectPrompt = true) (hmode : prefs.promptMode ≠ "custom".toList)
    (hobj : (obj.truthy && obj.typeofObject) = true) :
    ∃ e, injectIntoPayload stringOf prefs (loadLayout (.parsed v)) customPrompt obj
      = .error e := by
  obtain ⟨props, secs, title, hl, hsec, _, hst⟩ := sanitizeLayout_shape v
  rw [hv] at hst
  subst hst
  obtain ⟨e, he⟩ := walkSections_raises stringOf secs ([], []) hn
  refine ⟨e, inject_raises _ _ _ _ _ _ hauto hobj ?_⟩
  show Json.getEffectiveInjectionPrompt stringOf prefs (sanitizeLayout v) customPrompt = _
  rw [hl]
  unfold Json.getEffectiveInjectionPrompt
  rw [if_neg hmode]
  simp only [Json.buildPromptFromSchema, Json.read, Json.getProp, hsec, iterateOrEmpty,
    Json.truthy, Bool.not_true, Bool.false_eq_true, if_false, he]

end InfoBoard
